import Mathlib

/-! cmatrix: the stream engine of `cmatrix.c`.

A shallow embedding of the global state of `cmatrix.c` (the cell grid `matrix`, the per-column
arrays `length`, `spaces`, `updates`, the pre-generated buffer `rand_array` with the cursor of
`next_rand`) and of the code that works on it: `var_init`, `next_rand`, the per-tick column
update and render pass of `main`, the signal / key handling at the top of the main loop, and
the option loop at the start of `main`.

Conventions.
* `rand()` is an arbitrary stream `rng : Nat → Nat`; `calls` counts the calls made so far.
* C `int`s are `Int`; row and column indices, which the code only counts upwards from `0`,
  are `Nat`.
* `while` and `for` loops are structural recursions on a fuel argument that is handed the
  exact number of iterations still possible (`LINES + 1 - i` for a row loop), so that the
  fuel is `0` only when the loop condition is false anyway.
* Every read or write of `matrix[i][j]`, `rand_array[k]` and `chars_array[v]` is recorded in
  the ghost field `log`, which nothing reads.
-/

namespace CMatrix

/-! ## Constants -/

/-- `#define RAND_LEN 1000`. -/
def RAND_LEN : Nat := 1000

/-- `#define CHARS_LEN 44`. -/
def CHARS_LEN : Nat := 44

/-- Colour numbers of `curses.h`. -/
def COLOR_BLACK : Nat := 0
def COLOR_RED : Nat := 1
def COLOR_GREEN : Nat := 2
def COLOR_YELLOW : Nat := 3
def COLOR_BLUE : Nat := 4
def COLOR_MAGENTA : Nat := 5
def COLOR_CYAN : Nat := 6
def COLOR_WHITE : Nat := 7

/-- Signal numbers of `signal.h` (Linux). -/
def SIGINT : Int := 2
def SIGQUIT : Int := 3
def SIGTSTP : Int := 20
def SIGWINCH : Int := 28

/-! ## Data model -/

/-- `typedef struct cmatrix { int val; bool is_head; } cmatrix;` -/
structure cmatrix where
  val : Int
  is_head : Bool
deriving DecidableEq, Repr

/-- One indexing operation on one of the three arrays the engine reads. -/
inductive Access where
  | grid (i j : Nat)
  | buf (k : Nat)
  | chars (v : Int)
deriving DecidableEq, Repr

/-- The argument of one `addstr` call of the render pass. -/
inductive Text where
  | blank
  | glyph (v : Int)
  | lam
deriving DecidableEq, Repr

/-- One `addstr` call: cursor position and the attributes that are on when it is made. -/
structure Draw where
  y : Nat
  x : Nat
  pair : Nat
  bold : Bool
  text : Text
deriving DecidableEq, Repr

/-- The locals of `main` that the per-tick code reads and does not write. -/
structure Config where
  screensaver : Int
  asynch : Int
  bold : Int
  rainbow : Int
  lambda : Int
  pause : Int
  changes : Int
  update : Int
deriving DecidableEq, Repr

/-- The globals of `cmatrix.c`, the locals `count` and `mcolor` of `main`, the static cursor
`index` of `next_rand`, the attribute state of curses, and the ghost fields `out` and `log`. -/
structure World where
  LINES : Nat
  COLS : Nat
  matrix : Nat → Nat → cmatrix
  length : Nat → Int
  spaces : Nat → Int
  updates : Nat → Int
  rand_array : Nat → Int
  index : Nat
  rng : Nat → Nat
  calls : Nat
  count : Int
  mcolor : Nat
  attr_pair : Nat
  attr_bold : Bool
  out : List Draw
  log : List Access

/-- The array `a` with `a[j] = v`. -/
def setAt (a : Nat → Int) (j : Nat) (v : Int) : Nat → Int :=
  fun k => if k = j then v else a k

/-- The value of `rand()`; the world after the call. -/
def World.rand (s : World) : Nat × World :=
  (s.rng s.calls, { s with calls := s.calls + 1 })

/-- A read of `matrix[i][j]`. -/
def World.touch (s : World) (i j : Nat) : World :=
  { s with log := Access.grid i j :: s.log }

/-- The assignment `matrix[i][j].val = v`. -/
def World.setVal (s : World) (i j : Nat) (v : Int) : World :=
  { s with
    matrix := fun a b => if a = i ∧ b = j then { s.matrix a b with val := v } else s.matrix a b
    log := Access.grid i j :: s.log }

/-- The assignment `matrix[i][j].is_head = h`. -/
def World.setHead (s : World) (i j : Nat) (h : Bool) : World :=
  { s with
    matrix := fun a b => if a = i ∧ b = j then { s.matrix a b with is_head := h }
                         else s.matrix a b
    log := Access.grid i j :: s.log }

/-- C remainder `a % b` of non-negative operands; undefined (`none`) for `b = 0`. -/
def crem (a b : Nat) : Option Nat :=
  if b = 0 then none else some (a % b)

/-! ## `next_rand` -/

/-- `next_rand`: the buffer entry under the cursor; the cursor moves on and wraps to `0`
once it is past `RAND_LEN`. -/
def next_rand (s : World) : Int × World :=
  let next := s.rand_array s.index
  let s := { s with log := Access.buf s.index :: s.log }
  let index := s.index + 1
  let index := if index > RAND_LEN then 0 else index
  (next, { s with index := index })

/-! ## `var_init` -/

/-- The loop `for (i = 0; i <= RAND_LEN; i++) rand_array[i] = rand() % (CHARS_LEN - 1) + 1;`. -/
def fillRand : Nat → Nat → World → World
  | 0, _, s => s
  | fuel + 1, i, s =>
    if i ≤ RAND_LEN then
      let (r, s) := s.rand
      let s := { s with
        rand_array := setAt s.rand_array i ((r % (CHARS_LEN - 1) + 1 : Nat) : Int)
        log := Access.buf i :: s.log }
      fillRand fuel (i + 1) s
    else s

/-- The inner loop `for (j = 0; j <= COLS - 1; j += 2) matrix[i][j].val = -1;`. -/
def clearRow (i : Nat) : Nat → Nat → World → World
  | 0, _, s => s
  | fuel + 1, j, s =>
    if j + 1 ≤ s.COLS then clearRow i fuel (j + 2) (s.setVal i j (-1)) else s

/-- The outer loop `for (i = 0; i <= LINES; i++)` of "Make the matrix". -/
def clearRows : Nat → Nat → World → World
  | 0, _, s => s
  | fuel + 1, i, s =>
    if i ≤ s.LINES then clearRows fuel (i + 1) (clearRow i s.COLS 0 s) else s

/-- The body of the last loop of `var_init` for column `j`. The two remainders are by `LINES`
and by `LINES / 2`; a zero divisor is undefined behaviour and ends the run. -/
def initColumn (j : Nat) (s : World) : Option World :=
  let (r1, s) := s.rand
  match crem r1 s.LINES with
  | none => none
  | some a =>
    let s := { s with spaces := setAt s.spaces j ((a + 1 : Nat) : Int) }
    let (r2, s) := s.rand
    match crem r2 (s.LINES / 2) with
    | none => none
    | some b =>
      let s := { s with length := setAt s.length j ((b + 3 : Nat) : Int) }
      let s := s.setVal 1 j (-2)
      let (r3, s) := s.rand
      some { s with updates := setAt s.updates j ((r3 % 3 + 1 : Nat) : Int) }

/-- The last loop of `var_init`: `for (j = 0; j <= COLS - 1; j += 2) { ... }`. -/
def initColumns : Nat → Nat → World → Option World
  | 0, _, s => some s
  | fuel + 1, j, s =>
    if j + 1 ≤ s.COLS then
      match initColumn j s with
      | none => none
      | some s => initColumns fuel (j + 2) s
    else some s

/-- `var_init`. `LINES` and `COLS` are those of `s`; `fresh` is the content of the block
that `nmalloc` returns for `matrix`, which the code does not clear. The cursor of
`next_rand` is a static of that function and keeps its value. -/
def var_init (fresh : Nat → Nat → cmatrix) (s : World) : Option World :=
  let s := { s with matrix := fresh }
  let s := fillRand (RAND_LEN + 1) 0 s
  let s := clearRows (s.LINES + 1) 0 s
  initColumns s.COLS 0 s

/-! ## The column update of `main` -/

/-- Spawn gating, the `if` / `else if` in front of the column walk. -/
def gate (j : Nat) (s : World) : World :=
  let s := s.touch 0 j
  if (s.matrix 0 j).val < 0 ∧ s.spaces j > 0 then
    { s with spaces := setAt s.spaces j (s.spaces j - 1) }
  else
    let s := s.touch 0 j
    if (s.matrix 0 j).val < 0 then
      let s := s.touch 1 j
      if (s.matrix 1 j).val = -2 then
        let (r1, s) := s.rand
        let s := { s with length := setAt s.length j ((r1 % (s.LINES / 2) + 3 : Nat) : Int) }
        let (g, s) := next_rand s
        let s := s.setVal 0 j g
        let (r2, s) := s.rand
        { s with spaces := setAt s.spaces j ((r2 % s.LINES + 1 : Nat) : Int) }
      else s
    else s

/-- "Skip over spaces": `while (i <= LINES && (val == -2 || val == -1)) i++;`. -/
def skipSpaces (j : Nat) : Nat → Nat → World → Nat × World
  | 0, i, s => (i, s)
  | fuel + 1, i, s =>
    if i ≤ s.LINES then
      let s := s.touch i j
      if (s.matrix i j).val = -2 ∨ (s.matrix i j).val = -1 then
        skipSpaces j fuel (i + 1) s
      else (i, s)
    else (i, s)

/-- The body of the walk for the glyph cell `matrix[i][j]`: `is_head` is cleared and, when
`changes` is on and `rand() % 8 == 0`, the cell gets a new glyph from `next_rand`. -/
def walkCell (cfg : Config) (i j : Nat) (s : World) : World :=
  let s := s.setHead i j false
  if cfg.changes ≠ 0 then
    let (r, s) := s.rand
    if r % 8 = 0 then
      let (g, s) := next_rand s
      s.setVal i j g
    else s
  else s

/-- "Go to the head of this column": the walk over one run of glyph cells,
`while (i <= LINES && (val != -2 && val != -1)) { ...; i++; y++; }`. -/
def walkRun (cfg : Config) (j : Nat) : Nat → Nat → Nat → World → Nat × Nat × World
  | 0, i, y, s => (i, y, s)
  | fuel + 1, i, y, s =>
    if i ≤ s.LINES then
      let s := s.touch i j
      if (s.matrix i j).val ≠ -2 ∧ (s.matrix i j).val ≠ -1 then
        walkRun cfg j fuel (i + 1) (y + 1) (walkCell cfg i j s)
      else (i, y, s)
    else (i, y, s)

/-- The end of the loop body for a run `matrix[z .. i-1][j]` of `y` cells with a row below
it: the cell below gets a glyph and `is_head`, and when `y > length[j] || firstcoldone` the
first cell of the run becomes `-2` and `matrix[0][j]` becomes `-1`. -/
def growRun (j z i y : Nat) (firstcoldone : Int) (s : World) : World :=
  let (g, s) := next_rand s
  let s := s.setVal i j g
  let s := s.setHead i j true
  if (y : Int) > s.length j ∨ firstcoldone ≠ 0 then
    (s.setVal z j (-2)).setVal 0 j (-1)
  else s

/-- The loop `while (i <= LINES) { ... }` over one column. -/
def traverse (cfg : Config) (j : Nat) : Nat → Nat → Int → World → World
  | 0, _, _, s => s
  | fuel + 1, i, firstcoldone, s =>
    if i ≤ s.LINES then
      let (i, s) := skipSpaces j (s.LINES + 1 - i) i s
      if i > s.LINES then s
      else
        let z := i
        let (i, y, s) := walkRun cfg j (s.LINES + 1 - i) i 0 s
        if i > s.LINES then
          traverse cfg j fuel i firstcoldone (s.setVal z j (-2))
        else
          traverse cfg j fuel (i + 1) 1 (growRun j z i y firstcoldone s)
    else s

/-- The update of column `j`: spawn gating, then the walk from `i = 0` with
`firstcoldone = 0`. -/
def updateColumn (cfg : Config) (j : Nat) (s : World) : World :=
  let s := gate j s
  traverse cfg j (s.LINES + 1) 0 0 s

/-! ## The render pass of `main` -/

/-- `attron(COLOR_PAIR(p))`. -/
def World.attronPair (s : World) (p : Nat) : World := { s with attr_pair := p }

/-- `attroff(COLOR_PAIR(p))`. -/
def World.attroffPair (s : World) (_p : Nat) : World := { s with attr_pair := 0 }

/-- `attron(A_BOLD)`. -/
def World.attronBold (s : World) : World := { s with attr_bold := true }

/-- `attroff(A_BOLD)`. -/
def World.attroffBold (s : World) : World := { s with attr_bold := false }

/-- `addstr(t)` after `move(y, x)`: the string is drawn with the attributes now on. -/
def World.addstr (s : World) (y x : Nat) (t : Text) : World :=
  { s with out := { y := y, x := x, pair := s.attr_pair, bold := s.attr_bold, text := t } :: s.out }

/-- `addstr(chars_array[matrix[i][j].val])`. -/
def World.addGlyph (s : World) (i j : Nat) : World :=
  let s := s.touch i j
  let v := (s.matrix i j).val
  let s := { s with log := Access.chars v :: s.log }
  s.addstr (i - 1) j (Text.glyph v)

/-- The `switch (randomColor)` of rainbow mode. -/
def rainbowColor (randomColor : Nat) (mcolor : Nat) : Nat :=
  match randomColor with
  | 0 => COLOR_GREEN
  | 1 => COLOR_BLUE
  | 2 => COLOR_BLACK
  | 3 => COLOR_YELLOW
  | 4 => COLOR_CYAN
  | 5 => COLOR_MAGENTA
  | _ => mcolor

/-- The body of the render loop for `matrix[i][j]`, drawn at screen row `i - 1`. -/
def renderCell (cfg : Config) (i j : Nat) (s : World) : World :=
  let s := s.touch i j
  if (s.matrix i j).val = -2 ∨ ((s.matrix i j).is_head = true ∧ cfg.rainbow = 0) then
    let s := s.attronPair COLOR_WHITE
    let s := if cfg.bold ≠ 0 then s.attronBold else s
    let s := s.touch i j
    let s := if (s.matrix i j).val < 0 then s.addstr (i - 1) j Text.blank else s.addGlyph i j
    let s := s.attroffPair COLOR_WHITE
    if cfg.bold ≠ 0 then s.attroffBold else s
  else
    let s :=
      if cfg.rainbow ≠ 0 then
        let (r, s) := s.rand
        { s with mcolor := rainbowColor (r % 6) s.mcolor }
      else s
    let s := s.attronPair s.mcolor
    let s := s.touch i j
    let s :=
      if cfg.bold = 2 ∨ (cfg.bold = 1 ∧ Int.tmod (s.matrix i j).val 2 = 0) then s.attronBold
      else s
    let s := s.touch i j
    let s :=
      if (s.matrix i j).val < 1 ∨ (s.matrix i j).val = -2 then s.addstr (i - 1) j Text.blank
      else if cfg.lambda ≠ 0 ∧ (s.matrix i j).val ≠ -2 then s.addstr (i - 1) j Text.lam
      else s.addGlyph i j
    let s := s.touch i j
    let s :=
      if cfg.bold = 2 ∨ (cfg.bold = 1 ∧ Int.tmod (s.matrix i j).val 2 = 0) then s.attroffBold
      else s
    s.attroffPair s.mcolor

/-- The render loop `for (i = y; i <= z; i++)` with `y = 1`, `z = LINES`. -/
def renderRows (cfg : Config) (j : Nat) : Nat → Nat → World → World
  | 0, _, s => s
  | fuel + 1, i, s =>
    if i ≤ s.LINES then renderRows cfg j fuel (i + 1) (renderCell cfg i j s) else s

/-! ## One tick -/

/-- `count++; if (count > 4) count = 1;`. -/
def bumpCount (s : World) : World :=
  let s := { s with count := s.count + 1 }
  if s.count > 4 then { s with count := 1 } else s

/-- The body of `for (j = 0; j <= COLS - 1; j += 2)`: the gated update of column `j`, then
its render pass. -/
def tickColumn (cfg : Config) (j : Nat) (s : World) : World :=
  let s :=
    if (s.count > s.updates j ∨ cfg.asynch = 0) ∧ cfg.pause = 0 then updateColumn cfg j s
    else s
  renderRows cfg j s.LINES 1 s

/-- The loop `for (j = 0; j <= COLS - 1; j += 2)` of the main loop. -/
def tickColumns (cfg : Config) : Nat → Nat → World → World
  | 0, _, s => s
  | fuel + 1, j, s =>
    if j + 1 ≤ s.COLS then tickColumns cfg fuel (j + 2) (tickColumn cfg j s) else s

/-- One tick of the engine: the counter, then every even column updated and rendered. -/
def advance (cfg : Config) (s : World) : World :=
  let s := bumpCount s
  tickColumns cfg s.COLS 0 s

/-! ## `resize_screen` and the top of the main loop -/

/-- `resize_screen`. `win` is what `ioctl(TIOCGWINSZ)` reports as `(ws_row, ws_col)`, or
`none` when `ttyname`, `open` or `ioctl` fails and the function returns early. -/
def resize_screen (win : Option (Nat × Nat)) (fresh : Nat → Nat → cmatrix) (s : World) :
    Option World :=
  match win with
  | none => some s
  | some (ws_row, ws_col) =>
    let s := { s with COLS := ws_col, LINES := ws_row }
    let s := if s.LINES < 10 then { s with LINES := 10 } else s
    let s := if s.COLS < 10 then { s with COLS := 10 } else s
    var_init fresh s

/-- The state of the main loop: the engine, the option locals, the global `lock` and the
global `signal_status` that `sighandler` writes. -/
structure Machine where
  world : World
  cfg : Config
  lock : Int
  signal_status : Int

/-- What the environment supplies to one pass of `while (1)`: the signal (if any) whose
handler ran since the last check, the result of `wgetch` (`none` for `ERR`), and for a
resize the window size and the fresh block of `nmalloc`. -/
structure Input where
  signal : Option Int
  key : Option Int
  win : Option (Nat × Nat)
  fresh : Nat → Nat → cmatrix

/-- How one pass of the main loop ends. `finished` is a call of `finish()`, which exits;
`crashed` is undefined behaviour inside `var_init`. -/
inductive Outcome where
  | running (m : Machine)
  | finished
  | crashed

/-- The code of a key as `wgetch` returns it. -/
def keyCode (c : Char) : Int := (c.toNat : Int)

/-- The `switch (keypress)` of the main loop (the branch for `screensaver != 1`). -/
def keySwitch (keypress : Int) (m : Machine) : Outcome :=
  if keypress = keyCode 'q' then
    if m.lock ≠ 1 then Outcome.finished else Outcome.running m
  else if keypress = keyCode 'a' then
    Outcome.running { m with cfg := { m.cfg with asynch := 1 - m.cfg.asynch } }
  else if keypress = keyCode 'b' then
    Outcome.running { m with cfg := { m.cfg with bold := 1 } }
  else if keypress = keyCode 'B' then
    Outcome.running { m with cfg := { m.cfg with bold := 2 } }
  else if keypress = keyCode 'L' then
    Outcome.running { m with lock := 1 }
  else if keypress = keyCode 'n' then
    Outcome.running { m with cfg := { m.cfg with bold := 0 } }
  else if keyCode '0' ≤ keypress ∧ keypress ≤ keyCode '9' then
    Outcome.running { m with cfg := { m.cfg with update := keypress - 48 } }
  else if keypress = keyCode '!' then
    Outcome.running { m with world := { m.world with mcolor := COLOR_RED }, cfg := { m.cfg with rainbow := 0 } }
  else if keypress = keyCode '@' then
    Outcome.running { m with world := { m.world with mcolor := COLOR_GREEN }, cfg := { m.cfg with rainbow := 0 } }
  else if keypress = keyCode '#' then
    Outcome.running { m with world := { m.world with mcolor := COLOR_YELLOW }, cfg := { m.cfg with rainbow := 0 } }
  else if keypress = keyCode '$' then
    Outcome.running { m with world := { m.world with mcolor := COLOR_BLUE }, cfg := { m.cfg with rainbow := 0 } }
  else if keypress = keyCode '%' then
    Outcome.running { m with world := { m.world with mcolor := COLOR_MAGENTA }, cfg := { m.cfg with rainbow := 0 } }
  else if keypress = keyCode 'r' then
    Outcome.running { m with cfg := { m.cfg with rainbow := 1 } }
  else if keypress = keyCode 'm' then
    Outcome.running { m with cfg := { m.cfg with lambda := if m.cfg.lambda = 0 then 1 else 0 } }
  else if keypress = keyCode '^' then
    Outcome.running { m with world := { m.world with mcolor := COLOR_CYAN }, cfg := { m.cfg with rainbow := 0 } }
  else if keypress = keyCode '&' then
    Outcome.running { m with world := { m.world with mcolor := COLOR_WHITE }, cfg := { m.cfg with rainbow := 0 } }
  else if keypress = keyCode 'p' ∨ keypress = keyCode 'P' then
    Outcome.running { m with cfg := { m.cfg with pause := if m.cfg.pause = 0 then 1 else 0 } }
  else Outcome.running m

/-- The handling of a key that `wgetch` returned: in screensaver mode `finish()` is called
whatever the key; otherwise the `switch`. -/
def handleKey (keypress : Int) (m : Machine) : Outcome :=
  if m.cfg.screensaver = 1 then Outcome.finished else keySwitch keypress m

/-- The signal checks at the top of the loop body (the build with signals, not `_WIN32`). -/
def checkSignals (inp : Input) (m : Machine) : Outcome :=
  if (m.signal_status = SIGINT ∨ m.signal_status = SIGQUIT) ∧ m.lock ≠ 1 then Outcome.finished
  else
    let resized : Option Machine :=
      if m.signal_status = SIGWINCH then
        match resize_screen inp.win inp.fresh m.world with
        | none => none
        | some w => some { m with world := w, signal_status := 0 }
      else some m
    match resized with
    | none => Outcome.crashed
    | some m =>
      if m.signal_status = SIGTSTP ∧ m.lock ≠ 1 then Outcome.finished else Outcome.running m

/-- `sighandler`: the signal that arrived since the last check, if any, is stored in
`signal_status`. -/
def deliver (inp : Input) (m : Machine) : Machine :=
  match inp.signal with
  | some sg => { m with signal_status := sg }
  | none => m

/-- `if ((keypress = wgetch(stdscr)) != ERR) { ... }`. -/
def keyStep (inp : Input) (m : Machine) : Outcome :=
  match inp.key with
  | none => Outcome.running m
  | some keypress => handleKey keypress m

/-- One pass of `while (1)`: `sighandler` has stored the pending signal, then the signal
checks, the counter, the key, and the column loop. -/
def mainPass (inp : Input) (m : Machine) : Outcome :=
  match checkSignals inp (deliver inp m) with
  | Outcome.running m =>
    match keyStep inp { m with world := bumpCount m.world } with
    | Outcome.running m =>
      Outcome.running { m with world := tickColumns m.cfg m.world.COLS 0 m.world }
    | o => o
  | o => o

/-- The main loop fed the inputs of `inps`, one per pass, until it exits or they run out. -/
def mainLoop : List Input → Machine → Outcome
  | [], m => Outcome.running m
  | inp :: inps, m =>
    match mainPass inp m with
    | Outcome.running m => mainLoop inps m
    | o => o

/-! ## Vocabulary of the statements -/

/-- The cell is skipped by "Skip over spaces": `val == -2 || val == -1`. -/
def isSpace (c : cmatrix) : Prop := c.val = -2 ∨ c.val = -1

/-- The cell belongs to a run: `val != -2 && val != -1`. -/
def isGlyph (c : cmatrix) : Prop := c.val ≠ -2 ∧ c.val ≠ -1

instance (c : cmatrix) : Decidable (isSpace c) := by unfold isSpace; infer_instance

instance (c : cmatrix) : Decidable (isGlyph c) := by unfold isGlyph; infer_instance

/-- Column `j` is one of the columns the loops `for (j = 0; j <= COLS - 1; j += 2)` visit. -/
def active (s : World) (j : Nat) : Prop := j % 2 = 0 ∧ j < s.COLS

/-- The condition under which the main loop updates column `j` in a tick. -/
def colUpdated (cfg : Config) (j : Nat) (s : World) : Prop :=
  (s.count > s.updates j ∨ cfg.asynch = 0) ∧ cfg.pause = 0

instance (cfg : Config) (j : Nat) (s : World) : Decidable (colUpdated cfg j s) := by
  unfold colUpdated; infer_instance

/-- The buffer of `next_rand` as `var_init` leaves it: the cursor inside the buffer and
every entry a glyph index `1 .. CHARS_LEN - 1`. -/
def GoodBuf (s : World) : Prop :=
  s.index ≤ RAND_LEN ∧ ∀ k, k ≤ RAND_LEN → 1 ≤ s.rand_array k ∧ s.rand_array k ≤ 43

/-- The worlds reached from `w0` by any number of ticks, each under any configuration. -/
inductive Ticks (w0 : World) : World → Prop where
  | start : Ticks w0 w0
  | step (cfg : Config) {w : World} : Ticks w0 w → Ticks w0 (advance cfg w)

/-- The worlds `s1` that differ from `s` in the ghost log only. -/
def LogOnly (s s1 : World) : Prop := s1 = { s with log := s1.log }

/-- What the walk over the cells `matrix[a .. b-1][j]` of a run leaves: those cells are
still glyph cells with `is_head` cleared, every other cell is untouched, and apart from the
cursor of `next_rand`, the count of `rand()` calls and the log nothing else changes. -/
structure Walked (j a b : Nat) (s s1 : World) : Prop where
  lines : s1.LINES = s.LINES
  cols : s1.COLS = s.COLS
  length : s1.length = s.length
  spaces : s1.spaces = s.spaces
  updates : s1.updates = s.updates
  rand_array : s1.rand_array = s.rand_array
  rng : s1.rng = s.rng
  count : s1.count = s.count
  mcolor : s1.mcolor = s.mcolor
  attr_pair : s1.attr_pair = s.attr_pair
  attr_bold : s1.attr_bold = s.attr_bold
  out : s1.out = s.out
  index : s1.index ≤ RAND_LEN
  other : ∀ r c, ¬ (c = j ∧ a ≤ r ∧ r < b) → s1.matrix r c = s.matrix r c
  head : ∀ r, a ≤ r → r < b → (s1.matrix r j).is_head = false
  glyph : ∀ r, a ≤ r → r < b → isGlyph (s1.matrix r j)
  value : ∀ r, a ≤ r → r < b →
    (s1.matrix r j).val = (s.matrix r j).val ∨ (1 ≤ (s1.matrix r j).val ∧ (s1.matrix r j).val ≤ 43)

/-- The column walk of `traverse` from row `i` on, told run by run. `stop`: the loop
condition `i <= LINES` is false. `done`: only skipped cells are left (`break`). `bottom`: the
next run `matrix[a .. LINES][j]` ends on the last row; it is walked and its first cell
becomes `-2`. `grow`: the next run `matrix[a .. e][j]` has the row `e + 1` below it; it is
walked, `growRun` writes the cell below it, and the walk goes on from row `e + 2` with
`firstcoldone = 1`. -/
inductive Trav (j : Nat) : Nat → Int → World → World → Prop where
  | stop {i : Nat} {firstcoldone : Int} {s : World} : s.LINES < i → Trav j i firstcoldone s s
  | done {i : Nat} {firstcoldone : Int} {s s1 : World} : i ≤ s.LINES → LogOnly s s1 →
      (∀ r, i ≤ r → r ≤ s.LINES → isSpace (s.matrix r j)) → Trav j i firstcoldone s s1
  | bottom {i : Nat} {firstcoldone : Int} {s s1 : World} {a : Nat} : i ≤ a → a ≤ s.LINES →
      (∀ r, i ≤ r → r < a → isSpace (s.matrix r j)) →
      (∀ r, a ≤ r → r ≤ s.LINES → isGlyph (s.matrix r j)) →
      Walked j a (s.LINES + 1) s s1 → Trav j i firstcoldone s (s1.setVal a j (-2))
  | grow {i : Nat} {firstcoldone : Int} {s s1 s2 : World} {a e : Nat} : i ≤ a → a ≤ e →
      e < s.LINES →
      (∀ r, i ≤ r → r < a → isSpace (s.matrix r j)) →
      (∀ r, a ≤ r → r ≤ e → isGlyph (s.matrix r j)) →
      isSpace (s.matrix (e + 1) j) →
      Walked j a (e + 1) s s1 →
      Trav j (e + 2) 1 (growRun j a (e + 1) (e + 1 - a) firstcoldone s1) s2 →
      Trav j i firstcoldone s s2

/-- The condition of the cap rule, `y > length[j] || firstcoldone`. -/
def capCond (s : World) (j y : Nat) (firstcoldone : Int) : Prop :=
  (y : Int) > s.length j ∨ firstcoldone ≠ 0

instance (s : World) (j y : Nat) (firstcoldone : Int) : Decidable (capCond s j y firstcoldone) := by
  unfold capCond; infer_instance

/-- What an update of column `j` leaves alone: the geometry, the per-column arrays, the
buffer, the locals of `main`, the screen, and the cells of every other column. -/
structure ColFrame (j : Nat) (s s1 : World) : Prop where
  lines : s1.LINES = s.LINES
  cols : s1.COLS = s.COLS
  rand_array : s1.rand_array = s.rand_array
  rng : s1.rng = s.rng
  count : s1.count = s.count
  mcolor : s1.mcolor = s.mcolor
  attr_pair : s1.attr_pair = s.attr_pair
  attr_bold : s1.attr_bold = s.attr_bold
  out : s1.out = s.out
  updates : s1.updates = s.updates
  length : ∀ c, c ≠ j → s1.length c = s.length c
  spaces : ∀ c, c ≠ j → s1.spaces c = s.spaces c
  other : ∀ r c, c ≠ j → s1.matrix r c = s.matrix r c

/-- What the render pass leaves alone: everything but the attribute state, the colour local,
the count of `rand()` calls, the drawn output and the log. -/
structure Painted (s s1 : World) : Prop where
  lines : s1.LINES = s.LINES
  cols : s1.COLS = s.COLS
  matrix : s1.matrix = s.matrix
  length : s1.length = s.length
  spaces : s1.spaces = s.spaces
  updates : s1.updates = s.updates
  rand_array : s1.rand_array = s.rand_array
  index : s1.index = s.index
  rng : s1.rng = s.rng
  count : s1.count = s.count

/-- Column `j` looks the same in `s` and `s1`: same geometry and counter, same cells, same
entries of the per-column arrays. -/
structure ColSame (j : Nat) (s s1 : World) : Prop where
  lines : s1.LINES = s.LINES
  cols : s1.COLS = s.COLS
  count : s1.count = s.count
  cells : ∀ r, s1.matrix r j = s.matrix r j
  length : s1.length j = s.length j
  spaces : s1.spaces j = s.spaces j
  updates : s1.updates j = s.updates j

/-- The `else if` of spawn gating fires for column `j`. -/
def spawns (s : World) (j : Nat) : Prop :=
  (s.matrix 0 j).val < 0 ∧ ¬ (s.spaces j > 0) ∧ (s.matrix 1 j).val = -2

instance (s : World) (j : Nat) : Decidable (spawns s j) := by unfold spawns; infer_instance

/-- What `var_init` leaves when it returns `w` from `s` and the fresh block `fresh`. -/
structure Built (fresh : Nat → Nat → cmatrix) (s w : World) : Prop where
  lines : w.LINES = s.LINES
  cols : w.COLS = s.COLS
  index : w.index = s.index
  rng : w.rng = s.rng
  count : w.count = s.count
  geometry : 1 ≤ s.COLS → 2 ≤ s.LINES
  buf : ∀ k, k ≤ RAND_LEN → 1 ≤ w.rand_array k ∧ w.rand_array k ≤ 43
  head : ∀ r c, (w.matrix r c).is_head = (fresh r c).is_head
  val : ∀ r c, (w.matrix r c).val =
    if c % 2 = 0 ∧ c < s.COLS ∧ r ≤ s.LINES then (if r = 1 then -2 else -1)
    else (fresh r c).val
  spaces : ∀ c, c % 2 = 0 → c < s.COLS → 1 ≤ w.spaces c ∧ w.spaces c ≤ s.LINES
  length : ∀ c, c % 2 = 0 → c < s.COLS → 3 ≤ w.length c ∧ w.length c ≤ (s.LINES / 2 + 2 : Nat)
  updates : ∀ c, c % 2 = 0 → c < s.COLS → 1 ≤ w.updates c ∧ w.updates c ≤ 3

/-- What the column walk of column `j` keeps: all that `ColFrame` lists, the arrays `length`
and `spaces`, and the cursor of `next_rand` inside its buffer. -/
def ColStep (j : Nat) (s s1 : World) : Prop :=
  ColFrame j s s1 ∧ s1.length = s.length ∧ s1.spaces = s.spaces ∧
    (s.index ≤ RAND_LEN → s1.index ≤ RAND_LEN)

/-- The state in which `main` reaches its first call of `var_init`: `LINES` and `COLS` as
`initscr` set them, `rand()` seeded, the arrays not yet allocated, `count = 0`,
`mcolor = COLOR_GREEN`, the cursor of `next_rand` at `0`. -/
def boot (rows cols : Nat) (rng : Nat → Nat) : World :=
  { LINES := rows, COLS := cols, matrix := fun _ _ => { val := 0, is_head := false },
    length := fun _ => 0, spaces := fun _ => 0, updates := fun _ => 0,
    rand_array := fun _ => 0, index := 0, rng := rng, calls := 0, count := 0,
    mcolor := COLOR_GREEN, attr_pair := 0, attr_bold := false, out := [], log := [] }

/-- The locals of `main` as it initialises them: every mode off, `update = 4`. -/
def defaultConfig : Config :=
  { screensaver := 0, asynch := 0, bold := 0, rainbow := 0, lambda := 0, pause := 0,
    changes := 0, update := 4 }

/-- A block of memory with every `val` zero and every `is_head` false. -/
def zeroBlock : Nat → Nat → cmatrix := fun _ _ => { val := 0, is_head := false }

/-- The bounds on the state of column `c`, with `lo` the lower bound on `spaces[c]`:
`length[c]` in `[3, LINES / 2 + 2]`, `updates[c]` in `[1, 3]`, `spaces[c]` in `[lo, LINES]`. -/
def ColBounds (s : World) (c : Nat) (lo : Int) : Prop :=
  (3 ≤ s.length c ∧ s.length c ≤ ((s.LINES / 2 + 2 : Nat) : Int)) ∧
  (1 ≤ s.updates c ∧ s.updates c ≤ 3) ∧
  (lo ≤ s.spaces c ∧ s.spaces c ≤ (s.LINES : Int))

/-- A world with three rows below the staging row and one column, whose rows `2` and `3`
hold a run of glyph `5`; the buffer of `next_rand` holds glyph `1` throughout. -/
def bottomRunWorld : World :=
  { boot 3 1 (fun _ => 0) with
    matrix := fun r _ => if 2 ≤ r then { val := 5, is_head := false }
                         else { val := -1, is_head := false }
    rand_array := fun _ => 1
    spaces := fun _ => 1
    length := fun _ => 3
    updates := fun _ => 1 }

/-- The machine of `cmatrix -s -L` once `var_init` has built the world `w`: screensaver mode
and lock mode both on, no signal pending. -/
def lockedSaver (w : World) : Machine :=
  { world := w, cfg := { defaultConfig with screensaver := 1 }, lock := 1, signal_status := 0 }

/-- One pass of the main loop in which the key `c` is pressed and no signal arrives. -/
def keyInput (c : Char) : Input :=
  { signal := none, key := some (keyCode c), win := none, fresh := zeroBlock }

/-- The machine keeps running with `lock == 1` and with `screensaver` as in `c`. -/
def Outcome.staysLocked (c : Config) : Outcome → Prop
  | Outcome.running m => m.lock = 1 ∧ m.cfg.screensaver = c.screensaver
  | Outcome.finished => False
  | Outcome.crashed => True

/-- The `val` of a cell as the engine writes it: `-2`, `-1`, or a glyph index
`1 .. CHARS_LEN - 1`. -/
def okVal (v : Int) : Prop := v = -2 ∨ v = -1 ∨ (1 ≤ v ∧ v ≤ 43)

/-- Every cell of column `c` in rows `0 .. LINES` holds `-2`, `-1` or a glyph index, and
row `1` does not hold `-1`. -/
def ColVals (s : World) (c : Nat) : Prop :=
  (∀ r, r ≤ s.LINES → okVal (s.matrix r c).val) ∧ (s.matrix 1 c).val ≠ -1

/-- Every cell of column `c` in rows `0 .. LINES` whose `is_head` is set is a glyph cell, is
not in row `0`, and is the last cell of its run: the cell below it, if there is one, is not
a glyph cell. -/
def HeadOK (s : World) (c : Nat) : Prop :=
  ∀ r, r ≤ s.LINES → (s.matrix r c).is_head = true →
    1 ≤ r ∧ isGlyph (s.matrix r c) ∧ (r < s.LINES → isSpace (s.matrix (r + 1) c))

/-- The claim "at most one head cell per column", as the specification words it: any two
cells of column `c` in rows `0 .. LINES` with `is_head` set are the same cell. -/
def AtMostOneHead (s : World) (c : Nat) : Prop :=
  ∀ r1 r2, r1 ≤ s.LINES → r2 ≤ s.LINES → (s.matrix r1 c).is_head = true →
    (s.matrix r2 c).is_head = true → r1 = r2

/-- The claim "at most one `-2` cell per column, and that one in row `1`", as the
specification words it: every cell of column `c` in rows `0 .. LINES` that holds `-2` is the
cell of row `1`. -/
def PendingOnlyRowOne (s : World) (c : Nat) : Prop :=
  ∀ r, r ≤ s.LINES → (s.matrix r c).val = -2 → r = 1

/-- The world `w` with `spaces[c]` forced to `0`. -/
def forceSpawn (w : World) (c : Nat) : World :=
  { w with spaces := setAt w.spaces c 0 }

/-- The index of an access is inside its array: `matrix` has `L + 1` rows of `C` cells,
`rand_array` has `RAND_LEN + 1` entries, `chars_array` has `CHARS_LEN`. -/
def inBounds (L C : Nat) : Access → Prop
  | Access.grid i j => i ≤ L ∧ j < C
  | Access.buf k => k ≤ RAND_LEN
  | Access.chars v => 0 ≤ v ∧ v < (CHARS_LEN : Int)

/-- The world `s` has `L` rows and `C` columns, the cursor of `next_rand` inside the buffer,
and every access it logged since its log was `base` is in bounds. -/
def Logged (base : List Access) (L C : Nat) (s : World) : Prop :=
  s.LINES = L ∧ s.COLS = C ∧ s.index ≤ RAND_LEN ∧
    ∃ l, s.log = l ++ base ∧ ∀ a, a ∈ l → inBounds L C a

/-- `Logged`, with the cell `matrix[i][j]` holding `-2`, `-1` or a glyph index. -/
def LoggedAt (base : List Access) (L C i j : Nat) (s : World) : Prop :=
  Logged base L C s ∧ okVal (s.matrix i j).val

/-- The cells `matrix[a .. b][j]` are a run: glyph cells, with a skipped cell above them
(unless `a = 0`) and a skipped cell below them (unless `b = LINES`). -/
def isRun (s : World) (j a b : Nat) : Prop :=
  a ≤ b ∧ b ≤ s.LINES ∧ (∀ r, a ≤ r → r ≤ b → isGlyph (s.matrix r j)) ∧
    (1 ≤ a → isSpace (s.matrix (a - 1) j)) ∧ (b < s.LINES → isSpace (s.matrix (b + 1) j))

/-- A capped run `matrix[a .. b][j]`: a run that starts below the staging row `0` and for
which, unless it has reached the last row, the cap condition `y > length[j] || firstcoldone`
of the next update is already decided: either some glyph cell lies above it (a run above it
sets `firstcoldone` before the walk reaches it) or it has more than `length[j]` cells. -/
def Capped (s : World) (j a b : Nat) : Prop :=
  1 ≤ a ∧ isRun s j a b ∧
    (b < s.LINES →
      (∃ r, r < a ∧ isGlyph (s.matrix r j)) ∨ ((b + 1 - a : Nat) : Int) > s.length j)

/-- The world after the ticks `cfgs`, one tick per configuration, first to last. -/
def runTicks : List Config → World → World
  | [], w => w
  | cfg :: cs, w => runTicks cs (advance cfg w)

/-- The number of ticks among `cfgs`, run from `w`, in which column `j` is updated. -/
def colUpdates (j : Nat) : List Config → World → Nat
  | [], _ => 0
  | cfg :: cs, w =>
    (if colUpdated cfg j (bumpCount w) then 1 else 0) + colUpdates j cs (advance cfg w)

/-! ## Option parsing of `main` -/

/-- One option as `getopt` hands it to the `switch` of `main`, with its argument where the
option string `abBcfhlLnrosmxkVM:u:C:t:` gives it one. `unknown` is the `'?'` that `getopt`
returns for anything else; the argument of `u` is the value of `atoi(optarg)`. -/
inductive Opt where
  | s
  | a
  | b
  | B
  | C (color : String)
  | c
  | f
  | l
  | o
  | x
  | L
  | M (text : String)
  | n
  | h
  | unknown
  | u (delay : Int)
  | V
  | r
  | m
  | k
  | t (tty : String)
deriving DecidableEq, Repr

/-- The locals of `main` and the global `lock` that the option loop sets. -/
structure Options where
  cfg : Config
  mcolor : Nat
  lock : Int
  force : Int
  classic : Int
  msg : String
  tty : Option String
deriving DecidableEq, Repr

/-- The `if` / `else if` chain of `case 'C'`: the colour for a name, compared with
`strcasecmp`; `none` is the call of `c_die`. -/
def colorOf (name : String) : Option Nat :=
  if name.toLower = ("green") then some COLOR_GREEN
  else if name.toLower = ("red") then some COLOR_RED
  else if name.toLower = ("blue") then some COLOR_BLUE
  else if name.toLower = ("white") then some COLOR_WHITE
  else if name.toLower = ("yellow") then some COLOR_YELLOW
  else if name.toLower = ("cyan") then some COLOR_CYAN
  else if name.toLower = ("magenta") then some COLOR_MAGENTA
  else if name.toLower = ("black") then some COLOR_BLACK
  else none

/-- One pass of the `switch (optchr)`; `none` is an exit (`usage`, `version`, `c_die`). -/
def optStep (opt : Opt) (p : Options) : Option Options :=
  match opt with
  | Opt.s => some { p with cfg := { p.cfg with screensaver := 1 } }
  | Opt.a => some { p with cfg := { p.cfg with asynch := 1 } }
  | Opt.b => if p.cfg.bold ≠ 2 then some { p with cfg := { p.cfg with bold := 1 } } else some p
  | Opt.B => some { p with cfg := { p.cfg with bold := 2 } }
  | Opt.C name =>
    match colorOf name with
    | some col => some { p with mcolor := col }
    | none => none
  | Opt.c => some { p with classic := 1 }
  | Opt.f => some { p with force := 1 }
  | Opt.l => some p
  | Opt.o => some p
  | Opt.x => some p
  | Opt.L => some { p with lock := 1, msg := if p.msg = ("") then ("Computer locked.") else p.msg }
  | Opt.M text => some { p with msg := text }
  | Opt.n => some { p with cfg := { p.cfg with bold := -1 } }
  | Opt.h => none
  | Opt.unknown => none
  | Opt.u delay => some { p with cfg := { p.cfg with update := delay } }
  | Opt.V => none
  | Opt.r => some { p with cfg := { p.cfg with rainbow := 1 } }
  | Opt.m => some { p with cfg := { p.cfg with lambda := 1 } }
  | Opt.k => some { p with cfg := { p.cfg with changes := 1 } }
  | Opt.t tty => some { p with tty := some tty }

/-- The loop `while ((optchr = getopt(...)) != EOF) switch (optchr) { ... }` over the
options of the command line, first to last. -/
def parseOpts : List Opt → Options → Option Options
  | [], p => some p
  | opt :: rest, p =>
    match optStep opt p with
    | none => none
    | some p1 => parseOpts rest p1

/-- The locals as `main` initialises them before the option loop. -/
def initialOptions : Options :=
  { cfg := defaultConfig, mcolor := COLOR_GREEN, lock := 0, force := 0, classic := 0,
    msg := (""), tty := none }

/-- The claim "no character is drawn bold", as the usage text of `-n` words it: no `addstr`
call recorded in `out` was made with `A_BOLD` on. -/
def NoBoldDrawn (s : World) : Prop := ∀ d, d ∈ s.out → d.bold = false

/-- Rows `0 .. z - 1` of the column hold skipped cells, rows `z .. e` glyph cells, and the
row below `e`, if there is one, a skipped cell: `matrix[z .. e][j]` is the first run that the
walk of column `j` meets. -/
def firstRun (s : World) (j z e : Nat) : Prop :=
  z ≤ e ∧ e ≤ s.LINES ∧ (∀ r, r < z → isSpace (s.matrix r j)) ∧
    (∀ r, z ≤ r → r ≤ e → isGlyph (s.matrix r j)) ∧
    (e < s.LINES → isSpace (s.matrix (e + 1) j))

/-- What the cap rule leaves in the column after the update: the staging cell
`matrix[0][j]` holds `-1`, and the first cell `z` of the run, when it is not the staging
cell itself, holds `-2`. -/
def capSeen (s1 : World) (j z : Nat) : Prop :=
  (s1.matrix 0 j).val = -1 ∧ (1 ≤ z → (s1.matrix z j).val = -2)

/-- The cap rule for the first run as the specification words it: in the update of column
`j` the first run `matrix[z .. e][j]` of the gated column, with a row below it, is capped if
and only if its length after the growth step, `e + 2 - z` cells with the new head cell,
exceeds `length[j]`. -/
def CapRuleAsStated (cfg : Config) (j : Nat) (s : World) : Prop :=
  ∀ z e, firstRun (gate j s) j z e → e < s.LINES →
    (capSeen (updateColumn cfg j s) j z ↔ ((e + 2 - z : Nat) : Int) > (gate j s).length j)

/-- The screen state with `A_BOLD` off and nothing drawn bold so far. -/
def Plain (s : World) : Prop := s.attr_bold = false ∧ NoBoldDrawn s

/-! ## The inner loops -/

theorem logOnly_refl (s : World) : LogOnly s s := rfl

theorem logOnly_touch {s s1 : World} (h : LogOnly s s1) (i j : Nat) :
    LogOnly s (s1.touch i j) := by
  unfold LogOnly at *
  rw [h]
  rfl

theorem logOnly_matrix {s s1 : World} (h : LogOnly s s1) : s1.matrix = s.matrix := by
  rw [h]

theorem logOnly_lines {s s1 : World} (h : LogOnly s s1) : s1.LINES = s.LINES := by
  rw [h]

/-- "Skip over spaces" stops on the first glyph cell at or below row `i`, or past the last
row, and changes nothing but the log. -/
theorem skipSpaces_spec (j : Nat) : ∀ (fuel i : Nat) (s : World), s.LINES + 1 ≤ i + fuel →
    ∃ i1 s1, skipSpaces j fuel i s = (i1, s1) ∧ LogOnly s s1 ∧ i ≤ i1 ∧
      (i1 ≤ s.LINES + 1 ∨ i1 = i) ∧
      (∀ r, i ≤ r → r < i1 → isSpace (s.matrix r j)) ∧
      (i1 ≤ s.LINES → isGlyph (s.matrix i1 j)) := by
  intro fuel
  induction fuel with
  | zero =>
    intro i s h
    exact ⟨i, s, rfl, logOnly_refl s, le_refl i, Or.inr rfl, fun r h1 h2 => by omega,
      fun h2 => by omega⟩
  | succ n ih =>
    intro i s h
    by_cases hi : i ≤ s.LINES
    · by_cases hsp : isSpace (s.matrix i j)
      · obtain ⟨i1, s1, he, hl, h1, h2, h3, h4⟩ := ih (i + 1) (s.touch i j) (by
          show s.LINES + 1 ≤ i + 1 + n; omega)
        refine ⟨i1, s1, ?_, ?_, by omega, ?_, ?_, h4⟩
        · have hsp2 : (s.matrix i j).val = -2 ∨ (s.matrix i j).val = -1 := hsp
          simp only [skipSpaces, hi, if_true]
          rw [if_pos (by exact hsp2)]
          exact he
        · unfold LogOnly at *
          rw [hl]
          rfl
        · rcases h2 with h2 | h2
          · exact Or.inl h2
          · left
            have : (s.touch i j).LINES = s.LINES := rfl
            omega
        · intro r hr1 hr2
          by_cases hri : r = i
          · subst hri
            exact hsp
          · exact h3 r (by omega) hr2
      · refine ⟨i, s.touch i j, ?_, ?_, le_refl i, Or.inr rfl, fun r h1 h2 => by omega, ?_⟩
        · have hsp2 : ¬ ((s.matrix i j).val = -2 ∨ (s.matrix i j).val = -1) := hsp
          simp only [skipSpaces, hi, if_true]
          rw [if_neg (by exact hsp2)]
        · rfl
        · intro _
          unfold isSpace at hsp
          unfold isGlyph
          push_neg at hsp
          exact hsp
    · refine ⟨i, s, ?_, logOnly_refl s, le_refl i, Or.inr rfl, fun r h1 h2 => by omega,
        fun h2 => by omega⟩
      simp only [skipSpaces, hi, if_false]

theorem goodBuf_next_val {s : World} (h : GoodBuf s) :
    1 ≤ (next_rand s).1 ∧ (next_rand s).1 ≤ 43 := h.2 s.index h.1

theorem next_rand_index (s : World) : (next_rand s).2.index ≤ RAND_LEN := by
  simp only [next_rand]
  split <;> omega

theorem walked_refl (j a : Nat) (s : World) (h : s.index ≤ RAND_LEN) : Walked j a a s s where
  lines := rfl
  cols := rfl
  length := rfl
  spaces := rfl
  updates := rfl
  rand_array := rfl
  rng := rfl
  count := rfl
  mcolor := rfl
  attr_pair := rfl
  attr_bold := rfl
  out := rfl
  index := h
  other := fun _ _ _ => rfl
  head := fun r h1 h2 => by omega
  glyph := fun r h1 h2 => by omega
  value := fun r h1 h2 => by omega

theorem walked_of_logOnly {j a : Nat} {s s1 : World} (h : LogOnly s s1)
    (hi : s.index ≤ RAND_LEN) : Walked j a a s s1 := by
  rw [h]
  exact
    { lines := rfl, cols := rfl, length := rfl, spaces := rfl, updates := rfl,
      rand_array := rfl, rng := rfl, count := rfl, mcolor := rfl, attr_pair := rfl,
      attr_bold := rfl, out := rfl, index := hi, other := fun _ _ _ => rfl,
      head := fun r h1 h2 => by omega, glyph := fun r h1 h2 => by omega,
      value := fun r h1 h2 => by omega }

/-- The loop body of the walk on a glyph cell. -/
theorem walkCell_walked (cfg : Config) (i j : Nat) (s : World) (hb : GoodBuf s)
    (hg : isGlyph (s.matrix i j)) : Walked j i (i + 1) s (walkCell cfg i j s) := by
  have hr := hb.2 s.index hb.1
  have hidx : (if s.index + 1 > RAND_LEN then 0 else s.index + 1) ≤ RAND_LEN := by
    split <;> omega
  unfold walkCell
  by_cases hc : cfg.changes ≠ 0
  · by_cases h8 : (s.setHead i j false).rand.1 % 8 = 0
    · rw [if_pos hc]
      simp only []
      rw [if_pos h8]
      refine
        { lines := rfl, cols := rfl, length := rfl, spaces := rfl, updates := rfl,
          rand_array := rfl, rng := rfl, count := rfl, mcolor := rfl, attr_pair := rfl,
          attr_bold := rfl, out := rfl, index := hidx, other := ?_, head := ?_, glyph := ?_,
          value := ?_ }
      · intro r c hrc
        have : ¬ (r = i ∧ c = j) := fun h => hrc ⟨h.2, by omega, by omega⟩
        simp [World.setVal, World.setHead, World.rand, next_rand, this]
      · intro r h1 h2
        have : r = i := by omega
        subst this
        simp [World.setVal, World.setHead, World.rand, next_rand]
      · intro r h1 h2
        have : r = i := by omega
        subst this
        simp only [World.setVal, World.setHead, World.rand, next_rand, isGlyph, and_self,
          if_true]
        constructor <;> omega
      · intro r h1 h2
        have : r = i := by omega
        subst this
        right
        simp only [World.setVal, World.setHead, World.rand, next_rand, and_self, if_true]
        exact hr
    · rw [if_pos hc]
      simp only []
      rw [if_neg h8]
      refine
        { lines := rfl, cols := rfl, length := rfl, spaces := rfl, updates := rfl,
          rand_array := rfl, rng := rfl, count := rfl, mcolor := rfl, attr_pair := rfl,
          attr_bold := rfl, out := rfl, index := hb.1, other := ?_, head := ?_, glyph := ?_,
          value := ?_ }
      · intro r c hrc
        have : ¬ (r = i ∧ c = j) := fun h => hrc ⟨h.2, by omega, by omega⟩
        simp [World.setHead, World.rand, this]
      · intro r h1 h2
        have : r = i := by omega
        subst this
        simp [World.setHead, World.rand]
      · intro r h1 h2
        have : r = i := by omega
        subst this
        simpa [World.setHead, World.rand, isGlyph] using hg
      · intro r h1 h2
        have : r = i := by omega
        subst this
        left
        simp [World.setHead, World.rand]
  · rw [if_neg hc]
    refine
      { lines := rfl, cols := rfl, length := rfl, spaces := rfl, updates := rfl,
        rand_array := rfl, rng := rfl, count := rfl, mcolor := rfl, attr_pair := rfl,
        attr_bold := rfl, out := rfl, index := hb.1, other := ?_, head := ?_, glyph := ?_,
        value := ?_ }
    · intro r c hrc
      have : ¬ (r = i ∧ c = j) := fun h => hrc ⟨h.2, by omega, by omega⟩
      simp [World.setHead, this]
    · intro r h1 h2
      have : r = i := by omega
      subst this
      simp [World.setHead]
    · intro r h1 h2
      have : r = i := by omega
      subst this
      simpa [World.setHead, isGlyph] using hg
    · intro r h1 h2
      have : r = i := by omega
      subst this
      left
      simp [World.setHead]

theorem walked_trans {j a b c : Nat} {s s1 s2 : World} (h1 : Walked j a b s s1)
    (h2 : Walked j b c s1 s2) (hab : a ≤ b) (hbc : b ≤ c) : Walked j a c s s2 where
  lines := h2.lines.trans h1.lines
  cols := h2.cols.trans h1.cols
  length := h2.length.trans h1.length
  spaces := h2.spaces.trans h1.spaces
  updates := h2.updates.trans h1.updates
  rand_array := h2.rand_array.trans h1.rand_array
  rng := h2.rng.trans h1.rng
  count := h2.count.trans h1.count
  mcolor := h2.mcolor.trans h1.mcolor
  attr_pair := h2.attr_pair.trans h1.attr_pair
  attr_bold := h2.attr_bold.trans h1.attr_bold
  out := h2.out.trans h1.out
  index := h2.index
  other := fun r c' h => by
    rw [h2.other r c' (fun hh => h ⟨hh.1, by omega, hh.2.2⟩),
      h1.other r c' (fun hh => h ⟨hh.1, hh.2.1, by omega⟩)]
  head := fun r ha hc => by
    by_cases hb : r < b
    · rw [h2.other r j (fun hh => by omega)]
      exact h1.head r ha hb
    · exact h2.head r (by omega) hc
  glyph := fun r ha hc => by
    by_cases hb : r < b
    · rw [h2.other r j (fun hh => by omega)]
      exact h1.glyph r ha hb
    · exact h2.glyph r (by omega) hc
  value := fun r ha hc => by
    by_cases hb : r < b
    · rw [h2.other r j (fun hh => by omega)]
      exact h1.value r ha hb
    · rw [← h1.other r j (fun hh => by omega)]
      exact h2.value r (by omega) hc

theorem walked_goodBuf {j a b : Nat} {s s1 : World} (h : Walked j a b s s1) (hb : GoodBuf s) :
    GoodBuf s1 := ⟨h.index, by rw [h.rand_array]; exact hb.2⟩

theorem walked_after_touch {j a b : Nat} {s s1 : World} (i k : Nat)
    (h : Walked j a b (s.touch i k) s1) : Walked j a b s s1 :=
  { lines := h.lines, cols := h.cols, length := h.length, spaces := h.spaces,
    updates := h.updates, rand_array := h.rand_array, rng := h.rng, count := h.count,
    mcolor := h.mcolor, attr_pair := h.attr_pair, attr_bold := h.attr_bold, out := h.out,
    index := h.index, other := h.other, head := h.head, glyph := h.glyph, value := h.value }

/-- The walk stops on the first non-glyph cell at or below row `i`, or past the last row;
it has counted the cells it passed and left them as `Walked` says. -/
theorem walkRun_spec (cfg : Config) (j : Nat) : ∀ (fuel i y : Nat) (s : World),
    s.LINES + 1 ≤ i + fuel → GoodBuf s →
    ∃ i1 s1, walkRun cfg j fuel i y s = (i1, y + (i1 - i), s1) ∧ Walked j i i1 s s1 ∧ i ≤ i1 ∧
      (i1 ≤ s.LINES + 1 ∨ i1 = i) ∧
      (∀ r, i ≤ r → r < i1 → isGlyph (s.matrix r j)) ∧
      (i1 ≤ s.LINES → isSpace (s.matrix i1 j)) := by
  intro fuel
  induction fuel with
  | zero =>
    intro i y s h hb
    exact ⟨i, s, by simp [walkRun], walked_refl j i s hb.1, le_refl i, Or.inr rfl,
      fun r h1 h2 => by omega, fun h2 => by omega⟩
  | succ n ih =>
    intro i y s h hb
    by_cases hi : i ≤ s.LINES
    · by_cases hg : isGlyph (s.matrix i j)
      · have hw := walkCell_walked cfg i j (s.touch i j) hb hg
        have hw0 : Walked j i (i + 1) s (walkCell cfg i j (s.touch i j)) :=
          walked_after_touch i j hw
        obtain ⟨i1, s1, he, hl, h1, h2, h3, h4⟩ :=
          ih (i + 1) (y + 1) (walkCell cfg i j (s.touch i j))
            (by rw [hw0.lines]; omega) (walked_goodBuf hw0 hb)
        refine ⟨i1, s1, ?_, walked_trans hw0 hl (by omega) h1, by omega, ?_, ?_, ?_⟩
        · have hg2 : (s.matrix i j).val ≠ -2 ∧ (s.matrix i j).val ≠ -1 := hg
          simp only [walkRun, hi, if_true]
          rw [if_pos (by exact hg2), he]
          have : y + 1 + (i1 - (i + 1)) = y + (i1 - i) := by omega
          rw [this]
        · rw [hw0.lines] at h2
          rcases h2 with h2 | h2
          · exact Or.inl h2
          · left; omega
        · intro r hr1 hr2
          by_cases hri : r = i
          · subst hri
            exact hg
          · have := h3 r (by omega) hr2
            rwa [hw0.other r j (fun hh => by omega)] at this
        · intro hle
          rw [hw0.lines] at h4
          have := h4 hle
          rwa [hw0.other i1 j (fun hh => by omega)] at this
      · refine ⟨i, s.touch i j, ?_, walked_after_touch i j (walked_refl j i _ hb.1), le_refl i,
          Or.inr rfl, fun r h1 h2 => by omega, ?_⟩
        · have hg2 : ¬ ((s.matrix i j).val ≠ -2 ∧ (s.matrix i j).val ≠ -1) := hg
          simp only [walkRun, hi, if_true]
          rw [if_neg (by exact hg2)]
          simp
        · intro _
          unfold isGlyph at hg
          unfold isSpace
          by_contra hcon
          push_neg at hcon
          exact hg hcon
    · refine ⟨i, s, ?_, walked_refl j i s hb.1, le_refl i, Or.inr rfl,
        fun r h1 h2 => by omega, fun h2 => by omega⟩
      simp only [walkRun, hi, if_false]
      simp

/-! ## The column walk, run by run -/

theorem growRun_lines (j z i y : Nat) (fcd : Int) (s : World) :
    (growRun j z i y fcd s).LINES = s.LINES := by
  unfold growRun
  simp only []
  split <;> rfl

theorem growRun_index (j z i y : Nat) (fcd : Int) (s : World) :
    (growRun j z i y fcd s).index ≤ RAND_LEN := by
  have := next_rand_index s
  unfold growRun
  simp only []
  split <;> exact this

theorem growRun_rand_array (j z i y : Nat) (fcd : Int) (s : World) :
    (growRun j z i y fcd s).rand_array = s.rand_array := by
  unfold growRun
  simp only []
  split <;> rfl

theorem growRun_goodBuf (j z i y : Nat) (fcd : Int) (s : World) (hb : GoodBuf s) :
    GoodBuf (growRun j z i y fcd s) :=
  ⟨growRun_index j z i y fcd s, by rw [growRun_rand_array]; exact hb.2⟩

/-- The loop of `traverse`, given fuel for every row still ahead, does what `Trav` tells. -/
theorem traverse_trav (cfg : Config) (j : Nat) : ∀ (fuel i : Nat) (fcd : Int) (s : World),
    s.LINES + 1 ≤ i + fuel → GoodBuf s → Trav j i fcd s (traverse cfg j fuel i fcd s) := by
  intro fuel
  induction fuel with
  | zero =>
    intro i fcd s h _
    simp only [traverse]
    exact Trav.stop (by omega)
  | succ n ih =>
    intro i fcd s h hb
    by_cases hi : i ≤ s.LINES
    · obtain ⟨a, s1, he1, hl1, hia, _, hsp, hga⟩ :=
        skipSpaces_spec j (s.LINES + 1 - i) i s (by omega)
      have hL1 : s1.LINES = s.LINES := logOnly_lines hl1
      have hm1 : s1.matrix = s.matrix := logOnly_matrix hl1
      have hb1 : GoodBuf s1 := by rw [hl1]; exact hb
      simp only [traverse, hi, if_true]
      rw [he1]
      simp only []
      by_cases ha : a > s1.LINES
      · rw [if_pos ha]
        exact Trav.done hi hl1 (fun r h1 h2 => hsp r h1 (by omega))
      · rw [if_neg ha]
        obtain ⟨e1, s2, he2, hw, hae, hbound, hgl, hend⟩ :=
          walkRun_spec cfg j (s1.LINES + 1 - a) a 0 s1 (by omega) hb1
        rw [he2]
        simp only []
        have hw0 : Walked j a e1 s s2 := by
          have := hw
          rw [hl1] at this
          exact
            { lines := this.lines, cols := this.cols, length := this.length,
              spaces := this.spaces, updates := this.updates, rand_array := this.rand_array,
              rng := this.rng, count := this.count, mcolor := this.mcolor,
              attr_pair := this.attr_pair, attr_bold := this.attr_bold, out := this.out,
              index := this.index, other := this.other, head := this.head,
              glyph := this.glyph, value := this.value }
        have hL2 : s2.LINES = s.LINES := hw0.lines
        have hgA : isGlyph (s.matrix a j) := by
          have := hga (by omega)
          exact this
        have hlt : a < e1 := by
          rcases Nat.lt_or_ge a e1 with h1 | h1
          · exact h1
          · have : e1 = a := by omega
            subst this
            have hs := hend (by omega)
            rw [hm1] at hs
            unfold isSpace at hs
            unfold isGlyph at hgA
            rcases hs with hs | hs
            · exact absurd hs hgA.1
            · exact absurd hs hgA.2
        by_cases hbot : e1 > s2.LINES
        · rw [if_pos hbot]
          have he1' : e1 = s.LINES + 1 := by omega
          subst he1'
          have hstop : traverse cfg j n (s.LINES + 1) fcd (s2.setVal a j (-2)) =
              s2.setVal a j (-2) := by
            cases n with
            | zero => simp only [traverse]
            | succ m =>
              have : ¬ (s.LINES + 1 ≤ (s2.setVal a j (-2)).LINES) := by
                show ¬ (s.LINES + 1 ≤ s2.LINES)
                omega
              simp only [traverse, this, if_false]
          rw [hstop]
          exact Trav.bottom hia (by omega) hsp
            (fun r h1 h2 => by have := hgl r h1 (by omega); rwa [hm1] at this) hw0
        · rw [if_neg hbot]
          have hy : 0 + (e1 - a) = (e1 - 1) + 1 - a := by omega
          rw [hy]
          have hpos : e1 = (e1 - 1) + 1 := by omega
          have hrec := ih (e1 + 1) 1 (growRun j a e1 ((e1 - 1) + 1 - a) fcd s2)
            (by rw [growRun_lines]; omega) (growRun_goodBuf _ _ _ _ _ _ (walked_goodBuf hw0 hb))
          refine @Trav.grow j i fcd s s2 _ a (e1 - 1) hia (by omega) (by omega) hsp
            (fun r h1 h2 => by have := hgl r h1 (by omega); rwa [hm1] at this) ?_ ?_ ?_
          · have := hend (by omega)
            rw [hm1] at this
            rwa [← hpos]
          · rwa [← hpos]
          · have h2 : e1 - 1 + 2 = e1 + 1 := by omega
            rw [h2, ← hpos]
            rw [← hpos] at hrec
            exact hrec
    · simp only [traverse, hi, if_false]
      exact Trav.stop (by omega)

/-- The cells after `growRun`, for a run `matrix[z .. i-1][j]` with `z < i`. -/
theorem growRun_cell (j z i y : Nat) (fcd : Int) (s : World) (hzi : z < i) (r c : Nat) :
    (growRun j z i y fcd s).matrix r c =
      if c = j ∧ r = i then ⟨(next_rand s).1, true⟩
      else if c = j ∧ capCond s j y fcd ∧ r = 0 then ⟨-1, (s.matrix r c).is_head⟩
      else if c = j ∧ capCond s j y fcd ∧ r = z then ⟨-2, (s.matrix r c).is_head⟩
      else s.matrix r c := by
  unfold growRun capCond
  simp only []
  by_cases hcap : ((y : Int) > s.length j ∨ fcd ≠ 0)
  · have hcap2 : ((y : Int) > (((next_rand s).2.setVal i j (next_rand s).1).setHead i j
        true).length j ∨ fcd ≠ 0) := hcap
    rw [if_pos hcap2]
    by_cases hc : c = j
    · subst hc
      by_cases hri : r = i
      · subst hri
        have h0 : r ≠ 0 := by omega
        have hz : r ≠ z := by omega
        simp [World.setVal, World.setHead, next_rand, h0, hz]
      · by_cases hr0 : r = 0
        · subst hr0
          have : ¬ (0 = i) := by omega
          by_cases hz : 0 = z
          · subst hz
            simp [World.setVal, World.setHead, next_rand, this, hcap]
          · simp [World.setVal, World.setHead, next_rand, this, hcap, hz]
        · by_cases hrz : r = z
          · simp [World.setVal, World.setHead, next_rand, hri, hr0, hrz, hcap]
            subst hrz
            simp [hri, hr0]
          · simp [World.setVal, World.setHead, next_rand, hri, hr0, hrz, hcap]
    · simp [World.setVal, World.setHead, next_rand, hc]
  · have hcap2 : ¬ ((y : Int) > (((next_rand s).2.setVal i j (next_rand s).1).setHead i j
        true).length j ∨ fcd ≠ 0) := hcap
    rw [if_neg hcap2]
    by_cases hc : c = j
    · subst hc
      by_cases hri : r = i
      · subst hri
        simp [World.setVal, World.setHead, next_rand]
      · simp [World.setVal, World.setHead, next_rand, hri, hcap]
    · simp [World.setVal, World.setHead, next_rand, hc]

theorem growRun_frame (j z i y : Nat) (fcd : Int) (s : World) :
    ColFrame j s (growRun j z i y fcd s) := by
  unfold growRun
  simp only []
  split
  · exact
      { lines := rfl, cols := rfl, rand_array := rfl, rng := rfl, count := rfl, mcolor := rfl,
        attr_pair := rfl, attr_bold := rfl, out := rfl, updates := rfl,
        length := fun _ _ => rfl, spaces := fun _ _ => rfl,
        other := fun r c hc => by simp [World.setVal, World.setHead, next_rand, hc] }
  · exact
      { lines := rfl, cols := rfl, rand_array := rfl, rng := rfl, count := rfl, mcolor := rfl,
        attr_pair := rfl, attr_bold := rfl, out := rfl, updates := rfl,
        length := fun _ _ => rfl, spaces := fun _ _ => rfl,
        other := fun r c hc => by simp [World.setVal, World.setHead, next_rand, hc] }

theorem growRun_length (j z i y : Nat) (fcd : Int) (s : World) :
    (growRun j z i y fcd s).length = s.length := by
  unfold growRun
  simp only []
  split <;> rfl

theorem growRun_spaces (j z i y : Nat) (fcd : Int) (s : World) :
    (growRun j z i y fcd s).spaces = s.spaces := by
  unfold growRun
  simp only []
  split <;> rfl

theorem colFrame_refl (j : Nat) (s : World) : ColFrame j s s :=
  { lines := rfl, cols := rfl, rand_array := rfl, rng := rfl, count := rfl, mcolor := rfl,
    attr_pair := rfl, attr_bold := rfl, out := rfl, updates := rfl,
    length := fun _ _ => rfl, spaces := fun _ _ => rfl, other := fun _ _ _ => rfl }

theorem colFrame_trans {j : Nat} {s s1 s2 : World} (h1 : ColFrame j s s1)
    (h2 : ColFrame j s1 s2) : ColFrame j s s2 :=
  { lines := h2.lines.trans h1.lines, cols := h2.cols.trans h1.cols,
    rand_array := h2.rand_array.trans h1.rand_array, rng := h2.rng.trans h1.rng,
    count := h2.count.trans h1.count, mcolor := h2.mcolor.trans h1.mcolor,
    attr_pair := h2.attr_pair.trans h1.attr_pair,
    attr_bold := h2.attr_bold.trans h1.attr_bold, out := h2.out.trans h1.out,
    updates := h2.updates.trans h1.updates,
    length := fun c hc => (h2.length c hc).trans (h1.length c hc),
    spaces := fun c hc => (h2.spaces c hc).trans (h1.spaces c hc),
    other := fun r c hc => (h2.other r c hc).trans (h1.other r c hc) }

theorem walked_frame {j a b : Nat} {s s1 : World} (h : Walked j a b s s1) : ColFrame j s s1 :=
  { lines := h.lines, cols := h.cols, rand_array := h.rand_array, rng := h.rng,
    count := h.count, mcolor := h.mcolor, attr_pair := h.attr_pair,
    attr_bold := h.attr_bold, out := h.out, updates := h.updates,
    length := fun c _ => by rw [h.length], spaces := fun c _ => by rw [h.spaces],
    other := fun r c hc => h.other r c (fun hh => hc hh.1) }

theorem logOnly_frame {s s1 : World} (h : LogOnly s s1) (j : Nat) : ColFrame j s s1 := by
  rw [h]
  exact
    { lines := rfl, cols := rfl, rand_array := rfl, rng := rfl, count := rfl, mcolor := rfl,
      attr_pair := rfl, attr_bold := rfl, out := rfl, updates := rfl,
      length := fun _ _ => rfl, spaces := fun _ _ => rfl, other := fun _ _ _ => rfl }

theorem setVal_frame (s : World) (i j : Nat) (v : Int) : ColFrame j s (s.setVal i j v) :=
  { lines := rfl, cols := rfl, rand_array := rfl, rng := rfl, count := rfl, mcolor := rfl,
    attr_pair := rfl, attr_bold := rfl, out := rfl, updates := rfl,
    length := fun _ _ => rfl, spaces := fun _ _ => rfl,
    other := fun r c hc => by simp [World.setVal, hc] }

/-- The column walk keeps everything outside column `j`, and also `length` and `spaces`. -/
theorem trav_frame {j i : Nat} {fcd : Int} {s s1 : World} (h : Trav j i fcd s s1) :
    ColFrame j s s1 ∧ s1.length = s.length ∧ s1.spaces = s.spaces ∧
      (GoodBuf s → GoodBuf s1) := by
  induction h with
  | stop _ => exact ⟨colFrame_refl _ _, rfl, rfl, id⟩
  | done _ hl _ =>
    refine ⟨logOnly_frame hl _, ?_, ?_, ?_⟩
    · rw [hl]
    · rw [hl]
    · intro hb; rw [hl]; exact hb
  | bottom _ _ _ _ hw =>
    exact ⟨colFrame_trans (walked_frame hw) (setVal_frame _ _ _ _), hw.length, hw.spaces,
      fun hb => by have := walked_goodBuf hw hb; exact this⟩
  | grow _ _ _ _ _ _ hw _ ih =>
    obtain ⟨f, l, sp, g⟩ := ih
    refine ⟨colFrame_trans (colFrame_trans (walked_frame hw) (growRun_frame _ _ _ _ _ _)) f,
      ?_, ?_, ?_⟩
    · rw [l, growRun_length, hw.length]
    · rw [sp, growRun_spaces, hw.spaces]
    · intro hb
      exact g (growRun_goodBuf _ _ _ _ _ _ (walked_goodBuf hw hb))

/-! ## The render pass and the loop over the columns -/

theorem painted_refl (s : World) : Painted s s :=
  { lines := rfl, cols := rfl, matrix := rfl, length := rfl, spaces := rfl, updates := rfl,
    rand_array := rfl, index := rfl, rng := rfl, count := rfl }

theorem painted_trans {s s1 s2 : World} (h1 : Painted s s1) (h2 : Painted s1 s2) :
    Painted s s2 :=
  { lines := h2.lines.trans h1.lines, cols := h2.cols.trans h1.cols,
    matrix := h2.matrix.trans h1.matrix, length := h2.length.trans h1.length,
    spaces := h2.spaces.trans h1.spaces, updates := h2.updates.trans h1.updates,
    rand_array := h2.rand_array.trans h1.rand_array, index := h2.index.trans h1.index,
    rng := h2.rng.trans h1.rng, count := h2.count.trans h1.count }

theorem renderCell_painted (cfg : Config) (i j : Nat) (s : World) :
    Painted s (renderCell cfg i j s) := by
  unfold renderCell
  simp only [World.touch, World.attronPair, World.attroffPair, World.attronBold,
    World.attroffBold, World.addstr, World.addGlyph, World.rand]
  split_ifs <;> exact
    { lines := rfl, cols := rfl, matrix := rfl, length := rfl, spaces := rfl, updates := rfl,
      rand_array := rfl, index := rfl, rng := rfl, count := rfl }

theorem renderRows_painted (cfg : Config) (j : Nat) : ∀ (fuel i : Nat) (s : World),
    Painted s (renderRows cfg j fuel i s) := by
  intro fuel
  induction fuel with
  | zero => intro i s; exact painted_refl s
  | succ n ih =>
    intro i s
    simp only [renderRows]
    split
    · exact painted_trans (renderCell_painted cfg i j s) (ih _ _)
    · exact painted_refl s

theorem painted_goodBuf {s s1 : World} (h : Painted s s1) (hb : GoodBuf s) : GoodBuf s1 := by
  unfold GoodBuf
  rw [h.index, h.rand_array]
  exact hb

theorem painted_colSame {s s1 : World} (h : Painted s s1) (j : Nat) : ColSame j s s1 :=
  { lines := h.lines, cols := h.cols, count := h.count, cells := fun r => by rw [h.matrix],
    length := by rw [h.length], spaces := by rw [h.spaces], updates := by rw [h.updates] }

theorem colSame_refl (j : Nat) (s : World) : ColSame j s s :=
  { lines := rfl, cols := rfl, count := rfl, cells := fun _ => rfl, length := rfl,
    spaces := rfl, updates := rfl }

theorem colSame_trans {j : Nat} {s s1 s2 : World} (h1 : ColSame j s s1) (h2 : ColSame j s1 s2) :
    ColSame j s s2 :=
  { lines := h2.lines.trans h1.lines, cols := h2.cols.trans h1.cols,
    count := h2.count.trans h1.count, cells := fun r => (h2.cells r).trans (h1.cells r),
    length := h2.length.trans h1.length, spaces := h2.spaces.trans h1.spaces,
    updates := h2.updates.trans h1.updates }

theorem colSame_symm {j : Nat} {s s1 : World} (h : ColSame j s s1) : ColSame j s1 s :=
  { lines := h.lines.symm, cols := h.cols.symm, count := h.count.symm,
    cells := fun r => (h.cells r).symm, length := h.length.symm, spaces := h.spaces.symm,
    updates := h.updates.symm }

theorem colFrame_colSame {j c : Nat} {s s1 : World} (h : ColFrame j s s1) (hc : c ≠ j) :
    ColSame c s s1 :=
  { lines := h.lines, cols := h.cols, count := h.count, cells := fun r => h.other r c hc,
    length := h.length c hc, spaces := h.spaces c hc, updates := by rw [h.updates] }

/-! ### Spawn gating -/

theorem gate_frame (j : Nat) (s : World) : ColFrame j s (gate j s) := by
  unfold gate
  simp only [World.touch, World.rand, next_rand, World.setVal]
  split_ifs <;> exact
    { lines := rfl, cols := rfl, rand_array := rfl, rng := rfl, count := rfl, mcolor := rfl,
      attr_pair := rfl, attr_bold := rfl, out := rfl, updates := rfl,
      length := fun c hc => by simp [setAt, hc], spaces := fun c hc => by simp [setAt, hc],
      other := fun r c hc => by simp [hc] }

theorem gate_goodBuf (j : Nat) (s : World) (hb : GoodBuf s) : GoodBuf (gate j s) := by
  have h1 := hb.1
  refine ⟨?_, ?_⟩
  · unfold gate
    simp only [World.touch, World.rand, next_rand, World.setVal]
    split_ifs <;> simp only [] <;> omega
  · unfold gate
    simp only [World.touch, World.rand, next_rand, World.setVal]
    split_ifs <;> exact hb.2

theorem colStep_refl (j : Nat) (s : World) : ColStep j s s :=
  ⟨colFrame_refl j s, rfl, rfl, id⟩

theorem colStep_trans {j : Nat} {s s1 s2 : World} (h1 : ColStep j s s1) (h2 : ColStep j s1 s2) :
    ColStep j s s2 :=
  ⟨colFrame_trans h1.1 h2.1, h2.2.1.trans h1.2.1, h2.2.2.1.trans h1.2.2.1, fun h => h2.2.2.2 (h1.2.2.2 h)⟩

theorem colStep_of_logOnly {s s1 : World} (h : LogOnly s s1) (j : Nat) : ColStep j s s1 := by
  refine ⟨logOnly_frame h j, ?_, ?_, ?_⟩
  · rw [h]
  · rw [h]
  · rw [h]; exact id

theorem walkCell_step (cfg : Config) (i j : Nat) (s : World) :
    ColStep j s (walkCell cfg i j s) := by
  unfold walkCell ColStep
  simp only [World.setHead, World.rand, next_rand, World.setVal]
  split_ifs <;> refine ⟨
    { lines := rfl, cols := rfl, rand_array := rfl, rng := rfl, count := rfl, mcolor := rfl,
      attr_pair := rfl, attr_bold := rfl, out := rfl, updates := rfl,
      length := fun _ _ => rfl, spaces := fun _ _ => rfl,
      other := fun r c hc => by simp [hc] }, rfl, rfl, ?_⟩ <;> simp only [] <;> omega

theorem walkRun_step (cfg : Config) (j : Nat) : ∀ (fuel i y : Nat) (s : World),
    ColStep j s (walkRun cfg j fuel i y s).2.2 := by
  intro fuel
  induction fuel with
  | zero => intro i y s; exact colStep_refl j s
  | succ n ih =>
    intro i y s
    simp only [walkRun]
    split
    · split
      · exact colStep_trans (colStep_trans
          (colStep_of_logOnly (logOnly_touch (logOnly_refl s) i j) j)
          (walkCell_step cfg i j _)) (ih _ _ _)
      · exact colStep_of_logOnly (logOnly_touch (logOnly_refl s) i j) j
    · exact colStep_refl j s

theorem growRun_step (j z i y : Nat) (fcd : Int) (s : World) :
    ColStep j s (growRun j z i y fcd s) :=
  ⟨growRun_frame j z i y fcd s, growRun_length j z i y fcd s, growRun_spaces j z i y fcd s,
    fun _ => growRun_index j z i y fcd s⟩

theorem setVal_step (s : World) (i j : Nat) (v : Int) : ColStep j s (s.setVal i j v) :=
  ⟨setVal_frame s i j v, rfl, rfl, id⟩

theorem skipSpaces_logOnly (j : Nat) : ∀ (fuel i : Nat) (s : World),
    LogOnly s (skipSpaces j fuel i s).2 := by
  intro fuel
  induction fuel with
  | zero => intro i s; exact logOnly_refl s
  | succ n ih =>
    intro i s
    simp only [skipSpaces]
    split
    · split
      · have := ih (i + 1) (s.touch i j)
        unfold LogOnly at *
        rw [this]
        rfl
      · exact logOnly_touch (logOnly_refl s) i j
    · exact logOnly_refl s

/-- The column walk keeps everything outside column `j`, whatever the state. -/
theorem traverse_step (cfg : Config) (j : Nat) : ∀ (fuel i : Nat) (fcd : Int) (s : World),
    ColStep j s (traverse cfg j fuel i fcd s) := by
  intro fuel
  induction fuel with
  | zero => intro i fcd s; exact colStep_refl j s
  | succ n ih =>
    intro i fcd s
    simp only [traverse]
    have h1 := colStep_of_logOnly (skipSpaces_logOnly j (s.LINES + 1 - i) i s) j
    split
    · split
      · exact h1
      · have h2 := walkRun_step cfg j
          ((skipSpaces j (s.LINES + 1 - i) i s).2.LINES + 1 - (skipSpaces j (s.LINES + 1 - i) i s).1)
          (skipSpaces j (s.LINES + 1 - i) i s).1 0 (skipSpaces j (s.LINES + 1 - i) i s).2
        split
        · exact colStep_trans (colStep_trans (colStep_trans h1 h2) (setVal_step _ _ _ _))
            (ih _ _ _)
        · exact colStep_trans (colStep_trans (colStep_trans h1 h2) (growRun_step _ _ _ _ _ _))
            (ih _ _ _)
    · exact colStep_refl j s

theorem gate_index (j : Nat) (s : World) (h : s.index ≤ RAND_LEN) :
    (gate j s).index ≤ RAND_LEN := by
  unfold gate
  simp only [World.touch, World.rand, next_rand, World.setVal]
  split_ifs <;> simp only [] <;> omega

/-- The update of column `j` is the walk `Trav` from row `0` on the gated world. -/
theorem updateColumn_trav (cfg : Config) (j : Nat) (s : World) (hb : GoodBuf s) :
    Trav j 0 0 (gate j s) (updateColumn cfg j s) := by
  unfold updateColumn
  exact traverse_trav cfg j _ 0 0 (gate j s) (by omega) (gate_goodBuf j s hb)

theorem updateColumn_frame (cfg : Config) (j : Nat) (s : World) :
    ColFrame j s (updateColumn cfg j s) ∧
      (s.index ≤ RAND_LEN → (updateColumn cfg j s).index ≤ RAND_LEN) := by
  obtain ⟨f, _, _, g⟩ := traverse_step cfg j ((gate j s).LINES + 1) 0 0 (gate j s)
  exact ⟨colFrame_trans (gate_frame j s) f, fun h => g (gate_index j s h)⟩

theorem tickColumn_unfold (cfg : Config) (j : Nat) (s : World) :
    tickColumn cfg j s =
      renderRows cfg j (if colUpdated cfg j s then updateColumn cfg j s else s).LINES 1
        (if colUpdated cfg j s then updateColumn cfg j s else s) := rfl

/-- A tick's work on column `j` leaves every other column as it was. -/
theorem tickColumn_other (cfg : Config) (j c : Nat) (s : World) (hc : c ≠ j) :
    ColSame c s (tickColumn cfg j s) := by
  rw [tickColumn_unfold]
  have hp := renderRows_painted cfg j
    (if colUpdated cfg j s then updateColumn cfg j s else s).LINES 1
    (if colUpdated cfg j s then updateColumn cfg j s else s)
  by_cases hu : colUpdated cfg j s
  · simp only [hu, if_true] at hp ⊢
    obtain ⟨f, _⟩ := updateColumn_frame cfg j s
    exact colSame_trans (colFrame_colSame f hc) (painted_colSame hp c)
  · simp only [hu, if_false] at hp ⊢
    exact painted_colSame hp c

/-- A tick's work on one column keeps the geometry, the counter, the buffer and `updates`. -/
theorem tickColumn_keeps (cfg : Config) (j : Nat) (s : World) :
    (tickColumn cfg j s).COLS = s.COLS ∧ (tickColumn cfg j s).LINES = s.LINES ∧
      (tickColumn cfg j s).count = s.count ∧
      (tickColumn cfg j s).rand_array = s.rand_array ∧
      (tickColumn cfg j s).updates = s.updates ∧
      (s.index ≤ RAND_LEN → (tickColumn cfg j s).index ≤ RAND_LEN) := by
  rw [tickColumn_unfold]
  have hp := renderRows_painted cfg j
    (if colUpdated cfg j s then updateColumn cfg j s else s).LINES 1
    (if colUpdated cfg j s then updateColumn cfg j s else s)
  by_cases hu : colUpdated cfg j s
  · simp only [hu, if_true] at hp ⊢
    obtain ⟨f, g⟩ := updateColumn_frame cfg j s
    exact ⟨hp.cols.trans f.cols, hp.lines.trans f.lines, hp.count.trans f.count,
      hp.rand_array.trans f.rand_array, hp.updates.trans f.updates,
      fun h => by rw [hp.index]; exact g h⟩
  · simp only [hu, if_false] at hp ⊢
    exact ⟨hp.cols, hp.lines, hp.count, hp.rand_array, hp.updates,
      fun h => by rw [hp.index]; exact h⟩

theorem tickColumn_goodBuf (cfg : Config) (j : Nat) (s : World) (hb : GoodBuf s) :
    GoodBuf (tickColumn cfg j s) := by
  obtain ⟨_, _, _, h4, _, h6⟩ := tickColumn_keeps cfg j s
  exact ⟨h6 hb.1, by rw [h4]; exact hb.2⟩

theorem tickColumn_rng (cfg : Config) (j : Nat) (s : World) :
    (tickColumn cfg j s).rng = s.rng := by
  rw [tickColumn_unfold]
  have hp := renderRows_painted cfg j
    (if colUpdated cfg j s then updateColumn cfg j s else s).LINES 1
    (if colUpdated cfg j s then updateColumn cfg j s else s)
  by_cases hu : colUpdated cfg j s
  · simp only [hu, if_true] at hp ⊢
    exact hp.rng.trans (updateColumn_frame cfg j s).1.rng
  · simp only [hu, if_false] at hp ⊢
    exact hp.rng

/-! ### The count of `rand()` calls only goes up -/

theorem gate_calls (j : Nat) (s : World) : s.calls ≤ (gate j s).calls := by
  unfold gate
  simp only [World.touch, World.rand, next_rand, World.setVal]
  split_ifs <;> simp only [] <;> omega

theorem walkCell_calls (cfg : Config) (i j : Nat) (s : World) :
    s.calls ≤ (walkCell cfg i j s).calls := by
  unfold walkCell
  simp only [World.setHead, World.rand, next_rand, World.setVal]
  split_ifs <;> simp only [] <;> omega

theorem walkRun_calls (cfg : Config) (j : Nat) : ∀ (fuel i y : Nat) (s : World),
    s.calls ≤ (walkRun cfg j fuel i y s).2.2.calls := by
  intro fuel
  induction fuel with
  | zero => intro i y s; exact le_refl _
  | succ n ih =>
    intro i y s
    simp only [walkRun]
    split
    · split
      · exact le_trans (walkCell_calls cfg i j (s.touch i j)) (ih _ _ _)
      · exact le_refl _
    · exact le_refl _

theorem growRun_calls (j z i y : Nat) (fcd : Int) (s : World) :
    (growRun j z i y fcd s).calls = s.calls := by
  unfold growRun
  simp only []
  split <;> rfl

theorem skipSpaces_calls (j fuel i : Nat) (s : World) :
    (skipSpaces j fuel i s).2.calls = s.calls := by
  rw [skipSpaces_logOnly j fuel i s]

theorem traverse_calls (cfg : Config) (j : Nat) : ∀ (fuel i : Nat) (fcd : Int) (s : World),
    s.calls ≤ (traverse cfg j fuel i fcd s).calls := by
  intro fuel
  induction fuel with
  | zero => intro i fcd s; exact le_refl _
  | succ n ih =>
    intro i fcd s
    simp only [traverse]
    have h1 := skipSpaces_calls j (s.LINES + 1 - i) i s
    split
    · split
      · exact le_of_eq h1.symm
      · have h2 := walkRun_calls cfg j
          ((skipSpaces j (s.LINES + 1 - i) i s).2.LINES + 1 - (skipSpaces j (s.LINES + 1 - i) i s).1)
          (skipSpaces j (s.LINES + 1 - i) i s).1 0 (skipSpaces j (s.LINES + 1 - i) i s).2
        rw [h1] at h2
        split
        · refine le_trans h2 (le_trans (le_of_eq ?_) (ih _ _ _))
          rfl
        · refine le_trans h2 (le_trans (le_of_eq ?_) (ih _ _ _))
          exact (growRun_calls _ _ _ _ _ _).symm
    · exact le_refl _

theorem renderCell_calls (cfg : Config) (i j : Nat) (s : World) :
    s.calls ≤ (renderCell cfg i j s).calls := by
  unfold renderCell
  simp only [World.touch, World.attronPair, World.attroffPair, World.attronBold,
    World.attroffBold, World.addstr, World.addGlyph, World.rand]
  split_ifs <;> first | exact le_refl _ | exact Nat.le_succ _

theorem renderRows_calls (cfg : Config) (j : Nat) : ∀ (fuel i : Nat) (s : World),
    s.calls ≤ (renderRows cfg j fuel i s).calls := by
  intro fuel
  induction fuel with
  | zero => intro i s; exact le_refl _
  | succ n ih =>
    intro i s
    simp only [renderRows]
    split
    · exact le_trans (renderCell_calls cfg i j s) (ih _ _)
    · exact le_refl _

theorem tickColumn_calls (cfg : Config) (j : Nat) (s : World) :
    s.calls ≤ (tickColumn cfg j s).calls := by
  rw [tickColumn_unfold]
  refine le_trans ?_ (renderRows_calls cfg j _ 1 _)
  split
  · unfold updateColumn
    exact le_trans (gate_calls j s) (traverse_calls cfg j _ 0 0 _)
  · exact le_refl _

/-- The loop over the columns keeps the geometry, the counter, the buffer and `updates`. -/
theorem tickColumns_keeps (cfg : Config) : ∀ (fuel j0 : Nat) (s : World),
    (tickColumns cfg fuel j0 s).COLS = s.COLS ∧ (tickColumns cfg fuel j0 s).LINES = s.LINES ∧
      (tickColumns cfg fuel j0 s).count = s.count ∧
      (tickColumns cfg fuel j0 s).rand_array = s.rand_array ∧
      (tickColumns cfg fuel j0 s).updates = s.updates ∧
      (s.index ≤ RAND_LEN → (tickColumns cfg fuel j0 s).index ≤ RAND_LEN) := by
  intro fuel
  induction fuel with
  | zero => intro j0 s; exact ⟨rfl, rfl, rfl, rfl, rfl, id⟩
  | succ n ih =>
    intro j0 s
    simp only [tickColumns]
    split
    · obtain ⟨a1, a2, a3, a4, a5, a6⟩ := tickColumn_keeps cfg j0 s
      obtain ⟨b1, b2, b3, b4, b5, b6⟩ := ih (j0 + 2) (tickColumn cfg j0 s)
      exact ⟨b1.trans a1, b2.trans a2, b3.trans a3, b4.trans a4, b5.trans a5,
        fun h => b6 (a6 h)⟩
    · exact ⟨rfl, rfl, rfl, rfl, rfl, id⟩

theorem tickColumns_goodBuf (cfg : Config) (fuel j0 : Nat) (s : World) (hb : GoodBuf s) :
    GoodBuf (tickColumns cfg fuel j0 s) := by
  obtain ⟨_, _, _, h4, _, h6⟩ := tickColumns_keeps cfg fuel j0 s
  exact ⟨h6 hb.1, by rw [h4]; exact hb.2⟩

/-- The loop over the columns from `j0` on: a column it does not visit is left as it was. -/
theorem tickColumns_skip (cfg : Config) (c : Nat) : ∀ (fuel j0 : Nat) (s : World),
    (c < j0 ∨ c % 2 ≠ j0 % 2 ∨ s.COLS ≤ c) → ColSame c s (tickColumns cfg fuel j0 s) := by
  intro fuel
  induction fuel with
  | zero => intro j0 s _; exact colSame_refl c s
  | succ n ih =>
    intro j0 s hc
    simp only [tickColumns]
    split
    · rename_i hj
      have hne : c ≠ j0 := by
        rcases hc with h | h | h
        · omega
        · intro h2; subst h2; exact h rfl
        · omega
      have h1 := tickColumn_other cfg j0 c s hne
      obtain ⟨hcols, _⟩ := tickColumn_keeps cfg j0 s
      have h2 := ih (j0 + 2) (tickColumn cfg j0 s) (by
        rw [hcols]
        rcases hc with h | h | h
        · left; omega
        · right; left; omega
        · right; right; exact h)
      exact colSame_trans h1 h2
    · exact colSame_refl c s

/-- The loop over the columns: a column `c` it visits is, when its turn comes, as it was at
the start; the loop's result shows column `c` as its own turn left it. -/
theorem tickColumns_visit (cfg : Config) (c : Nat) : ∀ (fuel j0 : Nat) (s : World),
    j0 ≤ c → c % 2 = j0 % 2 → c < s.COLS → s.COLS ≤ j0 + 2 * fuel →
    ∃ sa, ColSame c s sa ∧ (GoodBuf s → GoodBuf sa) ∧
      ColSame c (tickColumn cfg c sa) (tickColumns cfg fuel j0 s) ∧
      (sa.rng = s.rng ∧ s.calls ≤ sa.calls) := by
  intro fuel
  induction fuel with
  | zero => intro j0 s h1 _ h3 h4; omega
  | succ n ih =>
    intro j0 s h1 h2 h3 h4
    have hj : j0 + 1 ≤ s.COLS := by omega
    simp only [tickColumns, hj, if_true]
    obtain ⟨hcols, _⟩ := tickColumn_keeps cfg j0 s
    by_cases hc : c = j0
    · subst hc
      have h5 := tickColumns_skip cfg c n (c + 2) (tickColumn cfg c s) (Or.inl (by omega))
      exact ⟨s, colSame_refl c s, id, h5, rfl, le_refl _⟩
    · have h5 := tickColumn_other cfg j0 c s hc
      obtain ⟨sa, h6, g6, h7, h8⟩ := ih (j0 + 2) (tickColumn cfg j0 s) (by omega)
        (by omega) (by rw [hcols]; exact h3) (by rw [hcols]; omega)
      exact ⟨sa, colSame_trans h5 h6, fun hb => g6 (tickColumn_goodBuf cfg j0 s hb), h7,
        h8.1.trans (tickColumn_rng cfg j0 s), le_trans (tickColumn_calls cfg j0 s) h8.2⟩

/-! ### One tick -/

theorem bumpCount_painted (s : World) :
    (bumpCount s).LINES = s.LINES ∧ (bumpCount s).COLS = s.COLS ∧
      (bumpCount s).matrix = s.matrix ∧ (bumpCount s).length = s.length ∧
      (bumpCount s).spaces = s.spaces ∧ (bumpCount s).updates = s.updates ∧
      (bumpCount s).rand_array = s.rand_array ∧ (bumpCount s).index = s.index := by
  unfold bumpCount
  simp only []
  split <;> exact ⟨rfl, rfl, rfl, rfl, rfl, rfl, rfl, rfl⟩

theorem bumpCount_goodBuf (s : World) (hb : GoodBuf s) : GoodBuf (bumpCount s) := by
  obtain ⟨_, _, _, _, _, _, h7, h8⟩ := bumpCount_painted s
  unfold GoodBuf
  rw [h7, h8]
  exact hb

theorem advance_keeps (cfg : Config) (s : World) :
    (advance cfg s).COLS = s.COLS ∧ (advance cfg s).LINES = s.LINES ∧
      (advance cfg s).rand_array = s.rand_array ∧ (advance cfg s).updates = s.updates ∧
      (advance cfg s).count = (bumpCount s).count := by
  obtain ⟨a1, a2, a3, a4, a5, _⟩ := tickColumns_keeps cfg (bumpCount s).COLS 0 (bumpCount s)
  obtain ⟨b1, b2, _, _, _, b6, b7, _⟩ := bumpCount_painted s
  exact ⟨a1.trans b2, a2.trans b1, a4.trans b7, a5.trans b6, a3⟩

theorem advance_goodBuf (cfg : Config) (s : World) (hb : GoodBuf s) :
    GoodBuf (advance cfg s) :=
  tickColumns_goodBuf cfg _ 0 _ (bumpCount_goodBuf s hb)

/-- In one tick an active column `c` gets exactly one turn `tickColumn cfg c`, on a world
that shows column `c` as it was at the start of the tick. -/
theorem advance_visit (cfg : Config) (c : Nat) (s : World) (hc : active s c) :
    ∃ sa, ColSame c (bumpCount s) sa ∧ (GoodBuf s → GoodBuf sa) ∧
      ColSame c (tickColumn cfg c sa) (advance cfg s) ∧
      (sa.rng = s.rng ∧ s.calls ≤ sa.calls) := by
  obtain ⟨_, b2, _⟩ := bumpCount_painted s
  obtain ⟨sa, h1, h2, h3, h4⟩ := tickColumns_visit cfg c (bumpCount s).COLS 0 (bumpCount s)
    (Nat.zero_le c) (by rw [hc.1]) (by rw [b2]; exact hc.2) (by omega)
  have e1 : (bumpCount s).rng = s.rng := by
    unfold bumpCount
    simp only []
    split <;> rfl
  have e2 : (bumpCount s).calls = s.calls := by
    unfold bumpCount
    simp only []
    split <;> rfl
  exact ⟨sa, h1, fun hb => h2 (bumpCount_goodBuf s hb), h3, h4.1.trans e1, by
    rw [← e2]
    exact h4.2⟩

/-- In one tick a column that is not active is not touched. -/
theorem advance_skip (cfg : Config) (c : Nat) (s : World) (hc : ¬ active s c) :
    ColSame c (bumpCount s) (advance cfg s) := by
  obtain ⟨_, b2, _⟩ := bumpCount_painted s
  apply tickColumns_skip
  unfold active at hc
  rw [b2]
  omega

/-- The world after `n` ticks under one configuration is one of the worlds `Ticks` reaches. -/
theorem ticks_iterate (cfg : Config) (w : World) : ∀ n, Ticks w ((advance cfg)^[n] w) := by
  intro n
  induction n with
  | zero => exact Ticks.start
  | succ n ih =>
    rw [Function.iterate_succ_apply']
    exact Ticks.step cfg ih


/-! ## `var_init` -/

theorem fillRand_spec : ∀ (fuel i : Nat) (s : World),
    (fillRand fuel i s).LINES = s.LINES ∧ (fillRand fuel i s).COLS = s.COLS ∧
    (fillRand fuel i s).matrix = s.matrix ∧ (fillRand fuel i s).index = s.index ∧
    (fillRand fuel i s).rng = s.rng ∧ (fillRand fuel i s).count = s.count ∧
    (fillRand fuel i s).length = s.length ∧ (fillRand fuel i s).spaces = s.spaces ∧
    (fillRand fuel i s).updates = s.updates ∧
    (∀ k, k < i → (fillRand fuel i s).rand_array k = s.rand_array k) ∧
    (∀ k, i ≤ k → k < i + fuel → k ≤ RAND_LEN →
      1 ≤ (fillRand fuel i s).rand_array k ∧ (fillRand fuel i s).rand_array k ≤ 43) := by
  intro fuel
  induction fuel with
  | zero =>
    intro i s
    exact ⟨rfl, rfl, rfl, rfl, rfl, rfl, rfl, rfl, rfl, fun _ _ => rfl, fun k h1 h2 _ => by omega⟩
  | succ n ih =>
    intro i s
    simp only [fillRand]
    split
    · simp only [World.rand]
      obtain ⟨a1, a2, a3, a4, a5, a6, a7, a8, a9, a10, a11⟩ := ih (i + 1)
        { s with
          calls := s.calls + 1
          rand_array := setAt s.rand_array i ((s.rng s.calls % (CHARS_LEN - 1) + 1 : Nat) : Int)
          log := Access.buf i :: s.log }
      refine ⟨a1, a2, a3, a4, a5, a6, a7, a8, a9, ?_, ?_⟩
      · intro k hk
        rw [a10 k (by omega)]
        simp [setAt]
        omega
      · intro k h1 h2 h3
        by_cases hk : k = i
        · subst hk
          rw [a10 k (by omega)]
          simp only [setAt, if_true, CHARS_LEN]
          constructor
          · omega
          · have : s.rng s.calls % (44 - 1) < 43 := Nat.mod_lt _ (by omega)
            omega
        · exact a11 k (by omega) (by omega) h3
    · rename_i hi
      exact ⟨rfl, rfl, rfl, rfl, rfl, rfl, rfl, rfl, rfl, fun _ _ => rfl,
        fun k h1 h2 h3 => by omega⟩

theorem clearRow_spec (i : Nat) : ∀ (fuel j0 : Nat) (s : World), s.COLS ≤ j0 + 2 * fuel →
    (clearRow i fuel j0 s).LINES = s.LINES ∧ (clearRow i fuel j0 s).COLS = s.COLS ∧
    (clearRow i fuel j0 s).index = s.index ∧ (clearRow i fuel j0 s).rng = s.rng ∧
    (clearRow i fuel j0 s).count = s.count ∧ (clearRow i fuel j0 s).calls = s.calls ∧
    (clearRow i fuel j0 s).rand_array = s.rand_array ∧
    (clearRow i fuel j0 s).length = s.length ∧ (clearRow i fuel j0 s).spaces = s.spaces ∧
    (clearRow i fuel j0 s).updates = s.updates ∧
    (∀ r c, ((clearRow i fuel j0 s).matrix r c).is_head = (s.matrix r c).is_head) ∧
    (∀ r c, ((clearRow i fuel j0 s).matrix r c).val =
      if r = i ∧ j0 ≤ c ∧ c % 2 = j0 % 2 ∧ c < s.COLS then -1 else (s.matrix r c).val) := by
  intro fuel
  induction fuel with
  | zero =>
    intro j0 s h
    refine ⟨rfl, rfl, rfl, rfl, rfl, rfl, rfl, rfl, rfl, rfl, fun _ _ => rfl, ?_⟩
    intro r c
    have : ¬ (r = i ∧ j0 ≤ c ∧ c % 2 = j0 % 2 ∧ c < s.COLS) := by omega
    simp only [clearRow, this, if_false]
  | succ n ih =>
    intro j0 s h
    simp only [clearRow]
    split
    · obtain ⟨a1, a2, a3, a4, a5, a6, a7, a8, a9, a10, a11, a12⟩ :=
        ih (j0 + 2) (s.setVal i j0 (-1)) (by show s.COLS ≤ _; omega)
      refine ⟨a1, a2, a3, a4, a5, a6, a7, a8, a9, a10, ?_, ?_⟩
      · intro r c
        rw [a11]
        simp only [World.setVal]
        split <;> rfl
      · intro r c
        rw [a12]
        have hcols : (s.setVal i j0 (-1)).COLS = s.COLS := rfl
        rw [hcols]
        by_cases h1 : r = i ∧ j0 + 2 ≤ c ∧ c % 2 = (j0 + 2) % 2 ∧ c < s.COLS
        · have h2 : r = i ∧ j0 ≤ c ∧ c % 2 = j0 % 2 ∧ c < s.COLS := by omega
          rw [if_pos h1, if_pos h2]
        · rw [if_neg h1]
          by_cases h3 : r = i ∧ c = j0
          · have h2 : r = i ∧ j0 ≤ c ∧ c % 2 = j0 % 2 ∧ c < s.COLS := by omega
            rw [if_pos h2]
            simp [World.setVal, h3]
          · have h2 : ¬ (r = i ∧ j0 ≤ c ∧ c % 2 = j0 % 2 ∧ c < s.COLS) := by omega
            rw [if_neg h2]
            simp [World.setVal, h3]
    · rename_i hj
      refine ⟨rfl, rfl, rfl, rfl, rfl, rfl, rfl, rfl, rfl, rfl, fun _ _ => rfl, ?_⟩
      intro r c
      have : ¬ (r = i ∧ j0 ≤ c ∧ c % 2 = j0 % 2 ∧ c < s.COLS) := by omega
      rw [if_neg this]

theorem clearRows_spec : ∀ (fuel i0 : Nat) (s : World), s.LINES + 1 ≤ i0 + fuel →
    (clearRows fuel i0 s).LINES = s.LINES ∧ (clearRows fuel i0 s).COLS = s.COLS ∧
    (clearRows fuel i0 s).index = s.index ∧ (clearRows fuel i0 s).rng = s.rng ∧
    (clearRows fuel i0 s).count = s.count ∧ (clearRows fuel i0 s).calls = s.calls ∧
    (clearRows fuel i0 s).rand_array = s.rand_array ∧
    (clearRows fuel i0 s).length = s.length ∧ (clearRows fuel i0 s).spaces = s.spaces ∧
    (clearRows fuel i0 s).updates = s.updates ∧
    (∀ r c, ((clearRows fuel i0 s).matrix r c).is_head = (s.matrix r c).is_head) ∧
    (∀ r c, ((clearRows fuel i0 s).matrix r c).val =
      if i0 ≤ r ∧ r ≤ s.LINES ∧ c % 2 = 0 ∧ c < s.COLS then -1 else (s.matrix r c).val) := by
  intro fuel
  induction fuel with
  | zero =>
    intro i0 s h
    refine ⟨rfl, rfl, rfl, rfl, rfl, rfl, rfl, rfl, rfl, rfl, fun _ _ => rfl, ?_⟩
    intro r c
    have : ¬ (i0 ≤ r ∧ r ≤ s.LINES ∧ c % 2 = 0 ∧ c < s.COLS) := by omega
    simp only [clearRows, this, if_false]
  | succ n ih =>
    intro i0 s h
    simp only [clearRows]
    split
    · obtain ⟨b1, b2, b3, b4, b5, b6, b7, b8, b9, b10, b11, b12⟩ :=
        clearRow_spec i0 s.COLS 0 s (by omega)
      obtain ⟨a1, a2, a3, a4, a5, a6, a7, a8, a9, a10, a11, a12⟩ :=
        ih (i0 + 1) (clearRow i0 s.COLS 0 s) (by rw [b1]; omega)
      refine ⟨a1.trans b1, a2.trans b2, a3.trans b3, a4.trans b4, a5.trans b5, a6.trans b6,
        a7.trans b7, a8.trans b8, a9.trans b9, a10.trans b10, ?_, ?_⟩
      · intro r c
        rw [a11, b11]
      · intro r c
        rw [a12, b12, b1, b2]
        by_cases h1 : i0 + 1 ≤ r ∧ r ≤ s.LINES ∧ c % 2 = 0 ∧ c < s.COLS
        · have h2 : i0 ≤ r ∧ r ≤ s.LINES ∧ c % 2 = 0 ∧ c < s.COLS := by omega
          rw [if_pos h1, if_pos h2]
        · rw [if_neg h1]
          by_cases h3 : r = i0 ∧ 0 ≤ c ∧ c % 2 = 0 % 2 ∧ c < s.COLS
          · have h2 : i0 ≤ r ∧ r ≤ s.LINES ∧ c % 2 = 0 ∧ c < s.COLS := by omega
            rw [if_pos h3, if_pos h2]
          · have h2 : ¬ (i0 ≤ r ∧ r ≤ s.LINES ∧ c % 2 = 0 ∧ c < s.COLS) := by omega
            rw [if_neg h3, if_neg h2]
    · rename_i hi
      refine ⟨rfl, rfl, rfl, rfl, rfl, rfl, rfl, rfl, rfl, rfl, fun _ _ => rfl, ?_⟩
      intro r c
      have : ¬ (i0 ≤ r ∧ r ≤ s.LINES ∧ c % 2 = 0 ∧ c < s.COLS) := by omega
      rw [if_neg this]

theorem initColumn_none (j : Nat) (s : World) (h : s.LINES < 2) : initColumn j s = none := by
  unfold initColumn
  simp only [World.rand, crem]
  by_cases h0 : s.LINES = 0
  · simp [h0]
  · have h1 : s.LINES / 2 = 0 := by omega
    simp [h0, h1]

theorem initColumn_some (j : Nat) (s : World) (h : 2 ≤ s.LINES) :
    initColumn j s = some
      { s with
        calls := s.calls + 1 + 1 + 1
        spaces := setAt s.spaces j ((s.rng s.calls % s.LINES + 1 : Nat) : Int)
        length := setAt s.length j ((s.rng (s.calls + 1) % (s.LINES / 2) + 3 : Nat) : Int)
        updates := setAt s.updates j ((s.rng (s.calls + 1 + 1) % 3 + 1 : Nat) : Int)
        matrix := fun a b => if a = 1 ∧ b = j then { s.matrix a b with val := -2 }
                             else s.matrix a b
        log := Access.grid 1 j :: s.log } := by
  unfold initColumn
  have h0 : s.LINES ≠ 0 := by omega
  have h1 : s.LINES / 2 ≠ 0 := by omega
  simp [World.rand, crem, h0, h1, World.setVal]

theorem initColumns_spec : ∀ (fuel j0 : Nat) (s w : World), s.COLS ≤ j0 + 2 * fuel →
    initColumns fuel j0 s = some w →
    w.LINES = s.LINES ∧ w.COLS = s.COLS ∧ w.index = s.index ∧ w.rng = s.rng ∧
    w.count = s.count ∧ w.rand_array = s.rand_array ∧ (j0 < s.COLS → 2 ≤ s.LINES) ∧
    (∀ r c, (w.matrix r c).is_head = (s.matrix r c).is_head) ∧
    (∀ r c, (w.matrix r c).val =
      if r = 1 ∧ j0 ≤ c ∧ c % 2 = j0 % 2 ∧ c < s.COLS then -2 else (s.matrix r c).val) ∧
    (∀ c, ¬ (j0 ≤ c ∧ c % 2 = j0 % 2 ∧ c < s.COLS) →
      w.spaces c = s.spaces c ∧ w.length c = s.length c ∧ w.updates c = s.updates c) ∧
    (∀ c, j0 ≤ c → c % 2 = j0 % 2 → c < s.COLS →
      (1 ≤ w.spaces c ∧ w.spaces c ≤ s.LINES) ∧
      (3 ≤ w.length c ∧ w.length c ≤ (s.LINES / 2 + 2 : Nat)) ∧
      (1 ≤ w.updates c ∧ w.updates c ≤ 3)) := by
  intro fuel
  induction fuel with
  | zero =>
    intro j0 s w h he
    simp only [initColumns, Option.some.injEq] at he
    subst he
    refine ⟨rfl, rfl, rfl, rfl, rfl, rfl, fun h2 => by omega, fun _ _ => rfl, ?_,
      fun _ _ => ⟨rfl, rfl, rfl⟩, fun c h1 h2 h3 => by omega⟩
    intro r c
    have : ¬ (r = 1 ∧ j0 ≤ c ∧ c % 2 = j0 % 2 ∧ c < s.COLS) := by omega
    rw [if_neg this]
  | succ n ih =>
    intro j0 s w h he
    simp only [initColumns] at he
    by_cases hj : j0 + 1 ≤ s.COLS
    · rw [if_pos hj] at he
      by_cases hL : 2 ≤ s.LINES
      · rw [initColumn_some j0 s hL] at he
        simp only [] at he
        obtain ⟨a1, a2, a3, a4, a5, a6, _, a8, a9, a10, a11⟩ := ih (j0 + 2) _ w
          (by show s.COLS ≤ _; omega) he
        refine ⟨a1, a2, a3, a4, a5, a6, fun _ => hL, ?_, ?_, ?_, ?_⟩
        · intro r c
          rw [a8]
          simp only []
          split <;> rfl
        · intro r c
          rw [a9]
          simp only []
          by_cases h1 : r = 1 ∧ j0 + 2 ≤ c ∧ c % 2 = (j0 + 2) % 2 ∧ c < s.COLS
          · have h2 : r = 1 ∧ j0 ≤ c ∧ c % 2 = j0 % 2 ∧ c < s.COLS := by omega
            rw [if_pos h1, if_pos h2]
          · rw [if_neg h1]
            by_cases h3 : r = 1 ∧ c = j0
            · have h2 : r = 1 ∧ j0 ≤ c ∧ c % 2 = j0 % 2 ∧ c < s.COLS := by omega
              rw [if_pos h2, if_pos h3]
            · have h2 : ¬ (r = 1 ∧ j0 ≤ c ∧ c % 2 = j0 % 2 ∧ c < s.COLS) := by omega
              rw [if_neg h2, if_neg h3]
        · intro c hc
          have hne : c ≠ j0 := by omega
          obtain ⟨b1, b2, b3⟩ := a10 c (by show ¬ (j0 + 2 ≤ c ∧ c % 2 = (j0 + 2) % 2 ∧ c < s.COLS); omega)
          simp only [setAt, hne, if_false] at b1 b2 b3
          exact ⟨b1, b2, b3⟩
        · intro c h1 h2 h3
          by_cases hc : c = j0
          · subst hc
            obtain ⟨b1, b2, b3⟩ := a10 c (by show ¬ (c + 2 ≤ c ∧ _); omega)
            simp only [setAt, if_true] at b1 b2 b3
            rw [b1, b2, b3]
            have m1 : s.rng s.calls % s.LINES < s.LINES := Nat.mod_lt _ (by omega)
            have m2 : s.rng (s.calls + 1) % (s.LINES / 2) < s.LINES / 2 :=
              Nat.mod_lt _ (by omega)
            have m3 : s.rng (s.calls + 1 + 1) % 3 < 3 := Nat.mod_lt _ (by omega)
            refine ⟨⟨?_, ?_⟩, ⟨?_, ?_⟩, ⟨?_, ?_⟩⟩ <;> omega
          · exact a11 c (by omega) (by omega) h3
      · rw [initColumn_none j0 s (by omega)] at he
        simp at he
    · rw [if_neg hj] at he
      simp only [Option.some.injEq] at he
      subst he
      refine ⟨rfl, rfl, rfl, rfl, rfl, rfl, fun h2 => by omega, fun _ _ => rfl, ?_,
        fun _ _ => ⟨rfl, rfl, rfl⟩, fun c h1 h2 h3 => by omega⟩
      intro r c
      have : ¬ (r = 1 ∧ j0 ≤ c ∧ c % 2 = j0 % 2 ∧ c < s.COLS) := by omega
      rw [if_neg this]

theorem initColumns_total : ∀ (fuel j0 : Nat) (s : World), 2 ≤ s.LINES →
    ∃ w, initColumns fuel j0 s = some w := by
  intro fuel
  induction fuel with
  | zero => intro j0 s _; exact ⟨s, rfl⟩
  | succ n ih =>
    intro j0 s hL
    simp only [initColumns]
    split
    · rw [initColumn_some j0 s hL]
      exact ih (j0 + 2) _ hL
    · exact ⟨s, rfl⟩

theorem var_init_built_aux (fresh : Nat → Nat → cmatrix) (s w s0 s1 s2 : World)
    (h0 : s0 = { s with matrix := fresh }) (h1 : s1 = fillRand (RAND_LEN + 1) 0 s0)
    (h2 : s2 = clearRows (s1.LINES + 1) 0 s1) (h : initColumns s2.COLS 0 s2 = some w) :
    Built fresh s w := by
  obtain ⟨f1, f2, f3, f4, f5, f6, f7, f8, f9, f10, f11⟩ := fillRand_spec (RAND_LEN + 1) 0 s0
  rw [← h1] at f1 f2 f3 f4 f5 f6 f7 f8 f9 f10 f11
  obtain ⟨c1, c2, c3, c4, c5, c6, c7, c8, c9, c10, c11, c12⟩ :=
    clearRows_spec (s1.LINES + 1) 0 s1 (by omega)
  rw [← h2] at c1 c2 c3 c4 c5 c6 c7 c8 c9 c10 c11 c12
  obtain ⟨i1, i2, i3, i4, i5, i6, i7, i8, i9, i10, i11⟩ := initColumns_spec _ 0 _ w
    (by omega) h
  have e1 : s0.LINES = s.LINES := by rw [h0]
  have e2 : s0.COLS = s.COLS := by rw [h0]
  have e3 : s0.matrix = fresh := by rw [h0]
  have e4 : s0.index = s.index := by rw [h0]
  have e5 : s0.rng = s.rng := by rw [h0]
  have e6 : s0.count = s.count := by rw [h0]
  have L2 : s2.LINES = s.LINES := by rw [c1, f1, e1]
  have C2 : s2.COLS = s.COLS := by rw [c2, f2, e2]
  have L1 : s1.LINES = s.LINES := by rw [f1, e1]
  have C1 : s1.COLS = s.COLS := by rw [f2, e2]
  rw [L2] at i1 i7 i11
  rw [C2] at i2 i7 i9 i11
  refine
    { lines := i1, cols := i2, index := ?_, rng := ?_, count := ?_, geometry := ?_,
      buf := ?_, head := ?_, val := ?_, spaces := ?_, length := ?_, updates := ?_ }
  · rw [i3, c3, f4, e4]
  · rw [i4, c4, f5, e5]
  · rw [i5, c5, f6, e6]
  · intro hc
    exact i7 (by omega)
  · intro k hk
    rw [i6, c7]
    exact f11 k (by omega) (by omega) hk
  · intro r c
    rw [i8, c11, f3, e3]
  · intro r c
    rw [i9, c12, f3, e3, L1, C1]
    by_cases hact : c % 2 = 0 ∧ c < s.COLS
    · by_cases hr1 : r = 1
      · have hL := i7 (by omega)
        have h1 : r = 1 ∧ 0 ≤ c ∧ c % 2 = 0 % 2 ∧ c < s.COLS := by omega
        have h2 : c % 2 = 0 ∧ c < s.COLS ∧ r ≤ s.LINES := by omega
        rw [if_pos h1, if_pos h2, if_pos hr1]
      · have h1 : ¬ (r = 1 ∧ 0 ≤ c ∧ c % 2 = 0 % 2 ∧ c < s.COLS) := by omega
        rw [if_neg h1]
        by_cases hr : r ≤ s.LINES
        · have h2 : c % 2 = 0 ∧ c < s.COLS ∧ r ≤ s.LINES := by omega
          have h3 : 0 ≤ r ∧ r ≤ s.LINES ∧ c % 2 = 0 ∧ c < s.COLS := by omega
          rw [if_pos h2, if_pos h3, if_neg hr1]
        · have h2 : ¬ (c % 2 = 0 ∧ c < s.COLS ∧ r ≤ s.LINES) := by omega
          have h3 : ¬ (0 ≤ r ∧ r ≤ s.LINES ∧ c % 2 = 0 ∧ c < s.COLS) := by omega
          rw [if_neg h2, if_neg h3]
    · have h1 : ¬ (r = 1 ∧ 0 ≤ c ∧ c % 2 = 0 % 2 ∧ c < s.COLS) := by omega
      have h2 : ¬ (c % 2 = 0 ∧ c < s.COLS ∧ r ≤ s.LINES) := by omega
      have h3 : ¬ (0 ≤ r ∧ r ≤ s.LINES ∧ c % 2 = 0 ∧ c < s.COLS) := by omega
      rw [if_neg h1, if_neg h2, if_neg h3]
  · intro c h1 h2
    exact (i11 c (by omega) (by omega) h2).1
  · intro c h1 h2
    exact (i11 c (by omega) (by omega) h2).2.1
  · intro c h1 h2
    exact (i11 c (by omega) (by omega) h2).2.2

/-- What a successful `var_init` leaves. -/
theorem var_init_built (fresh : Nat → Nat → cmatrix) (s w : World)
    (h : var_init fresh s = some w) : Built fresh s w :=
  var_init_built_aux fresh s w _ _ _ rfl rfl rfl h

/-- With at least two rows `var_init` returns. -/
theorem var_init_total (fresh : Nat → Nat → cmatrix) (s : World) (h : 2 ≤ s.LINES) :
    ∃ w, var_init fresh s = some w := by
  unfold var_init
  simp only []
  apply initColumns_total
  rw [(clearRows_spec _ 0 _ (by omega)).1, (fillRand_spec _ 0 _).1]
  exact h

/-- With fewer than two rows and a column to set up, `var_init` divides by zero. -/
theorem var_init_fails (fresh : Nat → Nat → cmatrix) (s : World) (h : s.LINES < 2)
    (hc : 1 ≤ s.COLS) : var_init fresh s = none := by
  unfold var_init
  simp only []
  have hL : (clearRows ((fillRand (RAND_LEN + 1) 0 { s with matrix := fresh }).LINES + 1) 0
      (fillRand (RAND_LEN + 1) 0 { s with matrix := fresh })).LINES = s.LINES := by
    rw [(clearRows_spec _ 0 _ (by omega)).1, (fillRand_spec _ 0 _).1]
  have hC : (clearRows ((fillRand (RAND_LEN + 1) 0 { s with matrix := fresh }).LINES + 1) 0
      (fillRand (RAND_LEN + 1) 0 { s with matrix := fresh })).COLS = s.COLS := by
    rw [(clearRows_spec _ 0 _ (by omega)).2.1, (fillRand_spec _ 0 _).2.1]
  generalize (clearRows ((fillRand (RAND_LEN + 1) 0 { s with matrix := fresh }).LINES + 1) 0
      (fillRand (RAND_LEN + 1) 0 { s with matrix := fresh })) = t at hL hC
  rw [hC]
  obtain ⟨n, hn⟩ : ∃ n, s.COLS = n + 1 := ⟨s.COLS - 1, by omega⟩
  rw [hn]
  simp only [initColumns]
  rw [if_pos (by omega), initColumn_none 0 t (by omega)]

/-! ## Reading a column walk off the column -/

theorem not_space_of_glyph {c : cmatrix} (hg : isGlyph c) (hs : isSpace c) : False := by
  unfold isGlyph at hg
  unfold isSpace at hs
  rcases hs with h | h
  · exact hg.1 h
  · exact hg.2 h

theorem space_or_glyph (c : cmatrix) : isSpace c ∨ isGlyph c := by
  unfold isGlyph isSpace
  by_cases h1 : c.val = -2
  · exact Or.inl (Or.inl h1)
  · by_cases h2 : c.val = -1
    · exact Or.inl (Or.inr h2)
    · exact Or.inr ⟨h1, h2⟩

/-- A walk over cells that are all skipped changes the log only. -/
theorem trav_cases_empty {j i : Nat} {fcd : Int} {s s1 : World} (h : Trav j i fcd s s1)
    (hsp : ∀ r, i ≤ r → r ≤ s.LINES → isSpace (s.matrix r j)) : LogOnly s s1 := by
  cases h with
  | stop _ => exact logOnly_refl s
  | done _ hl _ => exact hl
  | bottom h1 h2 _ h4 _ => exact absurd (hsp _ h1 h2) (fun hs => not_space_of_glyph (h4 _ (le_refl _) h2) hs)
  | grow h1 h2 h3 _ h5 _ _ _ =>
    exact absurd (hsp _ h1 (by omega)) (fun hs => not_space_of_glyph (h5 _ (le_refl _) h2) hs)

/-- A walk that meets the run `matrix[a .. e][j]` first treats it as the code does: at the
bottom the run loses its first cell, elsewhere `growRun` is applied and the walk goes on
below it. -/
theorem trav_cases_run {j i : Nat} {fcd : Int} {s s2 : World} (h : Trav j i fcd s s2)
    {a e : Nat} (hia : i ≤ a) (hae : a ≤ e) (heL : e ≤ s.LINES)
    (hsp : ∀ r, i ≤ r → r < a → isSpace (s.matrix r j))
    (hgl : ∀ r, a ≤ r → r ≤ e → isGlyph (s.matrix r j))
    (hend : e < s.LINES → isSpace (s.matrix (e + 1) j)) :
    (e = s.LINES ∧ ∃ s1, Walked j a (s.LINES + 1) s s1 ∧ s2 = s1.setVal a j (-2)) ∨
    (e < s.LINES ∧ ∃ s1, Walked j a (e + 1) s s1 ∧
      Trav j (e + 2) 1 (growRun j a (e + 1) (e + 1 - a) fcd s1) s2) := by
  cases h with
  | stop h1 => omega
  | done h1 _ h3 =>
    exact absurd (h3 a hia (by omega)) (fun hs => not_space_of_glyph (hgl a (le_refl _) hae) hs)
  | @bottom _ _ _ s1 a' h1 h2 h3 h4 hw =>
    have haa : a' = a := by
      rcases Nat.lt_trichotomy a' a with hlt | heq | hgt
      · exact absurd (hsp a' h1 hlt) (fun hs => not_space_of_glyph (h4 a' (le_refl _) h2) hs)
      · exact heq
      · exact absurd (h3 a hia hgt) (fun hs => not_space_of_glyph (hgl a (le_refl _) hae) hs)
    subst haa
    have heq : e = s.LINES := by
      by_contra hne
      have hlt : e < s.LINES := by omega
      exact not_space_of_glyph (h4 (e + 1) (by omega) (by omega)) (hend hlt)
    exact Or.inl ⟨heq, s1, hw, rfl⟩
  | @grow _ _ _ s1 _ a' e' h1 h2 h3 h4 h5 h6 hw ht =>
    have haa : a' = a := by
      rcases Nat.lt_trichotomy a' a with hlt | heq | hgt
      · exact absurd (hsp a' h1 hlt) (fun hs => not_space_of_glyph (h5 a' (le_refl _) h2) hs)
      · exact heq
      · exact absurd (h4 a hia hgt) (fun hs => not_space_of_glyph (hgl a (le_refl _) hae) hs)
    subst haa
    have hee : e' = e := by
      rcases Nat.lt_trichotomy e' e with hlt | heq | hgt
      · exact absurd h6 (fun hs => not_space_of_glyph (hgl (e' + 1) (by omega) (by omega)) hs)
      · exact heq
      · exact absurd (hend (by omega))
          (fun hs => not_space_of_glyph (h5 (e + 1) (by omega) (by omega)) hs)
    subst hee
    exact Or.inr ⟨h3, s1, hw, ht⟩

/-! ### Spawn gating, case by case -/

/-- Without a spawn, gating leaves the grid and `length` alone. -/
theorem gate_quiet (j : Nat) (s : World) (h : ¬ spawns s j) :
    (gate j s).matrix = s.matrix ∧ (gate j s).length = s.length ∧
      (gate j s).LINES = s.LINES := by
  unfold spawns at h
  unfold gate
  simp only [World.touch]
  by_cases h1 : (s.matrix 0 j).val < 0 ∧ s.spaces j > 0
  · rw [if_pos h1]
    exact ⟨rfl, rfl, rfl⟩
  · rw [if_neg h1]
    by_cases h2 : (s.matrix 0 j).val < 0
    · rw [if_pos h2]
      have h3 : ¬ (s.matrix 1 j).val = -2 := fun h3 => h ⟨h2, fun hh => h1 ⟨h2, hh⟩, h3⟩
      rw [if_neg h3]
      exact ⟨rfl, rfl, rfl⟩
    · rw [if_neg h2]
      exact ⟨rfl, rfl, rfl⟩

/-- At a spawn, gating writes a glyph from `next_rand` into `matrix[0][j]` and draws
`length[j]` and `spaces[j]` from `rand()`. -/
theorem gate_spawn (j : Nat) (s : World) (h : spawns s j) :
    (∀ r c, (gate j s).matrix r c =
      if r = 0 ∧ c = j then { s.matrix r c with val := s.rand_array s.index }
      else s.matrix r c) ∧
    (gate j s).length j = ((s.rng s.calls % (s.LINES / 2) + 3 : Nat) : Int) ∧
    (gate j s).spaces j = ((s.rng (s.calls + 1) % s.LINES + 1 : Nat) : Int) := by
  unfold spawns at h
  obtain ⟨h1, h2, h3⟩ := h
  have hn : ¬ ((s.matrix 0 j).val < 0 ∧ s.spaces j > 0) := fun hh => h2 hh.2
  unfold gate
  simp only [World.touch, World.rand, next_rand, World.setVal]
  rw [if_neg hn, if_pos h1, if_pos h3]
  simp [setAt]

theorem setVal_cell_row (s : World) (i j : Nat) (v : Int) (r c : Nat) (h : r ≠ i) :
    (s.setVal i j v).matrix r c = s.matrix r c := by
  simp [World.setVal, h]

theorem setVal_cell_val (s : World) (i j : Nat) (v : Int) :
    ((s.setVal i j v).matrix i j).val = v := by
  simp [World.setVal]

theorem setVal_cell_head (s : World) (i j : Nat) (v : Int) (r c : Nat) :
    ((s.setVal i j v).matrix r c).is_head = (s.matrix r c).is_head := by
  simp only [World.setVal]
  split <;> rfl

/-! ## Pause (C4) -/

theorem tickColumn_paused (cfg : Config) (hp : cfg.pause ≠ 0) (j : Nat) (s : World) :
    Painted s (tickColumn cfg j s) := by
  rw [tickColumn_unfold]
  have hu : ¬ colUpdated cfg j s := fun h => hp h.2
  simp only [hu, if_false]
  exact renderRows_painted cfg j s.LINES 1 s

theorem tickColumns_paused (cfg : Config) (hp : cfg.pause ≠ 0) : ∀ (fuel j0 : Nat) (s : World),
    Painted s (tickColumns cfg fuel j0 s) := by
  intro fuel
  induction fuel with
  | zero => intro j0 s; exact painted_refl s
  | succ n ih =>
    intro j0 s
    simp only [tickColumns]
    split
    · exact painted_trans (tickColumn_paused cfg hp j0 s) (ih _ _)
    · exact painted_refl s

theorem advance_paused (cfg : Config) (hp : cfg.pause ≠ 0) (s : World) :
    (advance cfg s).matrix = s.matrix ∧ (advance cfg s).spaces = s.spaces ∧
      (advance cfg s).length = s.length ∧ (advance cfg s).updates = s.updates ∧
      (advance cfg s).index = s.index := by
  have h := tickColumns_paused cfg hp (bumpCount s).COLS 0 (bumpCount s)
  obtain ⟨_, _, b3, b4, b5, b6, _, b8⟩ := bumpCount_painted s
  exact ⟨h.matrix.trans b3, h.spaces.trans b5, h.length.trans b4, h.updates.trans b6,
    h.index.trans b8⟩

/-- C4. With the pause flag set, `n` consecutive ticks leave every cell of the grid (`val`
and `is_head`), the arrays `spaces`, `length` and `updates`, and the cursor of `next_rand`
exactly as they were, for every world, every such configuration and every `n`. -/
theorem paused_ticks_change_nothing (cfg : Config) (hp : cfg.pause ≠ 0) (s : World) (n : Nat) :
    ((advance cfg)^[n] s).matrix = s.matrix ∧ ((advance cfg)^[n] s).spaces = s.spaces ∧
      ((advance cfg)^[n] s).length = s.length ∧ ((advance cfg)^[n] s).updates = s.updates ∧
      ((advance cfg)^[n] s).index = s.index := by
  induction n with
  | zero => exact ⟨rfl, rfl, rfl, rfl, rfl⟩
  | succ k ih =>
    rw [Function.iterate_succ_apply']
    obtain ⟨a1, a2, a3, a4, a5⟩ := advance_paused cfg hp ((advance cfg)^[k] s)
    obtain ⟨b1, b2, b3, b4, b5⟩ := ih
    exact ⟨a1.trans b1, a2.trans b2, a3.trans b3, a4.trans b4, a5.trans b5⟩

/-- C4 at a concrete input: three paused ticks on the world `bottomRunWorld`. -/
theorem paused_ticks_witness :
    ({ defaultConfig with pause := 1 } : Config).pause ≠ 0 ∧
    ((advance { defaultConfig with pause := 1 })^[3] bottomRunWorld).matrix =
      bottomRunWorld.matrix ∧
    ((advance { defaultConfig with pause := 1 })^[3] bottomRunWorld).spaces =
      bottomRunWorld.spaces ∧
    ((advance { defaultConfig with pause := 1 })^[3] bottomRunWorld).length =
      bottomRunWorld.length ∧
    ((advance { defaultConfig with pause := 1 })^[3] bottomRunWorld).updates =
      bottomRunWorld.updates ∧
    ((advance { defaultConfig with pause := 1 })^[3] bottomRunWorld).index =
      bottomRunWorld.index :=
  ⟨by decide, paused_ticks_change_nothing _ (by decide) bottomRunWorld 3⟩

/-! ## The grid after `var_init` (C6) -/

/-- C6, the failing input. On a terminal of one row (`LINES = 1`, `COLS = 1`) `var_init`
does not build the grid: the first pass of its last loop evaluates `rand() % (LINES / 2)`,
a remainder by zero. -/
theorem var_init_one_row : var_init zeroBlock (boot 1 1 (fun _ => 0)) = none :=
  var_init_fails zeroBlock (boot 1 1 (fun _ => 0)) (by decide) (by decide)

/-- With two rows or more `var_init` builds the grid, and every active column then has `-2`
at row `1` and `-1` in every other row `0 .. LINES`. -/
theorem var_init_grid (fresh : Nat → Nat → cmatrix) (s : World) (hL : 2 ≤ s.LINES) :
    ∃ w, var_init fresh s = some w ∧ w.LINES = s.LINES ∧ w.COLS = s.COLS ∧
      ∀ c, active w c → (w.matrix 1 c).val = -2 ∧
        ∀ r, r ≤ w.LINES → r ≠ 1 → (w.matrix r c).val = -1 := by
  obtain ⟨w, hw⟩ := var_init_total fresh s hL
  have hb := var_init_built fresh s w hw
  refine ⟨w, hw, hb.lines, hb.cols, ?_⟩
  intro c hc
  unfold active at hc
  rw [hb.cols] at hc
  constructor
  · rw [hb.val]
    have : c % 2 = 0 ∧ c < s.COLS ∧ 1 ≤ s.LINES := ⟨hc.1, hc.2, by omega⟩
    rw [if_pos this]
    simp
  · intro r hr hr1
    rw [hb.lines] at hr
    rw [hb.val]
    have : c % 2 = 0 ∧ c < s.COLS ∧ r ≤ s.LINES := ⟨hc.1, hc.2, hr⟩
    rw [if_pos this, if_neg hr1]

/-! ## Bounds on the column state (C7) -/

theorem gate_bounds (j : Nat) (s : World) (hL : 2 ≤ s.LINES) (h : ColBounds s j 0) :
    ColBounds (gate j s) j 0 := by
  unfold ColBounds at *
  obtain ⟨⟨h1, h2⟩, ⟨h3, h4⟩, ⟨h5, h6⟩⟩ := h
  have m1 : s.rng s.calls % (s.LINES / 2) < s.LINES / 2 := Nat.mod_lt _ (by omega)
  have m2 : s.rng (s.calls + 1) % s.LINES < s.LINES := Nat.mod_lt _ (by omega)
  unfold gate
  simp only [World.touch, World.rand, next_rand, World.setVal]
  by_cases c1 : (s.matrix 0 j).val < 0 ∧ s.spaces j > 0
  · rw [if_pos c1]
    simp only [setAt, if_true]
    refine ⟨⟨h1, h2⟩, ⟨h3, h4⟩, ⟨?_, ?_⟩⟩ <;> omega
  · rw [if_neg c1]
    by_cases c2 : (s.matrix 0 j).val < 0
    · rw [if_pos c2]
      by_cases c3 : (s.matrix 1 j).val = -2
      · rw [if_pos c3]
        simp only [setAt, if_true]
        refine ⟨⟨?_, ?_⟩, ⟨h3, h4⟩, ⟨?_, ?_⟩⟩ <;> omega
      · rw [if_neg c3]
        exact ⟨⟨h1, h2⟩, ⟨h3, h4⟩, ⟨h5, h6⟩⟩
    · rw [if_neg c2]
      exact ⟨⟨h1, h2⟩, ⟨h3, h4⟩, ⟨h5, h6⟩⟩

theorem colBounds_of_same {c : Nat} {s s1 : World} {lo : Int} (hl : s1.LINES = s.LINES)
    (h1 : s1.length c = s.length c) (h2 : s1.updates c = s.updates c)
    (h3 : s1.spaces c = s.spaces c) (h : ColBounds s c lo) : ColBounds s1 c lo := by
  unfold ColBounds at *
  rw [hl, h1, h2, h3]
  exact h

theorem updateColumn_bounds (cfg : Config) (j : Nat) (s : World) (hL : 2 ≤ s.LINES)
    (h : ColBounds s j 0) : ColBounds (updateColumn cfg j s) j 0 := by
  have hg := gate_bounds j s hL h
  obtain ⟨f, l, sp, _⟩ := traverse_step cfg j ((gate j s).LINES + 1) 0 0 (gate j s)
  unfold updateColumn
  exact colBounds_of_same f.lines (by rw [l]) (by rw [f.updates]) (by rw [sp]) hg

theorem tickColumn_bounds (cfg : Config) (j : Nat) (s : World) (hL : 2 ≤ s.LINES)
    (h : ColBounds s j 0) : ColBounds (tickColumn cfg j s) j 0 := by
  rw [tickColumn_unfold]
  have hp := renderRows_painted cfg j
    (if colUpdated cfg j s then updateColumn cfg j s else s).LINES 1
    (if colUpdated cfg j s then updateColumn cfg j s else s)
  by_cases hu : colUpdated cfg j s
  · simp only [hu, if_true] at hp ⊢
    exact colBounds_of_same hp.lines (by rw [hp.length]) (by rw [hp.updates])
      (by rw [hp.spaces]) (updateColumn_bounds cfg j s hL h)
  · simp only [hu, if_false] at hp ⊢
    exact colBounds_of_same hp.lines (by rw [hp.length]) (by rw [hp.updates])
      (by rw [hp.spaces]) h

/-- One tick keeps the bounds of every active column. -/
theorem advance_bounds (cfg : Config) (s : World) (hL : 2 ≤ s.LINES)
    (h : ∀ c, active s c → ColBounds s c 0) :
    ∀ c, active (advance cfg s) c → ColBounds (advance cfg s) c 0 := by
  intro c hc
  obtain ⟨k1, k2, _⟩ := advance_keeps cfg s
  have hc0 : active s c := by
    unfold active at *
    rw [k1] at hc
    exact hc
  obtain ⟨b1, _, _, b4, b5, b6, _, _⟩ := bumpCount_painted s
  obtain ⟨sa, h1, _, h3, _⟩ := advance_visit cfg c s hc0
  have p0 : ColBounds (bumpCount s) c 0 :=
    colBounds_of_same b1 (by rw [b4]) (by rw [b6]) (by rw [b5]) (h c hc0)
  have p1 : ColBounds sa c 0 := colBounds_of_same h1.lines h1.length h1.updates h1.spaces p0
  have p2 := tickColumn_bounds cfg c sa (by rw [h1.lines, b1]; exact hL) p1
  exact colBounds_of_same h3.lines h3.length h3.updates h3.spaces p2

theorem ticks_bounds {w w1 : World} (ht : Ticks w w1) (hL : 2 ≤ w.LINES)
    (h : ∀ c, active w c → ColBounds w c 0) :
    w1.LINES = w.LINES ∧ w1.COLS = w.COLS ∧ ∀ c, active w1 c → ColBounds w1 c 0 := by
  induction ht with
  | start => exact ⟨rfl, rfl, h⟩
  | step cfg _ ih =>
    obtain ⟨i1, i2, i3⟩ := ih
    obtain ⟨k1, k2, _⟩ := advance_keeps cfg _
    exact ⟨k2.trans i1, k1.trans i2, advance_bounds cfg _ (by rw [i1]; exact hL) i3⟩

/-- C7. Whatever `rand()` returns and whatever the world `s` before it (the boot state, or
the state at a resize, also a repeated one), with `LINES >= 2` and any `COLS` the call of
`var_init` returns, and right after it every active column has `length` in
`[3, LINES/2 + 2]`, `updates` in `[1, 3]` and `spaces` in `[1, LINES]`; in every world
reached from there by ticks the same holds with `spaces` in `[0, LINES]`. -/
theorem column_state_bounds (fresh : Nat → Nat → cmatrix) (s : World) (hL : 2 ≤ s.LINES) :
    ∃ w, var_init fresh s = some w ∧ w.LINES = s.LINES ∧ w.COLS = s.COLS ∧
      (∀ c, active w c → ColBounds w c 1) ∧
      ∀ w1, Ticks w w1 → w1.LINES = s.LINES ∧ w1.COLS = s.COLS ∧
        ∀ c, active w1 c → ColBounds w1 c 0 := by
  obtain ⟨w, hw⟩ := var_init_total fresh s hL
  have hb := var_init_built fresh s w hw
  have h1 : ∀ c, active w c → ColBounds w c 1 := by
    intro c hc
    unfold active at hc
    rw [hb.cols] at hc
    unfold ColBounds
    rw [hb.lines]
    exact ⟨hb.length c hc.1 hc.2, hb.updates c hc.1 hc.2, hb.spaces c hc.1 hc.2⟩
  refine ⟨w, hw, hb.lines, hb.cols, h1, ?_⟩
  intro w1 ht
  have h0 : ∀ c, active w c → ColBounds w c 0 := by
    intro c hc
    obtain ⟨a1, a2, a3, a4⟩ := h1 c hc
    exact ⟨a1, a2, by omega, a4⟩
  obtain ⟨i1, i2, i3⟩ := ticks_bounds ht (by rw [hb.lines]; exact hL) h0
  exact ⟨i1.trans hb.lines, i2.trans hb.cols, i3⟩

/-- C7 at a concrete input: the first `var_init` on a terminal of 10 rows and 10 columns. -/
theorem column_state_bounds_witness :
    ∃ w, var_init zeroBlock (boot 10 10 (fun _ => 0)) = some w ∧
      w.LINES = (boot 10 10 (fun _ => 0)).LINES ∧ w.COLS = (boot 10 10 (fun _ => 0)).COLS ∧
      (∀ c, active w c → ColBounds w c 1) ∧
      ∀ w1, Ticks w w1 → w1.LINES = (boot 10 10 (fun _ => 0)).LINES ∧
        w1.COLS = (boot 10 10 (fun _ => 0)).COLS ∧
        ∀ c, active w1 c → ColBounds w1 c 0 :=
  column_state_bounds zeroBlock (boot 10 10 (fun _ => 0)) (by decide)

/-! ## A run that ends on the last row (C9) -/

/-- C9. Let column `j` hold one run only, `matrix[a .. LINES][j]`, with nothing but skipped
cells above it, in a world whose `next_rand` buffer is as `var_init` leaves it, and let the
update not spawn. Then one update of the column sets `matrix[a][j].val` to `-2`, leaves
every cell that was `-1` or `-2` exactly as it was, and leaves the cells
`matrix[a+1 .. LINES][j]` glyph cells: the run is one cell shorter. -/
theorem bottom_run_update (cfg : Config) (j : Nat) (s : World) (hb : GoodBuf s) (a : Nat)
    (ha : a ≤ s.LINES) (hsp : ∀ r, r < a → isSpace (s.matrix r j))
    (hgl : ∀ r, a ≤ r → r ≤ s.LINES → isGlyph (s.matrix r j)) (hns : ¬ spawns s j) :
    ((updateColumn cfg j s).matrix a j).val = -2 ∧
    (∀ r, isSpace (s.matrix r j) → (updateColumn cfg j s).matrix r j = s.matrix r j) ∧
    (∀ r, a < r → r ≤ s.LINES → isGlyph ((updateColumn cfg j s).matrix r j)) := by
  obtain ⟨gm, _, gl⟩ := gate_quiet j s hns
  have ht := updateColumn_trav cfg j s hb
  have hcase := @trav_cases_run j 0 0 (gate j s) (updateColumn cfg j s) ht a (gate j s).LINES
    (Nat.zero_le a) (by rw [gl]; exact ha) (le_refl _)
    (fun r _ h2 => by rw [gm]; exact hsp r h2)
    (fun r h1 h2 => by rw [gm]; exact hgl r h1 (by rw [gl] at h2; exact h2))
    (fun h => by omega)
  rcases hcase with ⟨_, s1, hw, he⟩ | ⟨hlt, _⟩
  · rw [he]
    refine ⟨setVal_cell_val s1 a j (-2), ?_, ?_⟩
    · intro r hr
      have hra : ¬ (a ≤ r ∧ r < (gate j s).LINES + 1) := by
        intro hh
        exact not_space_of_glyph (hgl r hh.1 (by rw [gl] at hh; omega)) hr
      have hne : r ≠ a := by
        intro hh
        subst hh
        exact not_space_of_glyph (hgl r (le_refl _) ha) hr
      rw [setVal_cell_row s1 a j (-2) r j hne, hw.other r j (fun hh => hra hh.2), gm]
    · intro r h1 h2
      have hne : r ≠ a := by omega
      rw [setVal_cell_row s1 a j (-2) r j hne]
      exact hw.glyph r (by omega) (by rw [gl]; omega)
  · omega

/-- C9 at a concrete input: the world `bottomRunWorld`, whose column `0` holds the run
`matrix[2 .. 3][0]` on a grid with `LINES = 3`. -/
theorem bottom_run_update_witness :
    ((updateColumn defaultConfig 0 bottomRunWorld).matrix 2 0).val = -2 ∧
    (∀ r, isSpace (bottomRunWorld.matrix r 0) →
      (updateColumn defaultConfig 0 bottomRunWorld).matrix r 0 = bottomRunWorld.matrix r 0) ∧
    (∀ r, 2 < r → r ≤ bottomRunWorld.LINES →
      isGlyph ((updateColumn defaultConfig 0 bottomRunWorld).matrix r 0)) :=
  bottom_run_update defaultConfig 0 bottomRunWorld
    ⟨by decide, fun _ _ => by simp [bottomRunWorld]⟩ 2 (by decide)
    (fun r hr => by
      have h : ¬ 2 ≤ r := by omega
      simp [bottomRunWorld, isSpace, h])
    (fun r h1 _ => by simp [bottomRunWorld, isGlyph, h1])
    (by decide)

/-! ## Lock mode (C10) -/

theorem lockedSaver_signals (w : World) (c : Char) :
    checkSignals (keyInput c) (deliver (keyInput c) (lockedSaver w)) =
      Outcome.running (lockedSaver w) := by
  have hd : deliver (keyInput c) (lockedSaver w) = lockedSaver w := rfl
  rw [hd]
  unfold checkSignals
  have h1 : ¬ (((lockedSaver w).signal_status = SIGINT ∨
      (lockedSaver w).signal_status = SIGQUIT) ∧ (lockedSaver w).lock ≠ 1) :=
    fun h => h.2 rfl
  have h2 : ¬ ((lockedSaver w).signal_status = SIGWINCH) := by
    show ¬ ((0 : Int) = 28)
    decide
  have h3 : ¬ ((lockedSaver w).signal_status = SIGTSTP ∧ (lockedSaver w).lock ≠ 1) :=
    fun h => h.2 rfl
  rw [if_neg h1]
  simp only [h2, if_false]
  rw [if_neg h3]

theorem lockedSaver_key_finishes (w : World) (c : Char) :
    mainLoop [keyInput c] (lockedSaver w) = Outcome.finished := by
  have hk : keyStep (keyInput c)
      { lockedSaver w with world := bumpCount (lockedSaver w).world } = Outcome.finished := by
    show handleKey (keyCode c) _ = Outcome.finished
    unfold handleKey
    exact if_pos rfl
  simp only [mainLoop, mainPass, lockedSaver_signals, hk]

/-- C10, the failing input. `cmatrix -s -L` on a terminal of 24 rows and 80 columns: lock
mode is on (`lock == 1`) and so is screensaver mode; the first key pressed (`x`) makes the
main loop call `finish()`, because the screensaver branch of the key handling does not
test `lock`. -/
theorem lock_with_screensaver_finishes :
    ∃ w, var_init zeroBlock (boot 24 80 (fun _ => 0)) = some w ∧ (lockedSaver w).lock = 1 ∧
      mainLoop [keyInput 'x'] (lockedSaver w) = Outcome.finished := by
  obtain ⟨w, hw⟩ := var_init_total zeroBlock (boot 24 80 (fun _ => 0)) (by decide)
  exact ⟨w, hw, rfl, lockedSaver_key_finishes w 'x'⟩

theorem staysLocked_congr {c1 c2 : Config} (h : c1.screensaver = c2.screensaver)
    {o : Outcome} (ho : o.staysLocked c1) : o.staysLocked c2 := by
  cases o with
  | running m => exact ⟨ho.1, ho.2.trans h⟩
  | finished => exact ho
  | crashed => trivial

theorem staysLocked_ite {p : Prop} [Decidable p] {a b : Outcome} {c : Config}
    (ha : p → a.staysLocked c) (hb : ¬ p → b.staysLocked c) :
    (if p then a else b).staysLocked c := by
  by_cases h : p
  · rw [if_pos h]; exact ha h
  · rw [if_neg h]; exact hb h

theorem keySwitch_locked (keypress : Int) (m : Machine) (hl : m.lock = 1) :
    (keySwitch keypress m).staysLocked m.cfg := by
  unfold keySwitch
  refine staysLocked_ite (fun _ => staysLocked_ite (fun h => absurd hl h) (fun _ => ⟨hl, rfl⟩))
    (fun _ => ?_)
  repeat first
    | exact ⟨hl, rfl⟩
    | exact ⟨rfl, rfl⟩
    | refine staysLocked_ite (fun _ => ?_) (fun _ => ?_)

theorem checkSignals_locked (inp : Input) (m : Machine) (hl : m.lock = 1) :
    (checkSignals inp m).staysLocked m.cfg := by
  unfold checkSignals
  have h1 : ¬ ((m.signal_status = SIGINT ∨ m.signal_status = SIGQUIT) ∧ m.lock ≠ 1) :=
    fun h => h.2 hl
  rw [if_neg h1]
  by_cases hw : m.signal_status = SIGWINCH
  · simp only [hw, if_true]
    cases hr : resize_screen inp.win inp.fresh m.world with
    | none => simp [Outcome.staysLocked]
    | some w =>
      simp only []
      have h2 : ¬ ((0 : Int) = SIGTSTP ∧ m.lock ≠ 1) := fun h => h.2 hl
      rw [if_neg h2]
      exact ⟨hl, rfl⟩
  · simp only [hw, if_false]
    have h2 : ¬ (m.signal_status = SIGTSTP ∧ m.lock ≠ 1) := fun h => h.2 hl
    rw [if_neg h2]
    exact ⟨hl, rfl⟩

theorem deliver_keeps (inp : Input) (m : Machine) :
    (deliver inp m).lock = m.lock ∧ (deliver inp m).cfg = m.cfg := by
  unfold deliver
  cases inp.signal <;> exact ⟨rfl, rfl⟩

theorem keyStep_locked (inp : Input) (m : Machine) (hl : m.lock = 1)
    (hs : m.cfg.screensaver ≠ 1) : (keyStep inp m).staysLocked m.cfg := by
  unfold keyStep
  cases inp.key with
  | none => exact ⟨hl, rfl⟩
  | some keypress =>
    simp only [handleKey]
    rw [if_neg hs]
    exact keySwitch_locked keypress m hl

theorem mainPass_locked (inp : Input) (m : Machine) (hl : m.lock = 1)
    (hs : m.cfg.screensaver ≠ 1) : (mainPass inp m).staysLocked m.cfg := by
  obtain ⟨d1, d2⟩ := deliver_keeps inp m
  have hc := checkSignals_locked inp (deliver inp m) (d1.trans hl)
  rw [d2] at hc
  unfold mainPass
  cases hcs : checkSignals inp (deliver inp m) with
  | finished => rw [hcs] at hc; exact hc
  | crashed => trivial
  | running m1 =>
    rw [hcs] at hc
    obtain ⟨hl1, hs1⟩ := hc
    simp only []
    have hk := keyStep_locked inp { m1 with world := bumpCount m1.world } hl1
      (by show m1.cfg.screensaver ≠ 1; rw [hs1]; exact hs)
    cases hks : keyStep inp { m1 with world := bumpCount m1.world } with
    | finished => rw [hks] at hk; exact hk
    | crashed => trivial
    | running m2 =>
      rw [hks] at hk
      simp only []
      exact ⟨hk.1, hk.2.trans hs1⟩

/-- Lock mode without screensaver mode: whatever keys are pressed and whatever signals
arrive, the main loop never calls `finish()`, and while it runs `lock` stays `1`. -/
theorem locked_never_finishes (inps : List Input) (m : Machine) (hl : m.lock = 1)
    (hs : m.cfg.screensaver ≠ 1) : (mainLoop inps m).staysLocked m.cfg := by
  induction inps generalizing m with
  | nil => exact ⟨hl, rfl⟩
  | cons inp rest ih =>
    simp only [mainLoop]
    have h1 := mainPass_locked inp m hl hs
    cases hp : mainPass inp m with
    | finished => rw [hp] at h1; exact h1
    | crashed => trivial
    | running m1 =>
      rw [hp] at h1
      simp only []
      exact staysLocked_congr h1.2 (ih m1 h1.1 (by rw [h1.2]; exact hs))

/-- The machine of `cmatrix -L` at a concrete input: the key `q`, then `SIGINT`. -/
theorem locked_never_finishes_witness :
    (mainLoop [keyInput 'q', { keyInput 'x' with signal := some SIGINT, key := none }]
      { lockedSaver (boot 24 80 (fun _ => 0)) with cfg := defaultConfig }).staysLocked
      defaultConfig :=
  locked_never_finishes
    [keyInput 'q', { keyInput 'x' with signal := some SIGINT, key := none }]
    { lockedSaver (boot 24 80 (fun _ => 0)) with cfg := defaultConfig } rfl (by decide)

/-! ## The values the column update writes -/

/-- The column walk leaves in a cell its old `val`, `-2`, a glyph index, or, in row `0`
only, `-1`. -/
theorem trav_vals {j i : Nat} {fcd : Int} {s s2 : World} (h : Trav j i fcd s s2)
    (hb : GoodBuf s) (r : Nat) :
    (s2.matrix r j).val = (s.matrix r j).val ∨ (s2.matrix r j).val = -2 ∨
      ((s2.matrix r j).val = -1 ∧ r = 0) ∨
      (1 ≤ (s2.matrix r j).val ∧ (s2.matrix r j).val ≤ 43) := by
  induction h with
  | stop _ => exact Or.inl rfl
  | done _ hl _ => left; rw [logOnly_matrix hl]
  | @bottom i fcd s s1 a _ _ _ _ hw =>
    by_cases hra : r = a
    · subst hra
      right; left
      exact setVal_cell_val s1 r j (-2)
    · rw [setVal_cell_row s1 a j (-2) r j hra]
      by_cases hin : a ≤ r ∧ r < s.LINES + 1
      · rcases hw.value r hin.1 hin.2 with h1 | h1
        · exact Or.inl h1
        · exact Or.inr (Or.inr (Or.inr h1))
      · left
        rw [hw.other r j (fun hh => hin hh.2)]
  | @grow i fcd s s1 s2 a e _ hae _ _ _ _ hw _ ih =>
    have hb1 := walked_goodBuf hw hb
    have hcell := growRun_cell j a (e + 1) (e + 1 - a) fcd s1 (by omega) r j
    have hs1 : (s1.matrix r j).val = (s.matrix r j).val ∨
        (1 ≤ (s1.matrix r j).val ∧ (s1.matrix r j).val ≤ 43) := by
      by_cases hin : a ≤ r ∧ r < e + 1
      · exact hw.value r hin.1 hin.2
      · left
        rw [hw.other r j (fun hh => hin hh.2)]
    have hg : (growRun j a (e + 1) (e + 1 - a) fcd s1).matrix r j = s1.matrix r j ∨
        ((growRun j a (e + 1) (e + 1 - a) fcd s1).matrix r j).val = -2 ∨
        (((growRun j a (e + 1) (e + 1 - a) fcd s1).matrix r j).val = -1 ∧ r = 0) ∨
        (1 ≤ ((growRun j a (e + 1) (e + 1 - a) fcd s1).matrix r j).val ∧
          ((growRun j a (e + 1) (e + 1 - a) fcd s1).matrix r j).val ≤ 43) := by
      rw [hcell]
      by_cases c1 : j = j ∧ r = e + 1
      · rw [if_pos c1]
        right; right; right
        exact goodBuf_next_val hb1
      · rw [if_neg c1]
        by_cases c2 : j = j ∧ capCond s1 j (e + 1 - a) fcd ∧ r = 0
        · rw [if_pos c2]
          right; right; left
          exact ⟨rfl, c2.2.2⟩
        · rw [if_neg c2]
          by_cases c3 : j = j ∧ capCond s1 j (e + 1 - a) fcd ∧ r = a
          · rw [if_pos c3]
            right; left
            rfl
          · rw [if_neg c3]
            left
            rfl
    rcases ih (growRun_goodBuf _ _ _ _ _ _ hb1) with k | k | k | k
    · rw [k]
      rcases hg with g | g | g | g
      · rw [g]
        rcases hs1 with q | q
        · exact Or.inl q
        · exact Or.inr (Or.inr (Or.inr q))
      · exact Or.inr (Or.inl g)
      · exact Or.inr (Or.inr (Or.inl g))
      · exact Or.inr (Or.inr (Or.inr g))
    · exact Or.inr (Or.inl k)
    · exact Or.inr (Or.inr (Or.inl k))
    · exact Or.inr (Or.inr (Or.inr k))

/-- Spawn gating leaves in a cell its old `val` or, in row `0`, a glyph index. -/
theorem gate_vals (j : Nat) (s : World) (hb : GoodBuf s) (r : Nat) :
    ((gate j s).matrix r j).val = (s.matrix r j).val ∨
      (r = 0 ∧ 1 ≤ ((gate j s).matrix r j).val ∧ ((gate j s).matrix r j).val ≤ 43) := by
  by_cases hs : spawns s j
  · obtain ⟨hm, _, _⟩ := gate_spawn j s hs
    rw [hm]
    by_cases h0 : r = 0 ∧ j = j
    · rw [if_pos h0]
      right
      exact ⟨h0.1, hb.2 s.index hb.1⟩
    · rw [if_neg h0]
      exact Or.inl rfl
  · rw [(gate_quiet j s hs).1]
    exact Or.inl rfl

theorem updateColumn_vals (cfg : Config) (j : Nat) (s : World) (hb : GoodBuf s)
    (h : ColVals s j) : ColVals (updateColumn cfg j s) j := by
  have ht := updateColumn_trav cfg j s hb
  have hgb := gate_goodBuf j s hb
  obtain ⟨f, _⟩ := updateColumn_frame cfg j s
  constructor
  · intro r hr
    rw [f.lines] at hr
    have h0 := h.1 r hr
    unfold okVal at *
    rcases trav_vals ht hgb r with k | k | k | k
    · rw [k]
      rcases gate_vals j s hb r with g | g
      · rw [g]; exact h0
      · exact Or.inr (Or.inr g.2)
    · exact Or.inl k
    · exact Or.inr (Or.inl k.1)
    · exact Or.inr (Or.inr k)
  · have h1 := h.2
    rcases trav_vals ht hgb 1 with k | k | k | k
    · rw [k]
      rcases gate_vals j s hb 1 with g | g
      · rw [g]; exact h1
      · omega
    · omega
    · omega
    · omega

theorem colVals_of_same {c : Nat} {s s1 : World} (hs : ColSame c s s1) (h : ColVals s c) :
    ColVals s1 c := by
  unfold ColVals at *
  rw [hs.lines]
  constructor
  · intro r hr
    rw [hs.cells]
    exact h.1 r hr
  · rw [hs.cells]
    exact h.2

theorem tickColumn_vals (cfg : Config) (j : Nat) (s : World) (hb : GoodBuf s)
    (h : ColVals s j) : ColVals (tickColumn cfg j s) j := by
  rw [tickColumn_unfold]
  have hp := renderRows_painted cfg j
    (if colUpdated cfg j s then updateColumn cfg j s else s).LINES 1
    (if colUpdated cfg j s then updateColumn cfg j s else s)
  by_cases hu : colUpdated cfg j s
  · simp only [hu, if_true] at hp ⊢
    exact colVals_of_same (painted_colSame hp j) (updateColumn_vals cfg j s hb h)
  · simp only [hu, if_false] at hp ⊢
    exact colVals_of_same (painted_colSame hp j) h

theorem bumpCount_colSame (s : World) (c : Nat) :
    (bumpCount s).LINES = s.LINES ∧ (bumpCount s).COLS = s.COLS ∧
      (∀ r, (bumpCount s).matrix r c = s.matrix r c) ∧
      (bumpCount s).length c = s.length c ∧ (bumpCount s).spaces c = s.spaces c ∧
      (bumpCount s).updates c = s.updates c := by
  obtain ⟨b1, b2, b3, b4, b5, b6, _, _⟩ := bumpCount_painted s
  exact ⟨b1, b2, fun r => by rw [b3], by rw [b4], by rw [b5], by rw [b6]⟩

/-- One tick keeps the cell values of every active column in order. -/
theorem advance_vals (cfg : Config) (s : World) (hb : GoodBuf s)
    (h : ∀ c, active s c → ColVals s c) :
    ∀ c, active (advance cfg s) c → ColVals (advance cfg s) c := by
  intro c hc
  obtain ⟨k1, _⟩ := advance_keeps cfg s
  have hc0 : active s c := by
    unfold active at *
    rw [k1] at hc
    exact hc
  obtain ⟨b1, b2, b3, _⟩ := bumpCount_colSame s c
  obtain ⟨sa, h1, h2, h3, _⟩ := advance_visit cfg c s hc0
  have p0 : ColVals (bumpCount s) c := by
    unfold ColVals at *
    rw [b1]
    exact ⟨fun r hr => by rw [b3]; exact (h c hc0).1 r hr, by rw [b3]; exact (h c hc0).2⟩
  have p1 := colVals_of_same h1 p0
  have p2 := tickColumn_vals cfg c sa (h2 hb) p1
  exact colVals_of_same h3 p2

/-- The world `var_init` builds has a good buffer when the cursor of `next_rand` was inside
it, and every active column then holds `-2` in row `1` and `-1` elsewhere. -/
theorem built_start {fresh : Nat → Nat → cmatrix} {s w : World} (hb : Built fresh s w)
    (hi : s.index ≤ RAND_LEN) :
    GoodBuf w ∧ (∀ c, active w c → ColVals w c) := by
  refine ⟨⟨by rw [hb.index]; exact hi, hb.buf⟩, ?_⟩
  intro c hc
  unfold active at hc
  rw [hb.cols] at hc
  have hL := hb.geometry (by omega)
  constructor
  · intro r hr
    rw [hb.lines] at hr
    rw [hb.val]
    have : c % 2 = 0 ∧ c < s.COLS ∧ r ≤ s.LINES := ⟨hc.1, hc.2, hr⟩
    rw [if_pos this]
    unfold okVal
    split
    · exact Or.inl rfl
    · exact Or.inr (Or.inl rfl)
  · rw [hb.val]
    have : c % 2 = 0 ∧ c < s.COLS ∧ 1 ≤ s.LINES := ⟨hc.1, hc.2, by omega⟩
    rw [if_pos this]
    simp

/-- Every world reached by ticks from a built world has a good buffer and cell values in
order. -/
theorem ticks_vals {w w1 : World} (ht : Ticks w w1) (hb : GoodBuf w)
    (h : ∀ c, active w c → ColVals w c) :
    w1.LINES = w.LINES ∧ w1.COLS = w.COLS ∧ GoodBuf w1 ∧ ∀ c, active w1 c → ColVals w1 c := by
  induction ht with
  | start => exact ⟨rfl, rfl, hb, h⟩
  | step cfg _ ih =>
    obtain ⟨i1, i2, i3, i4⟩ := ih
    obtain ⟨k1, k2, _⟩ := advance_keeps cfg _
    exact ⟨k2.trans i1, k1.trans i2, advance_goodBuf cfg _ i3,
      advance_vals cfg _ i3 i4⟩

/-! ## Head cells (C1) and `-2` cells (C2) -/

theorem isGlyph_of_range {c : cmatrix} (h : 1 ≤ c.val ∧ c.val ≤ 43) : isGlyph c := by
  unfold isGlyph
  constructor <;> omega

theorem growRun_cell_far (j z i y : Nat) (fcd : Int) (s : World) (hzi : z < i) (r : Nat)
    (h1 : r ≠ i) (h2 : r ≠ 0) (h3 : r ≠ z) :
    (growRun j z i y fcd s).matrix r j = s.matrix r j := by
  rw [growRun_cell j z i y fcd s hzi r j]
  have c1 : ¬ (j = j ∧ r = i) := fun h => h1 h.2
  have c2 : ¬ (j = j ∧ capCond s j y fcd ∧ r = 0) := fun h => h2 h.2.2
  have c3 : ¬ (j = j ∧ capCond s j y fcd ∧ r = z) := fun h => h3 h.2.2
  rw [if_neg c1, if_neg c2, if_neg c3]

theorem growRun_cell_new (j z i y : Nat) (fcd : Int) (s : World) (hzi : z < i) :
    (growRun j z i y fcd s).matrix i j = ⟨(next_rand s).1, true⟩ := by
  rw [growRun_cell j z i y fcd s hzi i j]
  rw [if_pos ⟨rfl, rfl⟩]

theorem growRun_cell_head (j z i y : Nat) (fcd : Int) (s : World) (hzi : z < i) (r : Nat)
    (h1 : r ≠ i) :
    ((growRun j z i y fcd s).matrix r j).is_head = (s.matrix r j).is_head := by
  rw [growRun_cell j z i y fcd s hzi r j]
  have c1 : ¬ (j = j ∧ r = i) := fun h => h1 h.2
  rw [if_neg c1]
  split
  · rfl
  · split <;> rfl

/-- After `growRun` a cell other than the new one is a skipped cell if it was one. -/
theorem growRun_cell_space (j z i y : Nat) (fcd : Int) (s : World) (hzi : z < i) (r : Nat)
    (h1 : r ≠ i) (h : isSpace (s.matrix r j)) :
    isSpace ((growRun j z i y fcd s).matrix r j) := by
  rw [growRun_cell j z i y fcd s hzi r j]
  have c1 : ¬ (j = j ∧ r = i) := fun h => h1 h.2
  rw [if_neg c1]
  split
  · exact Or.inr rfl
  · split
    · exact Or.inl rfl
    · exact h

/-- When the cap rule fires, the first cell of the run is a skipped cell after `growRun`. -/
theorem growRun_cell_start (j z i y : Nat) (fcd : Int) (s : World) (hzi : z < i)
    (hc : capCond s j y fcd) : isSpace ((growRun j z i y fcd s).matrix z j) := by
  rw [growRun_cell j z i y fcd s hzi z j]
  have c1 : ¬ (j = j ∧ z = i) := fun h => by omega
  rw [if_neg c1]
  by_cases h0 : z = 0
  · rw [if_pos ⟨rfl, hc, h0⟩]
    exact Or.inr rfl
  · have c2 : ¬ (j = j ∧ capCond s j y fcd ∧ z = 0) := fun h => h0 h.2.2
    rw [if_neg c2, if_pos ⟨rfl, hc, rfl⟩]
    exact Or.inl rfl

/-- The column walk from row `i` leaves the rows `1 .. i-1` as they are. -/
theorem trav_above {j i : Nat} {fcd : Int} {s s2 : World} (h : Trav j i fcd s s2) (r : Nat)
    (h1 : 1 ≤ r) (h2 : r < i) : s2.matrix r j = s.matrix r j := by
  induction h with
  | stop _ => rfl
  | done _ hl _ => rw [logOnly_matrix hl]
  | @bottom i fcd s s1 a hia _ _ _ hw =>
    rw [setVal_cell_row s1 a j (-2) r j (by omega), hw.other r j (fun hh => by omega)]
  | @grow i fcd s s1 s2 a e hia hae _ _ _ _ hw _ ih =>
    rw [ih (by omega), growRun_cell_far j a (e + 1) (e + 1 - a) fcd s1 (by omega) r
      (by omega) (by omega) (by omega), hw.other r j (fun hh => by omega)]

/-- The column walk never turns a skipped cell of row `0` into a glyph cell, and keeps its
`is_head`. -/
theorem trav_row0 {j i : Nat} {fcd : Int} {s s2 : World} (h : Trav j i fcd s s2)
    (h1 : 1 ≤ i) : (isSpace (s.matrix 0 j) → isSpace (s2.matrix 0 j)) ∧
      (s2.matrix 0 j).is_head = (s.matrix 0 j).is_head := by
  induction h with
  | stop _ => exact ⟨id, rfl⟩
  | done _ hl _ => rw [logOnly_matrix hl]; exact ⟨id, rfl⟩
  | @bottom i fcd s s1 a hia _ _ _ hw =>
    rw [setVal_cell_row s1 a j (-2) 0 j (by omega), hw.other 0 j (fun hh => by omega)]
    exact ⟨id, rfl⟩
  | @grow i fcd s s1 s2 a e hia hae _ _ _ _ hw _ ih =>
    obtain ⟨i1, i2⟩ := ih (by omega)
    have e1 : s1.matrix 0 j = s.matrix 0 j := hw.other 0 j (fun hh => by omega)
    constructor
    · intro hs
      apply i1
      apply growRun_cell_space j a (e + 1) (e + 1 - a) fcd s1 (by omega) 0 (by omega)
      rw [e1]
      exact hs
    · rw [i2, growRun_cell_head j a (e + 1) (e + 1 - a) fcd s1 (by omega) 0 (by omega), e1]

/-- The loop invariant of the column walk for head cells. Before row `i` every head cell is
a glyph cell below row `0` with a skipped cell under it, except that the cell in row `i - 1`
may still have the first cell of the next run under it when `firstcoldone` is set; from row
`i` on, head cells are glyph cells. Then after the walk `HeadOK` holds. -/
theorem trav_heads {j i : Nat} {fcd : Int} {s s2 : World} (h : Trav j i fcd s s2) :
    GoodBuf s →
    (∀ r, r < i → r ≤ s.LINES → (s.matrix r j).is_head = true →
      1 ≤ r ∧ isGlyph (s.matrix r j) ∧ (r + 1 < i → isSpace (s.matrix (r + 1) j)) ∧
      (r + 1 = i → r < s.LINES → fcd ≠ 0 ∨ isSpace (s.matrix i j))) →
    (∀ r, i ≤ r → r ≤ s.LINES → (s.matrix r j).is_head = true → isGlyph (s.matrix r j)) →
    HeadOK s2 j := by
  induction h with
  | @stop i fcd s hi =>
    intro _ hA _ r hr hh
    obtain ⟨a1, a2, a3, _⟩ := hA r (by omega) hr hh
    exact ⟨a1, a2, fun h => a3 (by omega)⟩
  | @done i fcd s s1 hi hl hsp =>
    intro _ hA hB r hr hh
    rw [logOnly_matrix hl] at hh ⊢
    rw [logOnly_lines hl] at hr ⊢
    by_cases hri : r < i
    · obtain ⟨a1, a2, a3, a4⟩ := hA r hri hr hh
      refine ⟨a1, a2, fun h => ?_⟩
      by_cases h1 : r + 1 < i
      · exact a3 h1
      · exact hsp (r + 1) (by omega) (by omega)
    · exact absurd (hsp r (by omega) hr) (fun hs => not_space_of_glyph (hB r (by omega) hr hh) hs)
  | @bottom i fcd s s1 a hia haL hsp hgl hw =>
    intro _ hA hB r hr hh
    have hL : (s1.setVal a j (-2)).LINES = s.LINES := hw.lines
    rw [hL] at hr ⊢
    rw [setVal_cell_head] at hh
    by_cases hra : r < a
    · have e1 : s1.matrix r j = s.matrix r j := hw.other r j (fun h => by omega)
      rw [e1] at hh
      rw [setVal_cell_row s1 a j (-2) r j (by omega), e1]
      by_cases hri : r < i
      · obtain ⟨a1, a2, a3, a4⟩ := hA r hri hr hh
        refine ⟨a1, a2, fun h => ?_⟩
        by_cases h1 : r + 1 = a
        · rw [h1]
          exact Or.inl (setVal_cell_val s1 a j (-2))
        · rw [setVal_cell_row s1 a j (-2) (r + 1) j h1, hw.other (r + 1) j (fun h => by omega)]
          by_cases h2 : r + 1 < i
          · exact a3 h2
          · exact hsp (r + 1) (by omega) (by omega)
      · exact absurd (hsp r (by omega) hra)
          (fun hs => not_space_of_glyph (hB r (by omega) hr hh) hs)
    · have := hw.head r (by omega) (by omega)
      rw [this] at hh
      exact absurd hh (by simp)
  | @grow i fcd s s1 s2 a e hia hae heL hsp hgl hend hw ht ih =>
    intro hb hA hB
    have hb1 := walked_goodBuf hw hb
    have hzi : a < e + 1 := by omega
    have hLg : (growRun j a (e + 1) (e + 1 - a) fcd s1).LINES = s.LINES := by
      rw [growRun_lines, hw.lines]
    apply ih (growRun_goodBuf _ _ _ _ _ _ hb1)
    · intro r hr1 hr2 hh
      rw [hLg] at hr2
      by_cases hre : r = e + 1
      · subst hre
        rw [growRun_cell_new j a (e + 1) (e + 1 - a) fcd s1 hzi]
        refine ⟨by omega, isGlyph_of_range (goodBuf_next_val hb1), fun h => by omega,
          fun _ _ => Or.inl (by decide)⟩
      · rw [growRun_cell_head j a (e + 1) (e + 1 - a) fcd s1 hzi r hre] at hh
        by_cases hra : r < a
        · have e1 : s1.matrix r j = s.matrix r j := hw.other r j (fun h => by omega)
          rw [e1] at hh
          by_cases hri : r < i
          · obtain ⟨a1, a2, a3, a4⟩ := hA r hri (by omega) hh
            have e2 : (growRun j a (e + 1) (e + 1 - a) fcd s1).matrix r j = s.matrix r j := by
              rw [growRun_cell_far j a (e + 1) (e + 1 - a) fcd s1 hzi r hre (by omega)
                (by omega), e1]
            rw [e2]
            refine ⟨a1, a2, fun _ => ?_, fun h => by omega⟩
            by_cases h1 : r + 1 = a
            · rw [h1]
              by_cases h2 : i = a
              · rcases a4 (by omega) (by omega) with q | q
                · exact growRun_cell_start j a (e + 1) (e + 1 - a) fcd s1 hzi (Or.inr q)
                · rw [h2] at q
                  exact absurd q (fun hs => not_space_of_glyph (hgl a (le_refl _) hae) hs)
              · exact absurd (hsp r (by omega) hra)
                  (fun hs => not_space_of_glyph a2 hs)
            · have e3 : s1.matrix (r + 1) j = s.matrix (r + 1) j :=
                hw.other (r + 1) j (fun h => by omega)
              rw [growRun_cell_far j a (e + 1) (e + 1 - a) fcd s1 hzi (r + 1) (by omega)
                (by omega) h1, e3]
              by_cases h2 : r + 1 < i
              · exact a3 h2
              · exact hsp (r + 1) (by omega) (by omega)
          · exact absurd (hsp r (by omega) hra)
              (fun hs => not_space_of_glyph (hB r (by omega) (by omega) hh) hs)
        · have := hw.head r (by omega) (by omega)
          rw [this] at hh
          exact absurd hh (by simp)
    · intro r hr1 hr2 hh
      rw [hLg] at hr2
      have e1 : (growRun j a (e + 1) (e + 1 - a) fcd s1).matrix r j = s.matrix r j := by
        rw [growRun_cell_far j a (e + 1) (e + 1 - a) fcd s1 hzi r (by omega) (by omega)
          (by omega), hw.other r j (fun h => by omega)]
      rw [e1] at hh ⊢
      exact hB r (by omega) hr2 hh

/-- Spawn gating touches no cell but `matrix[0][j]`, and of that one the `val` only. -/
theorem gate_cells (j : Nat) (s : World) :
    (∀ r, r ≠ 0 → (gate j s).matrix r j = s.matrix r j) ∧
    ((gate j s).matrix 0 j).is_head = (s.matrix 0 j).is_head ∧
    (gate j s).LINES = s.LINES := by
  by_cases hs : spawns s j
  · obtain ⟨hm, _, _⟩ := gate_spawn j s hs
    refine ⟨fun r hr => ?_, ?_, (gate_frame j s).lines⟩
    · rw [hm]
      have : ¬ (r = 0 ∧ j = j) := fun h => hr h.1
      rw [if_neg this]
    · rw [hm, if_pos ⟨rfl, rfl⟩]
  · obtain ⟨hm, _, hl⟩ := gate_quiet j s hs
    rw [hm]
    exact ⟨fun _ _ => rfl, rfl, hl⟩

theorem updateColumn_heads (cfg : Config) (j : Nat) (s : World) (hb : GoodBuf s)
    (h : HeadOK s j) : HeadOK (updateColumn cfg j s) j := by
  obtain ⟨g1, g2, g3⟩ := gate_cells j s
  apply trav_heads (updateColumn_trav cfg j s hb) (gate_goodBuf j s hb)
  · intro r hr
    omega
  · intro r _ hr hh
    rw [g3] at hr
    by_cases h0 : r = 0
    · subst h0
      rw [g2] at hh
      have := (h 0 hr hh).1
      omega
    · rw [g1 r h0] at hh ⊢
      exact (h r hr hh).2.1

theorem headOK_of_same {c : Nat} {s s1 : World} (hs : ColSame c s s1) (h : HeadOK s c) :
    HeadOK s1 c := by
  unfold HeadOK at *
  rw [hs.lines]
  intro r hr hh
  rw [hs.cells] at hh ⊢
  rw [hs.cells]
  exact h r hr hh

theorem tickColumn_heads (cfg : Config) (j : Nat) (s : World) (hb : GoodBuf s)
    (h : HeadOK s j) : HeadOK (tickColumn cfg j s) j := by
  rw [tickColumn_unfold]
  have hp := renderRows_painted cfg j
    (if colUpdated cfg j s then updateColumn cfg j s else s).LINES 1
    (if colUpdated cfg j s then updateColumn cfg j s else s)
  by_cases hu : colUpdated cfg j s
  · simp only [hu, if_true] at hp ⊢
    exact headOK_of_same (painted_colSame hp j) (updateColumn_heads cfg j s hb h)
  · simp only [hu, if_false] at hp ⊢
    exact headOK_of_same (painted_colSame hp j) h

/-- One tick keeps `HeadOK` in every active column. -/
theorem advance_heads (cfg : Config) (s : World) (hb : GoodBuf s)
    (h : ∀ c, active s c → HeadOK s c) :
    ∀ c, active (advance cfg s) c → HeadOK (advance cfg s) c := by
  intro c hc
  obtain ⟨k1, _⟩ := advance_keeps cfg s
  have hc0 : active s c := by
    unfold active at *
    rw [k1] at hc
    exact hc
  obtain ⟨b1, b2, b3, _⟩ := bumpCount_colSame s c
  obtain ⟨sa, h1, h2, h3, _⟩ := advance_visit cfg c s hc0
  have p0 : HeadOK (bumpCount s) c := by
    unfold HeadOK at *
    rw [b1]
    intro r hr hh
    rw [b3] at hh ⊢
    rw [b3]
    exact h c hc0 r hr hh
  exact headOK_of_same h3 (tickColumn_heads cfg c sa (h2 hb) (headOK_of_same h1 p0))

theorem ticks_heads {w w1 : World} (ht : Ticks w w1) (hb : GoodBuf w)
    (h : ∀ c, active w c → HeadOK w c) :
    GoodBuf w1 ∧ ∀ c, active w1 c → HeadOK w1 c := by
  induction ht with
  | start => exact ⟨hb, h⟩
  | step cfg _ ih =>
    obtain ⟨i1, i2⟩ := ih
    exact ⟨advance_goodBuf cfg _ i1, advance_heads cfg _ i1 i2⟩

/-- C1, as amended. Start from `var_init` on the boot state with every `is_head` of the
fresh block false, and run any number of ticks under any configurations. Then in every
active column every cell with `is_head` set is a glyph cell in rows `1 .. LINES` and is the
last cell of its run (the cell below it, if any, holds `-1` or `-2`). So a run carries at
most one head cell, at its lower edge; a column with several runs can carry several. -/
theorem heads_end_their_runs (fresh : Nat → Nat → cmatrix) (rows cols : Nat) (rng : Nat → Nat)
    (w0 w : World) (hf : ∀ r c, (fresh r c).is_head = false)
    (h0 : var_init fresh (boot rows cols rng) = some w0) (ht : Ticks w0 w) :
    ∀ c, active w c → HeadOK w c := by
  have hb := var_init_built fresh _ w0 h0
  obtain ⟨g, _⟩ := built_start hb (Nat.zero_le _)
  refine (ticks_heads ht g ?_).2
  intro c _ r _ hh
  rw [hb.head, hf] at hh
  exact absurd hh (by simp)

/-! ## C1 and C2: the runs that refute them as stated, and what holds instead -/

set_option maxRecDepth 1000000 in
/-- C1 as stated fails. On a terminal of 10 rows and 10 columns, with a fresh block whose
`is_head` flags are all false, `rand()` returning `0` throughout and the default
configuration (not paused), column `0` has after seven ticks two head cells, in rows `1`
and `6`: the stream spawned in the seventh tick and the older run below it both got a new
head cell in the same update. -/
theorem two_heads_in_a_column :
    ∃ w, var_init zeroBlock (boot 10 10 (fun _ => 0)) = some w ∧
      ¬ AtMostOneHead ((advance defaultConfig)^[7] w) 0 := by
  refine ⟨(var_init zeroBlock (boot 10 10 (fun _ => 0))).get (by decide!),
    (Option.some_get _).symm, ?_⟩
  intro h
  have h1 : 1 ≤ ((advance defaultConfig)^[7] ((var_init zeroBlock (boot 10 10 (fun _ => 0))).get
        (by decide!))).LINES ∧
      6 ≤ ((advance defaultConfig)^[7] ((var_init zeroBlock (boot 10 10 (fun _ => 0))).get
        (by decide!))).LINES ∧
      (((advance defaultConfig)^[7] ((var_init zeroBlock (boot 10 10 (fun _ => 0))).get
        (by decide!))).matrix 1 0).is_head = true ∧
      (((advance defaultConfig)^[7] ((var_init zeroBlock (boot 10 10 (fun _ => 0))).get
        (by decide!))).matrix 6 0).is_head = true := by decide!
  have h2 := h 1 6 h1.1 h1.2.1 h1.2.2.1 h1.2.2.2
  omega

set_option maxRecDepth 1000000 in
/-- C1 as amended, at a concrete input: a terminal of 10 rows and 10 columns, `rand()`
returning `0` throughout, after seven ticks with the defaults. Column `0` then has two head
cells, in rows `1` and `6`; each is a glyph cell and the cell below it (rows `2` and `7`) is
a skipped cell. -/
theorem heads_end_their_runs_witness :
    ∃ w, var_init zeroBlock (boot 10 10 (fun _ => 0)) = some w ∧
      ((((advance defaultConfig)^[7] w).matrix 1 0).is_head = true ∧
        (((advance defaultConfig)^[7] w).matrix 6 0).is_head = true) ∧
      HeadOK ((advance defaultConfig)^[7] w) 0 ∧
      (isGlyph (((advance defaultConfig)^[7] w).matrix 1 0) ∧
        isSpace (((advance defaultConfig)^[7] w).matrix 2 0)) ∧
      (isGlyph (((advance defaultConfig)^[7] w).matrix 6 0) ∧
        isSpace (((advance defaultConfig)^[7] w).matrix 7 0)) := by
  have key : ∀ w0 w : World, var_init zeroBlock (boot 10 10 (fun _ => 0)) = some w0 →
      Ticks w0 w → w.LINES = 10 → w.COLS = 10 → (w.matrix 1 0).is_head = true →
      (w.matrix 6 0).is_head = true →
      HeadOK w 0 ∧ (isGlyph (w.matrix 1 0) ∧ isSpace (w.matrix 2 0)) ∧
        (isGlyph (w.matrix 6 0) ∧ isSpace (w.matrix 7 0)) := by
    intro w0 w h0 ht f1 f2 f3 f4
    have hok := heads_end_their_runs zeroBlock 10 10 (fun _ => 0) w0 w (fun _ _ => rfl) h0 ht
      0 ⟨rfl, by rw [f2]; omega⟩
    obtain ⟨_, a2, a3⟩ := hok 1 (by rw [f1]; omega) f3
    obtain ⟨_, b2, b3⟩ := hok 6 (by rw [f1]; omega) f4
    exact ⟨hok, ⟨a2, a3 (by rw [f1]; omega)⟩, ⟨b2, b3 (by rw [f1]; omega)⟩⟩
  have hf : ((advance defaultConfig)^[7] ((var_init zeroBlock (boot 10 10 (fun _ => 0))).get (by decide!))).LINES = 10 ∧
      ((advance defaultConfig)^[7] ((var_init zeroBlock (boot 10 10 (fun _ => 0))).get (by decide!))).COLS = 10 ∧
      (((advance defaultConfig)^[7] ((var_init zeroBlock (boot 10 10 (fun _ => 0))).get (by decide!))).matrix 1 0).is_head = true ∧
      (((advance defaultConfig)^[7] ((var_init zeroBlock (boot 10 10 (fun _ => 0))).get (by decide!))).matrix 6 0).is_head = true := by
    decide!
  exact ⟨_, (Option.some_get _).symm, ⟨hf.2.2.1, hf.2.2.2⟩,
    key _ _ (Option.some_get _).symm (ticks_iterate defaultConfig _ 7) hf.1 hf.2.1 hf.2.2.1
      hf.2.2.2⟩

/-- C2, as amended. Start from `var_init` on the boot state and run any number of ticks
under any configurations. Then in every active column every cell of rows `0 .. LINES` holds
`-2`, `-1` or a glyph index, and row `1` holds `-2` or a glyph index, never `-1`: the
marker of row `1` is there whenever no glyph covers it. The `-2` cells of a column are not
confined to row `1` and need not be one only. -/
theorem row_one_marker_or_glyph (fresh : Nat → Nat → cmatrix) (rows cols : Nat)
    (rng : Nat → Nat) (w0 w : World) (h0 : var_init fresh (boot rows cols rng) = some w0)
    (ht : Ticks w0 w) :
    ∀ c, active w c →
      (∀ r, r ≤ w.LINES → okVal (w.matrix r c).val) ∧
      ((w.matrix 1 c).val = -2 ∨ (1 ≤ (w.matrix 1 c).val ∧ (w.matrix 1 c).val ≤ 43)) := by
  have hb := var_init_built fresh _ w0 h0
  obtain ⟨g, hv⟩ := built_start hb (Nat.zero_le _)
  obtain ⟨hl, hc, _, h4⟩ := ticks_vals ht g hv
  intro c hc1
  obtain ⟨v1, v2⟩ := h4 c hc1
  refine ⟨v1, ?_⟩
  have hL : 1 ≤ w.LINES := by
    rw [hl, hb.lines]
    have := hb.geometry (by
      unfold active at hc1
      rw [hc, hb.cols] at hc1
      omega)
    omega
  have := v1 1 hL
  unfold okVal at this
  rcases this with q | q | q
  · exact Or.inl q
  · exact absurd q v2
  · exact Or.inr q

set_option maxRecDepth 1000000 in
/-- C2 as stated fails. On a terminal of 10 rows and 10 columns, with `rand()` returning `1`
throughout and the default configuration, column `0` holds after nine ticks the value `-2`
in row `1` and in row `2`: the capped run left a `-2` in each first cell it vacated. -/
theorem two_markers_in_a_column :
    ∃ w, var_init zeroBlock (boot 10 10 (fun _ => 1)) = some w ∧
      ¬ PendingOnlyRowOne ((advance defaultConfig)^[9] w) 0 := by
  refine ⟨(var_init zeroBlock (boot 10 10 (fun _ => 1))).get (by decide!),
    (Option.some_get _).symm, ?_⟩
  intro h
  have h1 : 2 ≤ ((advance defaultConfig)^[9] ((var_init zeroBlock (boot 10 10 (fun _ => 1))).get
        (by decide!))).LINES ∧
      (((advance defaultConfig)^[9] ((var_init zeroBlock (boot 10 10 (fun _ => 1))).get
        (by decide!))).matrix 1 0).val = -2 ∧
      (((advance defaultConfig)^[9] ((var_init zeroBlock (boot 10 10 (fun _ => 1))).get
        (by decide!))).matrix 2 0).val = -2 := by decide!
  have h2 := h 2 h1.1 h1.2.2
  omega

set_option maxRecDepth 1000000 in
/-- C2 as amended, at a concrete input: a terminal of 10 rows and 10 columns, `rand()`
returning `1` throughout, after nine ticks with the defaults. Column `0` then holds a capped
run of glyph `2` from row `3` on with `-2` in rows `1` and `2` above it: every cell holds
`-2`, `-1` or a glyph index, and row `1` holds `-2`. -/
theorem row_one_marker_or_glyph_witness :
    ∃ w, var_init zeroBlock (boot 10 10 (fun _ => 1)) = some w ∧
      ((((advance defaultConfig)^[9] w).matrix 1 0).val = -2 ∧
        (((advance defaultConfig)^[9] w).matrix 2 0).val = -2 ∧
        (((advance defaultConfig)^[9] w).matrix 3 0).val = 2) ∧
      (∀ r, r ≤ ((advance defaultConfig)^[9] w).LINES →
        okVal (((advance defaultConfig)^[9] w).matrix r 0).val) ∧
      ((((advance defaultConfig)^[9] w).matrix 1 0).val = -2 ∨
        (1 ≤ (((advance defaultConfig)^[9] w).matrix 1 0).val ∧
          (((advance defaultConfig)^[9] w).matrix 1 0).val ≤ 43)) := by
  have key : ∀ w0 w : World, var_init zeroBlock (boot 10 10 (fun _ => 1)) = some w0 →
      Ticks w0 w → w.COLS = 10 →
      (∀ r, r ≤ w.LINES → okVal (w.matrix r 0).val) ∧
      ((w.matrix 1 0).val = -2 ∨ (1 ≤ (w.matrix 1 0).val ∧ (w.matrix 1 0).val ≤ 43)) := by
    intro w0 w h0 ht f2
    exact row_one_marker_or_glyph zeroBlock 10 10 (fun _ => 1) w0 w h0 ht 0
      ⟨rfl, by rw [f2]; omega⟩
  have hf : ((advance defaultConfig)^[9] ((var_init zeroBlock (boot 10 10 (fun _ => 1))).get (by decide!))).COLS = 10 ∧
      (((advance defaultConfig)^[9] ((var_init zeroBlock (boot 10 10 (fun _ => 1))).get (by decide!))).matrix 1 0).val = -2 ∧
      (((advance defaultConfig)^[9] ((var_init zeroBlock (boot 10 10 (fun _ => 1))).get (by decide!))).matrix 2 0).val = -2 ∧
      (((advance defaultConfig)^[9] ((var_init zeroBlock (boot 10 10 (fun _ => 1))).get (by decide!))).matrix 3 0).val = 2 := by
    decide!
  exact ⟨_, (Option.some_get _).symm, hf.2,
    key _ _ (Option.some_get _).symm (ticks_iterate defaultConfig _ 9) hf.1⟩

/-! ## A forced spawn (C8) -/

/-- A column without glyph cells that does not spawn is left as it is by its update. -/
theorem updateColumn_idle (cfg : Config) (j : Nat) (s : World) (hb : GoodBuf s)
    (hns : ¬ spawns s j) (hsp : ∀ r, r ≤ s.LINES → isSpace (s.matrix r j)) :
    (updateColumn cfg j s).matrix = s.matrix := by
  obtain ⟨gm, _, gl⟩ := gate_quiet j s hns
  have ht := updateColumn_trav cfg j s hb
  have hl := trav_cases_empty ht (fun r _ hr => by rw [gm]; exact hsp r (by rw [gl] at hr; exact hr))
  rw [logOnly_matrix hl, gm]

theorem tickColumn_idle (cfg : Config) (j : Nat) (s : World) (hb : GoodBuf s)
    (hns : ¬ spawns s j) (hsp : ∀ r, r ≤ s.LINES → isSpace (s.matrix r j)) :
    (tickColumn cfg j s).matrix = s.matrix := by
  rw [tickColumn_unfold]
  have hp := renderRows_painted cfg j
    (if colUpdated cfg j s then updateColumn cfg j s else s).LINES 1
    (if colUpdated cfg j s then updateColumn cfg j s else s)
  by_cases hu : colUpdated cfg j s
  · simp only [hu, if_true] at hp ⊢
    rw [hp.matrix, updateColumn_idle cfg j s hb hns hsp]
  · simp only [hu, if_false] at hp ⊢
    exact hp.matrix

/-- The update of a column that spawns into an otherwise empty column: the staging cell
ends with the glyph drawn for it (or a re-rolled one), and `length`, `spaces` hold the two
values drawn from `rand()`. -/
theorem updateColumn_spawn (cfg : Config) (j : Nat) (s : World) (hb : GoodBuf s)
    (hL : 2 ≤ s.LINES) (hs : spawns s j)
    (hsp : ∀ r, 1 ≤ r → r ≤ s.LINES → isSpace (s.matrix r j)) :
    (1 ≤ ((updateColumn cfg j s).matrix 0 j).val ∧ ((updateColumn cfg j s).matrix 0 j).val ≤ 43) ∧
    (updateColumn cfg j s).length j = ((s.rng s.calls % (s.LINES / 2) + 3 : Nat) : Int) ∧
    (updateColumn cfg j s).spaces j = ((s.rng (s.calls + 1) % s.LINES + 1 : Nat) : Int) := by
  obtain ⟨gm, glen, gsp⟩ := gate_spawn j s hs
  have gL : (gate j s).LINES = s.LINES := (gate_frame j s).lines
  have hgb := gate_goodBuf j s hb
  have ht := updateColumn_trav cfg j s hb
  have hbuf := hb.2 s.index hb.1
  have g0 : ((gate j s).matrix 0 j).val = s.rand_array s.index := by
    rw [gm, if_pos ⟨rfl, rfl⟩]
  have gr : ∀ r, 1 ≤ r → (gate j s).matrix r j = s.matrix r j := by
    intro r hr
    rw [gm]
    have : ¬ (r = 0 ∧ j = j) := by omega
    rw [if_neg this]
  have hcase := @trav_cases_run j 0 0 (gate j s) (updateColumn cfg j s) ht 0 0
    (le_refl _) (le_refl _) (Nat.zero_le _) (fun r h1 h2 => by omega)
    (fun r h1 h2 => by
      have : r = 0 := by omega
      subst this
      apply isGlyph_of_range
      rw [g0]
      exact hbuf)
    (fun _ => by
      rw [gr 1 (le_refl _)]
      exact hsp 1 (le_refl _) (by omega))
  rcases hcase with ⟨h0, _⟩ | ⟨_, s1, hw, ht2⟩
  · omega
  · have hb1 := walked_goodBuf hw hgb
    have hrest : ∀ r, 0 + 2 ≤ r → r ≤ (growRun j 0 (0 + 1) (0 + 1 - 0) 0 s1).LINES →
        isSpace ((growRun j 0 (0 + 1) (0 + 1 - 0) 0 s1).matrix r j) := by
      intro r h1 h2
      rw [growRun_lines, hw.lines, gL] at h2
      rw [growRun_cell_far j 0 (0 + 1) (0 + 1 - 0) 0 s1 (by omega) r (by omega) (by omega)
        (by omega), hw.other r j (fun hh => by omega), gr r (by omega)]
      exact hsp r (by omega) h2
    have hlog := trav_cases_empty ht2 hrest
    have hlen : s1.length j = ((s.rng s.calls % (s.LINES / 2) + 3 : Nat) : Int) := by
      rw [hw.length, glen]
    have hncap : ¬ capCond s1 j (0 + 1 - 0) 0 := by
      unfold capCond
      rw [hlen]
      intro h
      rcases h with h | h
      · have : (((0 + 1 - 0 : Nat) : Int)) = 1 := by norm_num
        rw [this] at h
        omega
      · exact h rfl
    have hcell : (growRun j 0 (0 + 1) (0 + 1 - 0) 0 s1).matrix 0 j = s1.matrix 0 j := by
      rw [growRun_cell j 0 (0 + 1) (0 + 1 - 0) 0 s1 (by omega) 0 j]
      have c1 : ¬ (j = j ∧ 0 = 0 + 1) := by omega
      have c2 : ¬ (j = j ∧ capCond s1 j (0 + 1 - 0) 0 ∧ 0 = 0) := fun h => hncap h.2.1
      rw [if_neg c1, if_neg c2, if_neg c2]
    refine ⟨?_, ?_, ?_⟩
    · rw [logOnly_matrix hlog, hcell]
      rcases hw.value 0 (le_refl _) (by omega) with q | q
      · rw [q, g0]
        exact hbuf
      · exact q
    · rw [hlog]
      show (growRun j 0 (0 + 1) (0 + 1 - 0) 0 s1).length j = _
      rw [growRun_length, hlen]
    · rw [hlog]
      show (growRun j 0 (0 + 1) (0 + 1 - 0) 0 s1).spaces j = _
      rw [growRun_spaces, hw.spaces, gsp]

theorem colUpdated_of_same {cfg : Config} {c : Nat} {s s1 : World} (hs : ColSame c s s1)
    (h : colUpdated cfg c s) : colUpdated cfg c s1 := by
  unfold colUpdated at *
  rw [hs.count, hs.updates]
  exact h

/-- One tick after `spaces[c]` was forced to `0` in a world built by `var_init`: the
staging cell of `c` holds a glyph index, `spaces[c]` and `length[c]` were drawn from
`rand()`, and the other columns kept every cell. -/
theorem forced_spawn_core (fresh : Nat → Nat → cmatrix) (s w : World) (cfg : Config) (c : Nat)
    (hi : s.index ≤ RAND_LEN) (hw : var_init fresh s = some w) (hc : active w c)
    (hu : colUpdated cfg c (bumpCount (forceSpawn w c))) :
    (1 ≤ ((advance cfg (forceSpawn w c)).matrix 0 c).val ∧
      ((advance cfg (forceSpawn w c)).matrix 0 c).val ≤ 43) ∧
    (∃ k, w.calls ≤ k ∧
      (advance cfg (forceSpawn w c)).spaces c = ((w.rng k % w.LINES + 1 : Nat) : Int)) ∧
    (1 ≤ (advance cfg (forceSpawn w c)).spaces c ∧
      (advance cfg (forceSpawn w c)).spaces c ≤ (w.LINES : Int)) ∧
    (∃ k, w.calls ≤ k ∧ (advance cfg (forceSpawn w c)).length c =
      ((w.rng k % (w.LINES / 2) + 3 : Nat) : Int)) ∧
    (3 ≤ (advance cfg (forceSpawn w c)).length c ∧
      (advance cfg (forceSpawn w c)).length c ≤ ((w.LINES / 2 + 2 : Nat) : Int)) ∧
    (∀ c1 r, c1 ≠ c → (advance cfg (forceSpawn w c)).matrix r c1 = w.matrix r c1) := by
  have hb := var_init_built fresh s w hw
  obtain ⟨hg, _⟩ := built_start hb hi
  have hgW : GoodBuf (forceSpawn w c) := hg
  have hcW : active (forceSpawn w c) c := hc
  have hcs : c % 2 = 0 ∧ c < s.COLS := by
    unfold active at hc
    rw [hb.cols] at hc
    exact hc
  have hL : 2 ≤ s.LINES := hb.geometry (by omega)
  have hcellW : ∀ c1, c1 % 2 = 0 → c1 < s.COLS → ∀ r, r ≤ s.LINES →
      ((forceSpawn w c).matrix r c1).val = if r = 1 then -2 else -1 := by
    intro c1 h1 h2 r hr
    show (w.matrix r c1).val = _
    rw [hb.val, if_pos ⟨h1, h2, hr⟩]
  obtain ⟨b1, b2, b3, b4, b5, b6, _, _⟩ := bumpCount_painted (forceSpawn w c)
  refine ⟨?_, ?_⟩
  swap
  · -- the state of column `c` and the other columns
    obtain ⟨sa, h1, h2, h3, h4⟩ := advance_visit cfg c (forceSpawn w c) hcW
    have hga := h2 hgW
    have hLa : sa.LINES = s.LINES := by rw [h1.lines, b1]; exact hb.lines
    have hua : colUpdated cfg c sa := colUpdated_of_same h1 hu
    have hcella : ∀ r, r ≤ s.LINES → (sa.matrix r c).val = if r = 1 then -2 else -1 := by
      intro r hr
      rw [h1.cells, b3]
      exact hcellW c hcs.1 hcs.2 r hr
    have hsa : spawns sa c := by
      refine ⟨?_, ?_, ?_⟩
      · rw [hcella 0 (by omega)]
        simp
      · rw [h1.spaces, b5]
        show ¬ (setAt w.spaces c 0 c > 0)
        simp [setAt]
      · rw [hcella 1 (by omega)]
        simp
    have hspa : ∀ r, 1 ≤ r → r ≤ sa.LINES → isSpace (sa.matrix r c) := by
      intro r _ hr
      rw [hLa] at hr
      unfold isSpace
      rw [hcella r hr]
      split
      · exact Or.inl rfl
      · exact Or.inr rfl
    obtain ⟨_, u2, u3⟩ := updateColumn_spawn cfg c sa hga (by rw [hLa]; exact hL) hsa hspa
    have htc : tickColumn cfg c sa =
        renderRows cfg c (updateColumn cfg c sa).LINES 1 (updateColumn cfg c sa) := by
      rw [tickColumn_unfold]
      simp only [hua, if_true]
    have hp := renderRows_painted cfg c (updateColumn cfg c sa).LINES 1
      (updateColumn cfg c sa)
    rw [← htc] at hp
    have e1 : (advance cfg (forceSpawn w c)).spaces c =
        ((sa.rng (sa.calls + 1) % sa.LINES + 1 : Nat) : Int) := by
      rw [h3.spaces, hp.spaces, u3]
    have e2 : (advance cfg (forceSpawn w c)).length c =
        ((sa.rng sa.calls % (sa.LINES / 2) + 3 : Nat) : Int) := by
      rw [h3.length, hp.length, u2]
    have hrng : sa.rng = w.rng := h4.1
    have hcl : w.calls ≤ sa.calls := h4.2
    have hLw : sa.LINES = w.LINES := by rw [hLa, hb.lines]
    have m1 : sa.rng (sa.calls + 1) % sa.LINES < sa.LINES := Nat.mod_lt _ (by omega)
    have m2 : sa.rng sa.calls % (sa.LINES / 2) < sa.LINES / 2 := Nat.mod_lt _ (by omega)
    refine ⟨⟨sa.calls + 1, by omega, by rw [e1, hrng, hLw]⟩, ?_,
      ⟨sa.calls, hcl, by rw [e2, hrng, hLw]⟩, ?_, ?_⟩
    · rw [e1, ← hLw]
      constructor <;> omega
    · rw [e2, ← hLw]
      constructor <;> omega
    · intro c1 r hne
      by_cases hact : active (forceSpawn w c) c1
      · obtain ⟨sb, k1, k2, k3, _⟩ := advance_visit cfg c1 (forceSpawn w c) hact
        have hgb := k2 hgW
        have hLb : sb.LINES = s.LINES := by rw [k1.lines, b1]; exact hb.lines
        have hact1 : c1 % 2 = 0 ∧ c1 < s.COLS := by
          have : active w c1 := hact
          unfold active at this
          rw [hb.cols] at this
          exact this
        have hcellb : ∀ r, r ≤ s.LINES → (sb.matrix r c1).val = if r = 1 then -2 else -1 := by
          intro r hr
          rw [k1.cells, b3]
          exact hcellW c1 hact1.1 hact1.2 r hr
        have hnsb : ¬ spawns sb c1 := by
          intro hh
          apply hh.2.1
          rw [k1.spaces, b5]
          show setAt w.spaces c 0 c1 > 0
          simp only [setAt, hne, if_false]
          have := (hb.spaces c1 hact1.1 hact1.2).1
          omega
        have hspb : ∀ r, r ≤ sb.LINES → isSpace (sb.matrix r c1) := by
          intro r hr
          rw [hLb] at hr
          unfold isSpace
          rw [hcellb r hr]
          split
          · exact Or.inl rfl
          · exact Or.inr rfl
        rw [k3.cells, tickColumn_idle cfg c1 sb hgb hnsb hspb, k1.cells, b3]
        rfl
      · rw [(advance_skip cfg c1 (forceSpawn w c) hact).cells, b3]
        rfl
  · -- the staging cell of column `c`
    obtain ⟨sa, h1, h2, h3, _⟩ := advance_visit cfg c (forceSpawn w c) hcW
    have hga := h2 hgW
    have hLa : sa.LINES = s.LINES := by rw [h1.lines, b1]; exact hb.lines
    have hua : colUpdated cfg c sa := colUpdated_of_same h1 hu
    have hcella : ∀ r, r ≤ s.LINES → (sa.matrix r c).val = if r = 1 then -2 else -1 := by
      intro r hr
      rw [h1.cells, b3]
      exact hcellW c hcs.1 hcs.2 r hr
    have hsa : spawns sa c := by
      refine ⟨?_, ?_, ?_⟩
      · rw [hcella 0 (by omega)]
        simp
      · rw [h1.spaces, b5]
        show ¬ (setAt w.spaces c 0 c > 0)
        simp [setAt]
      · rw [hcella 1 (by omega)]
        simp
    have hspa : ∀ r, 1 ≤ r → r ≤ sa.LINES → isSpace (sa.matrix r c) := by
      intro r _ hr
      rw [hLa] at hr
      unfold isSpace
      rw [hcella r hr]
      split
      · exact Or.inl rfl
      · exact Or.inr rfl
    obtain ⟨u1, _, _⟩ := updateColumn_spawn cfg c sa hga (by rw [hLa]; exact hL) hsa hspa
    have htc : tickColumn cfg c sa =
        renderRows cfg c (updateColumn cfg c sa).LINES 1 (updateColumn cfg c sa) := by
      rw [tickColumn_unfold]
      simp only [hua, if_true]
    have hp := renderRows_painted cfg c (updateColumn cfg c sa).LINES 1
      (updateColumn cfg c sa)
    rw [← htc] at hp
    rw [h3.cells, hp.matrix]
    exact u1

/-- C8. For every grid built by `var_init` with `LINES >= 2` (the build succeeds), every
active column `c` whose `spaces[c]` is then forced to `0` (row 1 of `c` still holds `-2`),
and one unpaused tick in which `c` is updated: `matrix[0][c]` ends with a glyph index in
`[1, CHARS_LEN - 1]`, `spaces[c]` is `rand() % LINES + 1` for a call of `rand()` made after
the build, so in `[1, LINES]`, `length[c]` is `rand() % (LINES/2) + 3` for a call made after
the build, so in `[3, LINES/2 + 2]`, and every cell of every other column is unchanged. -/
theorem forced_spawn_tick (fresh : Nat → Nat → cmatrix) (s : World)
    (hi : s.index ≤ RAND_LEN) (hL : 2 ≤ s.LINES) :
    ∃ w, var_init fresh s = some w ∧ w.LINES = s.LINES ∧ w.COLS = s.COLS ∧
      ∀ (cfg : Config) (c : Nat), active w c → colUpdated cfg c (bumpCount (forceSpawn w c)) →
        (w.matrix 1 c).val = -2 ∧
        (1 ≤ ((advance cfg (forceSpawn w c)).matrix 0 c).val ∧
          ((advance cfg (forceSpawn w c)).matrix 0 c).val ≤ (CHARS_LEN : Int) - 1) ∧
        (∃ k, w.calls ≤ k ∧ (advance cfg (forceSpawn w c)).spaces c =
          ((w.rng k % w.LINES + 1 : Nat) : Int)) ∧
        (1 ≤ (advance cfg (forceSpawn w c)).spaces c ∧
          (advance cfg (forceSpawn w c)).spaces c ≤ (w.LINES : Int)) ∧
        (∃ k, w.calls ≤ k ∧ (advance cfg (forceSpawn w c)).length c =
          ((w.rng k % (w.LINES / 2) + 3 : Nat) : Int)) ∧
        (3 ≤ (advance cfg (forceSpawn w c)).length c ∧
          (advance cfg (forceSpawn w c)).length c ≤ ((w.LINES / 2 + 2 : Nat) : Int)) ∧
        (∀ c1 r, c1 ≠ c → (advance cfg (forceSpawn w c)).matrix r c1 = w.matrix r c1) := by
  obtain ⟨w, hw⟩ := var_init_total fresh s hL
  have hb := var_init_built fresh s w hw
  refine ⟨w, hw, hb.lines, hb.cols, ?_⟩
  intro cfg c hc hu
  obtain ⟨q1, q2, q3, q4, q5, q6⟩ := forced_spawn_core fresh s w cfg c hi hw hc hu
  refine ⟨?_, ⟨q1.1, ?_⟩, q2, q3, q4, q5, q6⟩
  · have hcs : c % 2 = 0 ∧ c < s.COLS := by
      unfold active at hc
      rw [hb.cols] at hc
      exact hc
    rw [hb.val, if_pos ⟨hcs.1, hcs.2, by omega⟩]
    rfl
  · have : ((CHARS_LEN : Nat) : Int) - 1 = 43 := by norm_num [CHARS_LEN]
    rw [this]
    exact q1.2

/-- Witness for C8: 20 rows, 4 columns, column 0 forced, default options. -/
theorem forced_spawn_tick_witness :
    (boot 20 4 (fun _ => 0)).index ≤ RAND_LEN ∧ 2 ≤ (boot 20 4 (fun _ => 0)).LINES ∧
    ∃ w, var_init zeroBlock (boot 20 4 (fun _ => 0)) = some w ∧
      (1 ≤ ((advance defaultConfig (forceSpawn w 0)).matrix 0 0).val ∧
        ((advance defaultConfig (forceSpawn w 0)).matrix 0 0).val ≤ (CHARS_LEN : Int) - 1) ∧
      (1 ≤ (advance defaultConfig (forceSpawn w 0)).spaces 0 ∧
        (advance defaultConfig (forceSpawn w 0)).spaces 0 ≤ 20) ∧
      (3 ≤ (advance defaultConfig (forceSpawn w 0)).length 0 ∧
        (advance defaultConfig (forceSpawn w 0)).length 0 ≤ 12) ∧
      (∀ r, (advance defaultConfig (forceSpawn w 0)).matrix r 2 = w.matrix r 2) := by
  refine ⟨by decide, by decide, ?_⟩
  obtain ⟨w, hw, hl, hc, h⟩ := forced_spawn_tick zeroBlock (boot 20 4 (fun _ => 0))
    (by decide) (by decide)
  have hl2 : w.LINES = 20 := hl
  have hc2 : w.COLS = 4 := hc
  obtain ⟨_, q1, _, q3, _, q5, q6⟩ := h defaultConfig 0
    (by unfold active; rw [hc2]; decide) ⟨Or.inr rfl, rfl⟩
  rw [hl2] at q3 q5
  exact ⟨w, hw, q1, q3, q5, fun r => q6 2 r (by decide)⟩

/-! ## Every index of a tick is in bounds (C5) -/

theorem logged_cons {base : List Access} {L C : Nat} {s s1 : World} (h : Logged base L C s)
    (a : Access) (ha : inBounds L C a) (hl : s1.LINES = s.LINES) (hc : s1.COLS = s.COLS)
    (hi : s1.index ≤ RAND_LEN) (hlog : s1.log = a :: s.log) : Logged base L C s1 := by
  obtain ⟨h1, h2, _, l, h4, h5⟩ := h
  refine ⟨hl.trans h1, hc.trans h2, hi, a :: l, ?_, ?_⟩
  · rw [hlog, h4]
    rfl
  · intro b hb
    rcases List.mem_cons.mp hb with q | q
    · rw [q]
      exact ha
    · exact h5 b q

theorem logged_touch {base : List Access} {L C : Nat} {s : World} (h : Logged base L C s)
    (i j : Nat) (hi : i ≤ L) (hj : j < C) : Logged base L C (s.touch i j) :=
  logged_cons h (Access.grid i j) ⟨hi, hj⟩ rfl rfl h.2.2.1 rfl

theorem logged_setVal {base : List Access} {L C : Nat} {s : World} (h : Logged base L C s)
    (i j : Nat) (v : Int) (hi : i ≤ L) (hj : j < C) : Logged base L C (s.setVal i j v) :=
  logged_cons h (Access.grid i j) ⟨hi, hj⟩ rfl rfl h.2.2.1 rfl

theorem logged_setHead {base : List Access} {L C : Nat} {s : World} (h : Logged base L C s)
    (i j : Nat) (b : Bool) (hi : i ≤ L) (hj : j < C) : Logged base L C (s.setHead i j b) :=
  logged_cons h (Access.grid i j) ⟨hi, hj⟩ rfl rfl h.2.2.1 rfl

theorem logged_next_rand {base : List Access} {L C : Nat} {s : World}
    (h : Logged base L C s) : Logged base L C (next_rand s).2 :=
  logged_cons h (Access.buf s.index) h.2.2.1 rfl rfl (next_rand_index s) rfl

theorem logged_rand {base : List Access} {L C : Nat} {s : World} (h : Logged base L C s) :
    Logged base L C s.rand.2 := h

theorem skipSpaces_logged {base : List Access} {L C : Nat} (j : Nat) (hj : j < C) :
    ∀ (fuel i : Nat) (s : World), Logged base L C s →
      Logged base L C (skipSpaces j fuel i s).2 := by
  intro fuel
  induction fuel with
  | zero => intro i s h; exact h
  | succ n ih =>
    intro i s h
    simp only [skipSpaces]
    split
    · rename_i hi
      have t := logged_touch h i j (by rw [← h.1]; exact hi) hj
      split
      · exact ih _ _ t
      · exact t
    · exact h

theorem walkCell_logged {base : List Access} {L C : Nat} (cfg : Config) (i j : Nat)
    (s : World) (h : Logged base L C s) (hi : i ≤ L) (hj : j < C) :
    Logged base L C (walkCell cfg i j s) := by
  have h1 := logged_setHead h i j false hi hj
  simp only [walkCell]
  split
  · split
    · exact logged_setVal (logged_next_rand (logged_rand h1)) i j _ hi hj
    · exact logged_rand h1
  · exact h1

theorem walkRun_logged {base : List Access} {L C : Nat} (cfg : Config) (j : Nat)
    (hj : j < C) : ∀ (fuel i y : Nat) (s : World), Logged base L C s →
      Logged base L C (walkRun cfg j fuel i y s).2.2 := by
  intro fuel
  induction fuel with
  | zero => intro i y s h; exact h
  | succ n ih =>
    intro i y s h
    simp only [walkRun]
    split
    · rename_i hi
      have hi1 : i ≤ L := by rw [← h.1]; exact hi
      have t := logged_touch h i j hi1 hj
      split
      · exact ih _ _ _ (walkCell_logged cfg i j _ t hi1 hj)
      · exact t
    · exact h

theorem growRun_logged {base : List Access} {L C : Nat} (j z i y : Nat) (fcd : Int)
    (s : World) (h : Logged base L C s) (hz : z ≤ L) (hi0 : i ≤ s.LINES) (hj : j < C) :
    Logged base L C (growRun j z i y fcd s) := by
  have hi : i ≤ L := by rw [← h.1]; exact hi0
  have h1 := logged_setHead (logged_setVal (logged_next_rand h) i j (next_rand s).1 hi hj)
    i j true hi hj
  simp only [growRun]
  split
  · exact logged_setVal (logged_setVal h1 z j (-2) hz hj) 0 j (-1) (Nat.zero_le _) hj
  · exact h1

theorem traverse_logged {base : List Access} {L C : Nat} (cfg : Config) (j : Nat)
    (hj : j < C) : ∀ (fuel i : Nat) (fcd : Int) (s : World), Logged base L C s →
      Logged base L C (traverse cfg j fuel i fcd s) := by
  intro fuel
  induction fuel with
  | zero => intro i fcd s h; exact h
  | succ n ih =>
    intro i fcd s h
    simp only [traverse]
    have h1 := skipSpaces_logged j hj (s.LINES + 1 - i) i s h
    split
    · split
      · exact h1
      · rename_i hz
        have hz1 : (skipSpaces j (s.LINES + 1 - i) i s).1 ≤ L := by
          have := h1.1
          omega
        split
        · apply ih
          exact logged_setVal (walkRun_logged cfg j hj _ _ _ _ h1) _ j (-2) hz1 hj
        · rename_i hi
          apply ih
          exact growRun_logged j _ _ _ _ _ (walkRun_logged cfg j hj _ _ _ _ h1) hz1
            (by omega) hj
    · exact h

theorem logged_more {base : List Access} {L C : Nat} {s s1 : World} (h : Logged base L C s)
    (l : List Access) (hl : s1.LINES = s.LINES) (hc : s1.COLS = s.COLS)
    (hi : s1.index ≤ RAND_LEN) (hlog : s1.log = l ++ s.log)
    (hb : ∀ a, a ∈ l → inBounds L C a) : Logged base L C s1 := by
  obtain ⟨h1, h2, _, l0, h4, h5⟩ := h
  refine ⟨hl.trans h1, hc.trans h2, hi, l ++ l0, ?_, ?_⟩
  · rw [hlog, h4, List.append_assoc]
  · intro b hb1
    rcases List.mem_append.mp hb1 with q | q
    · exact hb b q
    · exact h5 b q

theorem gate_logged {base : List Access} {L C : Nat} (j : Nat) (s : World)
    (h : Logged base L C s) (hL : 1 ≤ L) (hj : j < C) : Logged base L C (gate j s) := by
  have t0 := logged_touch h 0 j (Nat.zero_le _) hj
  have t1 := logged_touch t0 0 j (Nat.zero_le _) hj
  have t2 := logged_touch t1 1 j hL hj
  simp only [gate]
  split
  · exact t0
  · split
    · split
      · refine logged_more t2 [Access.grid 0 j, Access.buf s.index] rfl rfl
          (next_rand_index _) rfl ?_
        intro a ha
        simp only [List.mem_cons, List.mem_singleton, List.not_mem_nil, or_false] at ha
        rcases ha with q | q
        · rw [q]
          exact ⟨Nat.zero_le _, hj⟩
        · rw [q]
          exact h.2.2.1
      · exact t2
    · exact t1

theorem updateColumn_logged {base : List Access} {L C : Nat} (cfg : Config) (j : Nat)
    (s : World) (h : Logged base L C s) (hL : 1 ≤ L) (hj : j < C) :
    Logged base L C (updateColumn cfg j s) := by
  unfold updateColumn
  exact traverse_logged cfg j hj _ 0 0 _ (gate_logged j s h hL hj)

theorem loggedAt_ite {base : List Access} {L C i j : Nat} {c : Prop} [Decidable c]
    {a b : World} (ha : c → LoggedAt base L C i j a) (hb : ¬ c → LoggedAt base L C i j b) :
    LoggedAt base L C i j (if c then a else b) := by
  split
  · rename_i hc
    exact ha hc
  · rename_i hc
    exact hb hc

theorem loggedAt_touch {base : List Access} {L C i j : Nat} {s : World}
    (h : LoggedAt base L C i j s) (hi : i ≤ L) (hj : j < C) :
    LoggedAt base L C i j (s.touch i j) :=
  ⟨logged_touch h.1 i j hi hj, h.2⟩

theorem loggedAt_addGlyph {base : List Access} {L C i j : Nat} {s : World}
    (h : LoggedAt base L C i j s) (hi : i ≤ L) (hj : j < C) (hv : 0 ≤ (s.matrix i j).val) :
    LoggedAt base L C i j (s.addGlyph i j) := by
  refine ⟨?_, h.2⟩
  have t := logged_touch h.1 i j hi hj
  refine logged_cons t (Access.chars (s.matrix i j).val) ⟨hv, ?_⟩ rfl rfl t.2.2.1 rfl
  have := h.2
  unfold okVal at this
  have hc : ((CHARS_LEN : Nat) : Int) = 44 := by norm_num [CHARS_LEN]
  rw [hc]
  omega

theorem loggedAt_attronPair {base : List Access} {L C i j : Nat} {s : World} (p : Nat)
    (h : LoggedAt base L C i j s) : LoggedAt base L C i j (s.attronPair p) := h

theorem loggedAt_attroffPair {base : List Access} {L C i j : Nat} {s : World} (p : Nat)
    (h : LoggedAt base L C i j s) : LoggedAt base L C i j (s.attroffPair p) := h

theorem loggedAt_attronBold {base : List Access} {L C i j : Nat} {s : World}
    (h : LoggedAt base L C i j s) : LoggedAt base L C i j s.attronBold := h

theorem loggedAt_attroffBold {base : List Access} {L C i j : Nat} {s : World}
    (h : LoggedAt base L C i j s) : LoggedAt base L C i j s.attroffBold := h

theorem loggedAt_addstr {base : List Access} {L C i j : Nat} {s : World} (y x : Nat)
    (t : Text) (h : LoggedAt base L C i j s) : LoggedAt base L C i j (s.addstr y x t) := h

theorem renderCell_logged {base : List Access} {L C : Nat} (cfg : Config) (i j : Nat)
    (s : World) (h : LoggedAt base L C i j s) (hi : i ≤ L) (hj : j < C) :
    Logged base L C (renderCell cfg i j s) := by
  have t := loggedAt_touch h hi hj
  suffices hh : LoggedAt base L C i j (renderCell cfg i j s) from hh.1
  unfold renderCell
  lift_lets
  intro s1 s2 s3 s4 s5 s6 s7 s8 s9 s10 s11 s12 s13 s14
  have h1 : LoggedAt base L C i j s1 := t
  have h2 : LoggedAt base L C i j s2 := h1
  have h3 : LoggedAt base L C i j s3 := loggedAt_ite (fun _ => h2) (fun _ => h2)
  have h4 : LoggedAt base L C i j s4 := loggedAt_touch h3 hi hj
  have h5 : LoggedAt base L C i j s5 :=
    loggedAt_ite (fun _ => h4) (fun hc => loggedAt_addGlyph h4 hi hj (by omega))
  have h6 : LoggedAt base L C i j s6 := h5
  have h7 : LoggedAt base L C i j s7 := loggedAt_ite (fun _ => h1) (fun _ => h1)
  have h8 : LoggedAt base L C i j s8 := h7
  have h9 : LoggedAt base L C i j s9 := loggedAt_touch h8 hi hj
  have h10 : LoggedAt base L C i j s10 := loggedAt_ite (fun _ => h9) (fun _ => h9)
  have h11 : LoggedAt base L C i j s11 := loggedAt_touch h10 hi hj
  have h12 : LoggedAt base L C i j s12 :=
    loggedAt_ite (fun _ => h11) (fun hc => loggedAt_ite (fun _ => h11)
      (fun _ => loggedAt_addGlyph h11 hi hj (by omega)))
  have h13 : LoggedAt base L C i j s13 := loggedAt_touch h12 hi hj
  have h14 : LoggedAt base L C i j s14 := loggedAt_ite (fun _ => h13) (fun _ => h13)
  exact loggedAt_ite (fun _ => loggedAt_ite (fun _ => h6) (fun _ => h6)) (fun _ => h14)

theorem renderRows_logged {base : List Access} {L C : Nat} (cfg : Config) (j : Nat)
    (hj : j < C) : ∀ (fuel i : Nat) (s : World), Logged base L C s →
      (∀ r, r ≤ L → okVal (s.matrix r j).val) →
      Logged base L C (renderRows cfg j fuel i s) := by
  intro fuel
  induction fuel with
  | zero => intro i s h _; exact h
  | succ n ih =>
    intro i s h hv
    simp only [renderRows]
    split
    · rename_i hi
      have hi1 : i ≤ L := by rw [← h.1]; exact hi
      refine ih _ _ (renderCell_logged cfg i j s ⟨h, hv i hi1⟩ hi1 hj) ?_
      rw [(renderCell_painted cfg i j s).matrix]
      exact hv
    · exact h

theorem tickColumn_logged {base : List Access} {L C : Nat} (cfg : Config) (j : Nat)
    (s : World) (h : Logged base L C s) (hb : GoodBuf s) (hv : ColVals s j) (hL : 1 ≤ L)
    (hj : j < C) : Logged base L C (tickColumn cfg j s) := by
  rw [tickColumn_unfold]
  by_cases hu : colUpdated cfg j s
  · simp only [hu, if_true]
    have h1 := updateColumn_logged cfg j s h hL hj
    have h2 := updateColumn_vals cfg j s hb hv
    refine renderRows_logged cfg j hj _ 1 _ h1 ?_
    intro r hr
    exact h2.1 r (by rw [h1.1]; exact hr)
  · simp only [hu, if_false]
    refine renderRows_logged cfg j hj _ 1 _ h ?_
    intro r hr
    exact hv.1 r (by rw [h.1]; exact hr)

theorem tickColumns_logged {base : List Access} {L C : Nat} (cfg : Config) (hL : 1 ≤ L) :
    ∀ (fuel j0 : Nat) (s : World), j0 % 2 = 0 → Logged base L C s → GoodBuf s →
      (∀ c, c % 2 = 0 → c < C → ColVals s c) →
      Logged base L C (tickColumns cfg fuel j0 s) := by
  intro fuel
  induction fuel with
  | zero => intro j0 s _ h _ _; exact h
  | succ n ih =>
    intro j0 s hj0 h hb hv
    simp only [tickColumns]
    split
    · rename_i hj
      have hj1 : j0 < C := by
        have := h.2.1
        omega
      refine ih _ _ (by omega) (tickColumn_logged cfg j0 s h hb (hv j0 hj0 hj1) hL hj1)
        (tickColumn_goodBuf cfg j0 s hb) ?_
      intro c hc1 hc2
      by_cases hcj : c = j0
      · rw [hcj]
        exact tickColumn_vals cfg j0 s hb (hv j0 hj0 hj1)
      · exact colVals_of_same (tickColumn_other cfg j0 c s hcj) (hv c hc1 hc2)
    · exact h

theorem bumpCount_logged {base : List Access} {L C : Nat} (s : World)
    (h : Logged base L C s) : Logged base L C (bumpCount s) := by
  unfold bumpCount
  simp only []
  split
  · exact h
  · exact h

/-- One tick from a world whose buffer and active columns are in order: every access the
tick adds to the log is in bounds. -/
theorem advance_logged (cfg : Config) (s : World) (hb : GoodBuf s)
    (hv : ∀ c, active s c → ColVals s c) (hL : 1 ≤ s.LINES) :
    Logged s.log s.LINES s.COLS (advance cfg s) := by
  have h0 : Logged s.log s.LINES s.COLS s :=
    ⟨rfl, rfl, hb.1, [], rfl, fun _ ha => absurd ha (List.not_mem_nil _)⟩
  have h1 := bumpCount_logged s h0
  obtain ⟨b1, b2, b3, _, _, _, _, _⟩ := bumpCount_painted s
  unfold advance
  refine tickColumns_logged cfg hL _ 0 _ rfl h1 (bumpCount_goodBuf s hb) ?_
  intro c hc1 hc2
  have := hv c ⟨hc1, hc2⟩
  unfold ColVals at *
  rw [b1, b3]
  exact this

/-- C5. For a terminal of `rows >= 2` rows (so for every `rows >= 10`, `cols >= 10`),
`var_init` builds a world, and in every world reached from it by ticks (under any
configurations) one more tick (under any configuration) makes no access out of bounds:
every access to `matrix` in the column update and in the render pass has its row in
`[0, rows]` and its column in `[0, cols - 1]`, every read of `rand_array` by `next_rand` has
its cursor in `[0, RAND_LEN]`, and every lookup in `chars_array` by the render pass has its
index in `[0, CHARS_LEN - 1]`. -/
theorem tick_accesses_in_bounds (fresh : Nat → Nat → cmatrix) (rows cols : Nat)
    (rng : Nat → Nat) (hr : 2 ≤ rows) :
    ∃ w0, var_init fresh (boot rows cols rng) = some w0 ∧
      ∀ (w : World) (cfg : Config), Ticks w0 w →
        ∃ l, (advance cfg w).log = l ++ w.log ∧ ∀ a, a ∈ l → inBounds rows cols a := by
  obtain ⟨w0, h0⟩ := var_init_total fresh (boot rows cols rng) hr
  refine ⟨w0, h0, ?_⟩
  intro w cfg ht
  have hb := var_init_built fresh _ w0 h0
  obtain ⟨g, hv⟩ := built_start hb (Nat.zero_le _)
  obtain ⟨t1, t2, t3, t4⟩ := ticks_vals ht g hv
  have hl : w.LINES = rows := t1.trans hb.lines
  have hc : w.COLS = cols := t2.trans hb.cols
  have := advance_logged cfg w t3 t4 (by omega)
  rw [hl, hc] at this
  exact this.2.2.2

/-- Witness for C5: the smallest terminal the claim names, 10 rows and 10 columns. -/
theorem tick_accesses_in_bounds_witness :
    2 ≤ 10 ∧ ∃ w0, var_init zeroBlock (boot 10 10 (fun _ => 0)) = some w0 ∧
      ∀ (w : World) (cfg : Config), Ticks w0 w →
        ∃ l, (advance cfg w).log = l ++ w.log ∧ ∀ a, a ∈ l → inBounds 10 10 a :=
  ⟨by decide, tick_accesses_in_bounds zeroBlock 10 10 (fun _ => 0) (by decide)⟩

/-! ## Capped runs (C3) -/

/-- With `firstcoldone` set, the row the walk starts on ends as a skipped cell. -/
theorem trav_first_row {j i : Nat} {fcd : Int} {s s2 : World} (h : Trav j i fcd s s2)
    (hf : fcd ≠ 0) (h1 : 1 ≤ i) (hi : i ≤ s.LINES) : isSpace (s2.matrix i j) := by
  cases h with
  | stop hlt => omega
  | done _ hl hsp =>
    rw [logOnly_matrix hl]
    exact hsp i (le_refl _) hi
  | @bottom _ _ _ s1 a hia haL hsp hgl hw =>
    by_cases hai : a = i
    · subst hai
      exact Or.inl (setVal_cell_val s1 a j (-2))
    · rw [setVal_cell_row s1 a j (-2) i j (by omega), hw.other i j (fun hh => by omega)]
      exact hsp i (le_refl _) (by omega)
  | @grow _ _ _ s1 _ a e hia hae heL hsp hgl hend hw ht =>
    rw [trav_above ht i h1 (by omega)]
    by_cases hai : a = i
    · subst hai
      exact growRun_cell_start j a (e + 1) (e + 1 - a) fcd s1 (by omega) (Or.inr hf)
    · apply growRun_cell_space j a (e + 1) (e + 1 - a) fcd s1 (by omega) i (by omega)
      rw [hw.other i j (fun hh => by omega)]
      exact hsp i (le_refl _) (by omega)

theorem growRun_cell_below {j a e : Nat} {fcd : Int} {s s1 : World} (y : Nat) (hae : a ≤ e)
    (hw : Walked j a (e + 1) s s1) (r : Nat) (hr : e + 2 ≤ r) :
    (growRun j a (e + 1) y fcd s1).matrix r j = s.matrix r j := by
  rw [growRun_cell_far j a (e + 1) y fcd s1 (by omega) r (by omega) (by omega) (by omega),
    hw.other r j (fun hh => by omega)]

/-- A run `matrix[a .. b][j]` with a row below it, met by the walk with the cap condition
true, moves down one row: after the walk its first cell is a skipped cell, the rows
`a+1 .. b+1` are glyph cells, and the row `b + 2` (if any) is a skipped cell. -/
theorem trav_run_moves {j i : Nat} {fcd : Int} {s s2 : World} (h : Trav j i fcd s s2) :
    GoodBuf s → ∀ a b, i ≤ a → a ≤ b → b < s.LINES →
    (∀ r, a ≤ r → r ≤ b → isGlyph (s.matrix r j)) →
    (i < a → isSpace (s.matrix (a - 1) j)) → isSpace (s.matrix (b + 1) j) →
    (fcd ≠ 0 ∨ (∃ r, i ≤ r ∧ r < a ∧ isGlyph (s.matrix r j)) ∨
      ((b + 1 - a : Nat) : Int) > s.length j) →
    isSpace (s2.matrix a j) ∧ (∀ r, a + 1 ≤ r → r ≤ b + 1 → isGlyph (s2.matrix r j)) ∧
      (b + 1 < s.LINES → isSpace (s2.matrix (b + 2) j)) := by
  induction h with
  | @stop i fcd s hi =>
    intro _ a b hia hab hbL
    omega
  | @done i fcd s s1 hi hl hsp =>
    intro _ a b hia hab hbL hgl
    exact absurd (hsp a hia (by omega))
      (fun hs => not_space_of_glyph (hgl a (le_refl _) hab) hs)
  | @bottom i fcd s s1 a' hia' haL hsp' hgl' hw =>
    intro _ a b hia hab hbL hgl hpre hend _
    exfalso
    have h1 : a' ≤ a := by
      by_contra hc
      exact not_space_of_glyph (hgl a (le_refl _) hab) (hsp' a hia (by omega))
    exact not_space_of_glyph (hgl' (b + 1) (by omega) (by omega)) hend
  | @grow i fcd s s1 s2 a' e' hia' hae' heL hsp' hgl' hend' hw ht ih =>
    intro hb a b hia hab hbL hgl hpre hend hcap
    have hb1 := walked_goodBuf hw hb
    have h1 : a' ≤ a := by
      by_contra hc
      exact not_space_of_glyph (hgl a (le_refl _) hab) (hsp' a hia (by omega))
    have hL : (growRun j a' (e' + 1) (e' + 1 - a') fcd s1).LINES = s.LINES := by
      rw [growRun_lines, hw.lines]
    by_cases haa : a' = a
    · subst haa
      have hbe : b = e' := by
        rcases Nat.lt_trichotomy b e' with hlt | heq | hgt
        · exact absurd hend
            (fun hs => not_space_of_glyph (hgl' (b + 1) (by omega) (by omega)) hs)
        · exact heq
        · exact absurd hend'
            (fun hs => not_space_of_glyph (hgl (e' + 1) (by omega) (by omega)) hs)
      subst hbe
      have hc : capCond s1 j (b + 1 - a') fcd := by
        unfold capCond
        rcases hcap with q | ⟨r, q1, q2, q3⟩ | q
        · exact Or.inr q
        · exact absurd (hsp' r q1 q2) (fun hs => not_space_of_glyph q3 hs)
        · left
          rw [hw.length]
          exact q
      have hst := growRun_cell_start j a' (b + 1) (b + 1 - a') fcd s1 (by omega) hc
      refine ⟨?_, ?_, ?_⟩
      · by_cases h0 : a' = 0
        · have key : ∀ x, x = a' →
              isSpace ((growRun j a' (b + 1) (b + 1 - a') fcd s1).matrix x j) :=
            fun x hx => hx ▸ hst
          rw [h0]
          exact (trav_row0 ht (by omega)).1 (key 0 h0.symm)
        · rw [trav_above ht a' (by omega) (by omega)]
          exact hst
      · intro r hr1 hr2
        rw [trav_above ht r (by omega) (by omega)]
        by_cases hre : r = b + 1
        · rw [hre, growRun_cell_new j a' (b + 1) (b + 1 - a') fcd s1 (by omega)]
          exact isGlyph_of_range (goodBuf_next_val hb1)
        · rw [growRun_cell_far j a' (b + 1) (b + 1 - a') fcd s1 (by omega) r hre (by omega)
            (by omega)]
          exact hw.glyph r (by omega) (by omega)
      · intro hlt
        exact trav_first_row ht (by norm_num) (by omega) (by rw [hL]; omega)
    · have hea : e' + 2 ≤ a := by
        by_contra hc
        by_cases hq : a = e' + 1
        · rw [hq] at hgl
          exact not_space_of_glyph (hgl (e' + 1) (le_refl _) (by omega)) hend'
        · exact not_space_of_glyph (hgl' (a - 1) (by omega) (by omega)) (hpre (by omega))
      have cell := @growRun_cell_below j a' e' fcd s s1 (e' + 1 - a') hae' hw
      have := ih (growRun_goodBuf _ _ _ _ _ _ hb1) a b hea hab (by rw [hL]; exact hbL)
        (fun r h1 h2 => by rw [cell r (by omega)]; exact hgl r h1 h2)
        (fun _ => by rw [cell (a - 1) (by omega)]; exact hpre (by omega))
        (by rw [cell (b + 1) (by omega)]; exact hend) (Or.inl (by norm_num))
      rw [hL] at this
      exact this

/-- A run `matrix[a .. LINES][j]` met by the walk loses its first cell. -/
theorem trav_run_trims {j i : Nat} {fcd : Int} {s s2 : World} (h : Trav j i fcd s s2) :
    ∀ a, i ≤ a → a ≤ s.LINES →
    (∀ r, a ≤ r → r ≤ s.LINES → isGlyph (s.matrix r j)) →
    (i < a → isSpace (s.matrix (a - 1) j)) →
    isSpace (s2.matrix a j) ∧ (∀ r, a + 1 ≤ r → r ≤ s.LINES → isGlyph (s2.matrix r j)) := by
  induction h with
  | @stop i fcd s hi =>
    intro a hia haL
    omega
  | @done i fcd s s1 hi hl hsp =>
    intro a hia haL hgl
    exact absurd (hsp a hia haL) (fun hs => not_space_of_glyph (hgl a (le_refl _) haL) hs)
  | @bottom i fcd s s1 a' hia' haL' hsp' hgl' hw =>
    intro a hia haL hgl hpre
    have h1 : a' ≤ a := by
      by_contra hc
      exact not_space_of_glyph (hgl a (le_refl _) haL) (hsp' a hia (by omega))
    have haa : a' = a := by
      by_contra hc
      exact not_space_of_glyph (hgl' (a - 1) (by omega) (by omega)) (hpre (by omega))
    subst haa
    refine ⟨Or.inl (setVal_cell_val s1 a' j (-2)), ?_⟩
    intro r hr1 hr2
    rw [setVal_cell_row s1 a' j (-2) r j (by omega)]
    exact hw.glyph r (by omega) (by omega)
  | @grow i fcd s s1 s2 a' e' hia' hae' heL hsp' hgl' hend' hw ht ih =>
    intro a hia haL hgl hpre
    have h1 : a' ≤ a := by
      by_contra hc
      exact not_space_of_glyph (hgl a (le_refl _) haL) (hsp' a hia (by omega))
    have hL : (growRun j a' (e' + 1) (e' + 1 - a') fcd s1).LINES = s.LINES := by
      rw [growRun_lines, hw.lines]
    have hea : e' + 2 ≤ a := by
      by_contra hc
      exact not_space_of_glyph (hgl (e' + 1) (by omega) (by omega)) hend'
    have cell := @growRun_cell_below j a' e' fcd s s1 (e' + 1 - a') hae' hw
    have := ih a hea (by rw [hL]; exact haL)
      (fun r h1 h2 => by rw [cell r (by omega)]; exact hgl r h1 (by rw [← hL]; exact h2))
      (fun _ => by rw [cell (a - 1) (by omega)]; exact hpre (by omega))
    rw [hL] at this
    exact this

/-- A glyph cell above row `a`, with a skipped cell in row `a - 1`, leaves a glyph cell above
row `a` after the walk: the cell that the run holding it grew into. -/
theorem trav_glyph_above {j i : Nat} {fcd : Int} {s s2 : World} (h : Trav j i fcd s s2)
    (hb : GoodBuf s) (a r : Nat) (hr1 : i ≤ r) (hr2 : r < a) (haL : a ≤ s.LINES)
    (hg : isGlyph (s.matrix r j)) (hpre : isSpace (s.matrix (a - 1) j)) :
    ∃ r1, r1 < a ∧ isGlyph (s2.matrix r1 j) := by
  cases h with
  | stop hlt => omega
  | done _ hl hsp => exact absurd (hsp r hr1 (by omega)) (fun hs => not_space_of_glyph hg hs)
  | @bottom _ _ _ s1 a' hia' haL' hsp' hgl' hw =>
    exfalso
    have h1 : a' ≤ r := by
      by_contra hc
      exact not_space_of_glyph hg (hsp' r hr1 (by omega))
    exact not_space_of_glyph (hgl' (a - 1) (by omega) (by omega)) hpre
  | @grow _ _ _ s1 _ a' e' hia' hae' heL hsp' hgl' hend' hw ht =>
    have h1 : a' ≤ r := by
      by_contra hc
      exact not_space_of_glyph hg (hsp' r hr1 (by omega))
    have he : e' + 1 < a := by
      by_contra hc
      exact not_space_of_glyph (hgl' (a - 1) (by omega) (by omega)) hpre
    refine ⟨e' + 1, he, ?_⟩
    rw [trav_above ht (e' + 1) (by omega) (by omega),
      growRun_cell_new j a' (e' + 1) (e' + 1 - a') fcd s1 (by omega)]
    exact isGlyph_of_range (goodBuf_next_val (walked_goodBuf hw hb))

theorem isRun_congr {j a b : Nat} {s s1 : World} (hl : s1.LINES = s.LINES)
    (hc : ∀ r, s1.matrix r j = s.matrix r j) (h : isRun s j a b) : isRun s1 j a b := by
  obtain ⟨h1, h2, h3, h4, h5⟩ := h
  refine ⟨h1, by rw [hl]; exact h2, fun r q1 q2 => ?_, fun q => ?_, fun q => ?_⟩
  · rw [hc]
    exact h3 r q1 q2
  · rw [hc]
    exact h4 q
  · rw [hc]
    exact h5 (by rw [← hl]; exact q)

theorem capped_congr {j a b : Nat} {s s1 : World} (hl : s1.LINES = s.LINES)
    (hc : ∀ r, s1.matrix r j = s.matrix r j) (hlen : s1.length j = s.length j)
    (h : Capped s j a b) : Capped s1 j a b := by
  obtain ⟨h1, h2, h3⟩ := h
  refine ⟨h1, isRun_congr hl hc h2, fun q => ?_⟩
  rw [hlen]
  rcases h3 (by rw [← hl]; exact q) with ⟨r, q1, q2⟩ | q3
  · exact Or.inl ⟨r, q1, by rw [hc]; exact q2⟩
  · exact Or.inr q3

theorem capped_of_same {j a b : Nat} {s s1 : World} (hs : ColSame j s s1)
    (h : Capped s j a b) : Capped s1 j a b :=
  capped_congr hs.lines hs.cells hs.length h

/-- Spawn gating leaves a glyph cell in row `0` a glyph cell. -/
theorem gate_row0_glyph (j : Nat) (s : World) (hb : GoodBuf s)
    (h : isGlyph (s.matrix 0 j)) : isGlyph ((gate j s).matrix 0 j) := by
  by_cases hs : spawns s j
  · rw [(gate_spawn j s hs).1, if_pos ⟨rfl, rfl⟩]
    exact isGlyph_of_range (hb.2 s.index hb.1)
  · rw [(gate_quiet j s hs).1]
    exact h

/-- Spawn gating leaves a run that starts below row `0` as it is. -/
theorem gate_run (j : Nat) (s : World) (a b : Nat) (h : isRun s j a b) (ha : 1 ≤ a) :
    (∀ r, a ≤ r → r ≤ b → isGlyph ((gate j s).matrix r j)) ∧
      isSpace ((gate j s).matrix (a - 1) j) ∧
      (b < s.LINES → isSpace ((gate j s).matrix (b + 1) j)) := by
  obtain ⟨h1, h2, h3, h4, h5⟩ := h
  obtain ⟨g1, _, _⟩ := gate_cells j s
  refine ⟨fun r q1 q2 => ?_, ?_, fun q => ?_⟩
  · rw [g1 r (by omega)]
    exact h3 r q1 q2
  · by_cases ha1 : a = 1
    · have hs : ¬ spawns s j := by
        intro hs
        have := h3 1 (by omega) (by omega)
        exact this.1 hs.2.2
      rw [(gate_quiet j s hs).1]
      exact h4 ha
    · rw [g1 (a - 1) (by omega)]
      exact h4 ha
  · rw [g1 (b + 1) (by omega)]
    exact h5 q

/-- The update of column `j` on a run of the gated column for which the cap condition will
hold: the run moves down one row and is a capped run. -/
theorem updateColumn_moves (cfg : Config) (j : Nat) (s : World) (hb : GoodBuf s) (a b : Nat)
    (hab : a ≤ b) (hbL : b < s.LINES)
    (hgl : ∀ r, a ≤ r → r ≤ b → isGlyph ((gate j s).matrix r j))
    (hpre : 1 ≤ a → isSpace ((gate j s).matrix (a - 1) j))
    (hend : isSpace ((gate j s).matrix (b + 1) j))
    (hcap : (∃ r, r < a ∧ isGlyph ((gate j s).matrix r j)) ∨
      ((b + 1 - a : Nat) : Int) > (gate j s).length j) :
    Capped (updateColumn cfg j s) j (a + 1) (b + 1) := by
  have ht := updateColumn_trav cfg j s hb
  have hgb := gate_goodBuf j s hb
  have gL : (gate j s).LINES = s.LINES := (gate_frame j s).lines
  obtain ⟨f, _⟩ := updateColumn_frame cfg j s
  have hlen : (updateColumn cfg j s).length = (gate j s).length :=
    (traverse_step cfg j ((gate j s).LINES + 1) 0 0 (gate j s)).2.1
  obtain ⟨m1, m2, m3⟩ := trav_run_moves ht hgb a b (Nat.zero_le _) hab
    (by rw [gL]; exact hbL) hgl (fun h => hpre (by omega)) hend
    (Or.inr (hcap.imp (fun ⟨r, q1, q2⟩ => ⟨r, Nat.zero_le _, q1, q2⟩) id))
  refine ⟨by omega, ⟨by omega, by rw [f.lines]; omega, m2, fun _ => ?_, fun h => ?_⟩, ?_⟩
  · rw [Nat.add_sub_cancel]
    exact m1
  · rw [f.lines] at h
    exact m3 (by rw [gL]; omega)
  · intro hlt
    have e : b + 1 + 1 - (a + 1) = b + 1 - a := by omega
    rw [e]
    rcases hcap with ⟨r, q1, q2⟩ | q
    · left
      obtain ⟨r1, p1, p2⟩ := trav_glyph_above ht hgb a r (Nat.zero_le _) q1
        (by rw [gL]; omega) q2 (hpre (by omega))
      exact ⟨r1, by omega, p2⟩
    · right
      rw [hlen]
      exact q

/-- The update of its column moves a capped run with a row below it down one row. -/
theorem updateColumn_capped (cfg : Config) (j : Nat) (s : World) (hb : GoodBuf s) (a b : Nat)
    (hc : Capped s j a b) (hbL : b < s.LINES) :
    Capped (updateColumn cfg j s) j (a + 1) (b + 1) := by
  obtain ⟨ha, hr, hg⟩ := hc
  obtain ⟨g1, g2, g3⟩ := gate_run j s a b hr ha
  apply updateColumn_moves cfg j s hb a b hr.1 hbL g1 (fun _ => g2) (g3 hbL)
  rcases hg hbL with ⟨r, q1, q2⟩ | q
  · left
    refine ⟨r, q1, ?_⟩
    by_cases h0 : r = 0
    · rw [h0] at q2 ⊢
      exact gate_row0_glyph j s hb q2
    · rw [(gate_cells j s).1 r h0]
      exact q2
  · by_cases hs : spawns s j
    · left
      refine ⟨0, by omega, ?_⟩
      rw [(gate_spawn j s hs).1, if_pos ⟨rfl, rfl⟩]
      exact isGlyph_of_range (hb.2 s.index hb.1)
    · right
      rw [(gate_quiet j s hs).2.1]
      exact q

/-- The update of its column takes the first cell from a run that ends on the last row. -/
theorem updateColumn_trims (cfg : Config) (j : Nat) (s : World) (hb : GoodBuf s) (a : Nat)
    (ha : 1 ≤ a) (hr : isRun s j a s.LINES) :
    isSpace ((updateColumn cfg j s).matrix a j) ∧
      ∀ r, a + 1 ≤ r → r ≤ s.LINES → isGlyph ((updateColumn cfg j s).matrix r j) := by
  have ht := updateColumn_trav cfg j s hb
  have gL : (gate j s).LINES = s.LINES := (gate_frame j s).lines
  obtain ⟨g1, g2, _⟩ := gate_run j s a s.LINES hr ha
  have := trav_run_trims ht a (Nat.zero_le _) (by rw [gL]; exact hr.1)
    (fun r q1 q2 => g1 r q1 (by rw [← gL]; exact q2)) (fun _ => g2)
  rw [gL] at this
  exact this

/-- The update of column `j` on a run with a row below it, when the run is capped: its first
cell, below row `0`, is seen to hold `-2` afterwards, or it starts in row `0` and has more
than `length[j]` cells. The run is a capped run afterwards, one row further down. -/
theorem updateColumn_caps (cfg : Config) (j : Nat) (s : World) (hb : GoodBuf s)
    (hv : ColVals s j) (z b : Nat) (hr : isRun s j z b) (hbL : b < s.LINES)
    (hobs : (1 ≤ z ∧ ((updateColumn cfg j s).matrix z j).val = -2) ∨
      (z = 0 ∧ ((b + 1 : Nat) : Int) > s.length j)) :
    Capped (updateColumn cfg j s) j (z + 1) (b + 1) := by
  have gL : (gate j s).LINES = s.LINES := (gate_frame j s).lines
  have hzb : z ≤ b := hr.1
  rcases hobs with ⟨hz, hval⟩ | ⟨hz, hlen⟩
  · obtain ⟨g1, g2, g3⟩ := gate_run j s z b hr hz
    by_cases hcap : (∃ r, r < z ∧ isGlyph ((gate j s).matrix r j)) ∨
        ((b + 1 - z : Nat) : Int) > (gate j s).length j
    · exact updateColumn_moves cfg j s hb z b hr.1 hbL g1 (fun _ => g2) (g3 hbL) hcap
    · exfalso
      have hno : ∀ r, r < z → isSpace ((gate j s).matrix r j) := by
        intro r hr1
        rcases space_or_glyph ((gate j s).matrix r j) with q | q
        · exact q
        · exact absurd (Or.inl ⟨r, hr1, q⟩) hcap
      have hle : ¬ ((b + 1 - z : Nat) : Int) > (gate j s).length j := fun q => hcap (Or.inr q)
      have ht := updateColumn_trav cfg j s hb
      have hcase := @trav_cases_run j 0 0 (gate j s) (updateColumn cfg j s) ht z b
        (Nat.zero_le _) hr.1 (by rw [gL]; omega) (fun r _ h2 => hno r h2) g1
        (fun _ => g3 hbL)
      rcases hcase with ⟨h0, _⟩ | ⟨_, s1, hw, ht2⟩
      · omega
      · have hnc : ¬ capCond s1 j (b + 1 - z) 0 := by
          unfold capCond
          rw [hw.length]
          intro h
          rcases h with h | h
          · exact hle h
          · exact h rfl
        have hcell : (updateColumn cfg j s).matrix z j = s1.matrix z j := by
          rw [trav_above ht2 z hz (by omega),
            growRun_cell j z (b + 1) (b + 1 - z) 0 s1 (by omega) z j]
          have c1 : ¬ (j = j ∧ z = b + 1) := by omega
          have c2 : ¬ (j = j ∧ capCond s1 j (b + 1 - z) 0 ∧ z = 0) := fun h => hnc h.2.1
          have c3 : ¬ (j = j ∧ capCond s1 j (b + 1 - z) 0 ∧ z = z) := fun h => hnc h.2.1
          rw [if_neg c1, if_neg c2, if_neg c3]
        rw [hcell] at hval
        exact (hw.glyph z (le_refl _) (by omega)).1 hval
  · subst hz
    have h0 := hr.2.2.1 0 (le_refl _) (Nat.zero_le _)
    have hs : ¬ spawns s j := by
      intro hs
      have hok := hv.1 0 (Nat.zero_le _)
      unfold okVal at hok
      unfold isGlyph at h0
      have := hs.1
      omega
    obtain ⟨gm, glen, _⟩ := gate_quiet j s hs
    apply updateColumn_moves cfg j s hb 0 b hr.1 hbL
    · intro r q1 q2
      rw [gm]
      exact hr.2.2.1 r q1 q2
    · intro h
      omega
    · rw [gm]
      exact hr.2.2.2.2 hbL
    · right
      rw [glen]
      exact hlen

/-- One tick, seen from an active column `j`: the column is as it was when its turn comes,
and after the tick it is as its update left it, or as it was if it is not updated. -/
theorem advance_column (cfg : Config) (j : Nat) (s : World) (hj : active s j)
    (hb : GoodBuf s) :
    ∃ sa, GoodBuf sa ∧ sa.LINES = s.LINES ∧ (∀ r, sa.matrix r j = s.matrix r j) ∧
      sa.length j = s.length j ∧
      (colUpdated cfg j (bumpCount s) → ColSame j (updateColumn cfg j sa) (advance cfg s)) ∧
      (¬ colUpdated cfg j (bumpCount s) → ColSame j sa (advance cfg s)) := by
  obtain ⟨sa, h1, h2, h3, _⟩ := advance_visit cfg j s hj
  obtain ⟨b1, _, b3, b4, _, _⟩ := bumpCount_colSame s j
  have hp := renderRows_painted cfg j
    (if colUpdated cfg j sa then updateColumn cfg j sa else sa).LINES 1
    (if colUpdated cfg j sa then updateColumn cfg j sa else sa)
  rw [← tickColumn_unfold] at hp
  refine ⟨sa, h2 hb, h1.lines.trans b1, fun r => (h1.cells r).trans (b3 r),
    h1.length.trans b4, fun hu => ?_, fun hu => ?_⟩
  · have hua : colUpdated cfg j sa := colUpdated_of_same h1 hu
    rw [if_pos hua] at hp
    exact colSame_trans (painted_colSame hp j) h3
  · have hua : ¬ colUpdated cfg j sa := fun q => hu (colUpdated_of_same (colSame_symm h1) q)
    rw [if_neg hua] at hp
    exact colSame_trans (painted_colSame hp j) h3

/-- A capped run after the ticks `cfgs`: with `n` the number of updates of its column, it
occupies the rows `a + n .. min (b + n) LINES`, as long as `a + n` is a row of the grid. -/
theorem runTicks_capped (j : Nat) : ∀ (cfgs : List Config) (w : World) (a b : Nat),
    active w j → GoodBuf w → Capped w j a b → a + colUpdates j cfgs w ≤ w.LINES →
    Capped (runTicks cfgs w) j (a + colUpdates j cfgs w)
      (min (b + colUpdates j cfgs w) w.LINES) := by
  intro cfgs
  induction cfgs with
  | nil =>
    intro w a b _ _ hc _
    have hbL : b ≤ w.LINES := hc.2.1.2.1
    simp only [colUpdates, runTicks, Nat.add_zero]
    rw [Nat.min_eq_left hbL]
    exact hc
  | cons cfg cs ih =>
    intro w a b hj hb hc hn
    obtain ⟨k1, k2, _⟩ := advance_keeps cfg w
    have hj1 : active (advance cfg w) j := by
      unfold active at *
      rw [k1]
      exact hj
    have hb1 := advance_goodBuf cfg w hb
    have hab : a ≤ b := hc.2.1.1
    have hbL : b ≤ w.LINES := hc.2.1.2.1
    obtain ⟨sa, a1, a2, a3, a4, a5, a6⟩ := advance_column cfg j w hj hb
    have hca : Capped sa j a b := capped_congr a2 a3 a4 hc
    simp only [colUpdates, runTicks] at hn ⊢
    by_cases hu : colUpdated cfg j (bumpCount w)
    · rw [if_pos hu] at hn ⊢
      by_cases hlt : b < w.LINES
      · have h1 : Capped (advance cfg w) j (a + 1) (b + 1) :=
          capped_of_same (a5 hu) (updateColumn_capped cfg j sa a1 a b hca (by rw [a2]; exact hlt))
        have := ih (advance cfg w) (a + 1) (b + 1) hj1 hb1 h1 (by rw [k2]; omega)
        rw [k2] at this
        have e1 : a + (1 + colUpdates j cs (advance cfg w)) =
            a + 1 + colUpdates j cs (advance cfg w) := by omega
        have e2 : b + (1 + colUpdates j cs (advance cfg w)) =
            b + 1 + colUpdates j cs (advance cfg w) := by omega
        rw [e1, e2]
        exact this
      · have hbe : b = w.LINES := by omega
        have hal : a < w.LINES := by omega
        have hra : isRun sa j a sa.LINES := by
          rw [a2, ← hbe]
          exact hca.2.1
        obtain ⟨t1, t2⟩ := updateColumn_trims cfg j sa a1 a hca.1 hra
        have hL1 : (updateColumn cfg j sa).LINES = w.LINES := by
          rw [(updateColumn_frame cfg j sa).1.lines, a2]
        have h0 : Capped (updateColumn cfg j sa) j (a + 1) w.LINES := by
          refine ⟨by omega, ⟨by omega, by rw [hL1], fun r q1 q2 => t2 r q1 (by rw [a2]; exact q2),
            fun _ => ?_, fun q => ?_⟩, fun q => ?_⟩
          · rw [Nat.add_sub_cancel]
            exact t1
          · rw [hL1] at q
            omega
          · rw [hL1] at q
            omega
        have h1 : Capped (advance cfg w) j (a + 1) w.LINES := capped_of_same (a5 hu) h0
        have := ih (advance cfg w) (a + 1) w.LINES hj1 hb1 h1 (by rw [k2]; omega)
        rw [k2] at this
        have e1 : a + (1 + colUpdates j cs (advance cfg w)) =
            a + 1 + colUpdates j cs (advance cfg w) := by omega
        have e2 : min (b + (1 + colUpdates j cs (advance cfg w))) w.LINES =
            min (w.LINES + colUpdates j cs (advance cfg w)) w.LINES := by
          rw [Nat.min_eq_right (by omega), Nat.min_eq_right (by omega)]
        rw [e1, e2]
        exact this
    · rw [if_neg hu] at hn ⊢
      have h1 : Capped (advance cfg w) j a b := capped_of_same (a6 hu) hca
      have := ih (advance cfg w) a b hj1 hb1 h1 (by rw [k2]; omega)
      rw [k2] at this
      rw [Nat.zero_add]
      exact this

/-- C3. In every world `w` reached from `var_init` on the boot state by ticks, for every
active column `j`:
(1) when a tick updates the column and caps a run `matrix[z .. b][j]` that has a row below
it (its first cell, below row `0`, holds `-2` after the tick; or the run starts in row `0`,
where the code overwrites that `-2` with `-1` at once, and has more than `length[j]` cells),
the run is a capped run `matrix[z+1 .. b+1][j]` after the tick;
(2) a capped run `matrix[a .. b][j]` is, after any later ticks in `n` of which the column is
updated, the run `matrix[a+n .. min (b+n) LINES][j]`, again capped: each update moves it
down one row with the same number of cells or, once its last cell is on row `LINES`, takes
its first cell; the number of its cells never goes up, whatever `rand()` returns for
`length[j]` at later spawns;
(3) a capped run of one cell on row `LINES` is gone after the next update of the column. -/
theorem capped_run_never_grows (fresh : Nat → Nat → cmatrix) (rows cols : Nat)
    (rng : Nat → Nat) (w0 w : World) (j : Nat)
    (h0 : var_init fresh (boot rows cols rng) = some w0) (ht : Ticks w0 w)
    (hj : active w j) :
    (∀ (cfg : Config) (z b : Nat), isRun w j z b → b < w.LINES →
      colUpdated cfg j (bumpCount w) →
      ((1 ≤ z ∧ ((advance cfg w).matrix z j).val = -2) ∨
        (z = 0 ∧ ((b + 1 : Nat) : Int) > w.length j)) →
      Capped (advance cfg w) j (z + 1) (b + 1)) ∧
    (∀ (cfgs : List Config) (a b : Nat), Capped w j a b →
      a + colUpdates j cfgs w ≤ w.LINES →
      Capped (runTicks cfgs w) j (a + colUpdates j cfgs w)
        (min (b + colUpdates j cfgs w) w.LINES)) ∧
    (∀ (cfg : Config), Capped w j w.LINES w.LINES → colUpdated cfg j (bumpCount w) →
      isSpace ((advance cfg w).matrix w.LINES j)) := by
  have hbt := var_init_built fresh _ w0 h0
  obtain ⟨g, hv⟩ := built_start hbt (Nat.zero_le _)
  obtain ⟨_, _, hb, hvals⟩ := ticks_vals ht g hv
  refine ⟨?_, ?_, ?_⟩
  · intro cfg z b hr hbL hu hobs
    obtain ⟨sa, a1, a2, a3, a4, a5, _⟩ := advance_column cfg j w hj hb
    have hva : ColVals sa j := by
      have := hvals j hj
      unfold ColVals at *
      rw [a2, a3]
      exact ⟨fun r hr => by rw [a3]; exact this.1 r hr, this.2⟩
    refine capped_of_same (a5 hu) (updateColumn_caps cfg j sa a1 hva z b
      (isRun_congr a2 a3 hr) (by rw [a2]; exact hbL) ?_)
    rcases hobs with ⟨q1, q2⟩ | ⟨q1, q2⟩
    · left
      refine ⟨q1, ?_⟩
      rw [← (a5 hu).cells z]
      exact q2
    · right
      refine ⟨q1, ?_⟩
      rw [a4]
      exact q2
  · intro cfgs a b hc hn
    exact runTicks_capped j cfgs w a b hj hb hc hn
  · intro cfg hc hu
    obtain ⟨sa, a1, a2, a3, a4, a5, _⟩ := advance_column cfg j w hj hb
    have hca : Capped sa j w.LINES w.LINES := capped_congr a2 a3 a4 hc
    have hra : isRun sa j w.LINES sa.LINES := by
      rw [a2]
      exact hca.2.1
    obtain ⟨t1, _⟩ := updateColumn_trims cfg j sa a1 w.LINES hca.1 hra
    rw [(a5 hu).cells]
    exact t1

/-! ## C3 at a concrete input -/

set_option maxRecDepth 1000000 in
/-- C3 at a concrete input. On a terminal of 10 rows and 10 columns with `rand()` returning
`0` throughout (`length[0] = 3`), column `0` holds after four ticks the run
`matrix[0 .. 3][0]` of four cells; the fifth tick caps it, and it is the capped run
`matrix[1 .. 4][0]` afterwards. -/
theorem capped_run_never_grows_witness :
    ∃ w0, var_init zeroBlock (boot 10 10 (fun _ => 0)) = some w0 ∧
      Capped (advance defaultConfig ((advance defaultConfig)^[4] w0)) 0 1 4 := by
  have key : ∀ w0 w : World, var_init zeroBlock (boot 10 10 (fun _ => 0)) = some w0 →
      Ticks w0 w → w.LINES = 10 → w.COLS = 10 → w.length 0 = 3 → isGlyph (w.matrix 0 0) →
      isGlyph (w.matrix 1 0) → isGlyph (w.matrix 2 0) → isGlyph (w.matrix 3 0) →
      isSpace (w.matrix 4 0) → Capped (advance defaultConfig w) 0 1 4 := by
    intro w0 w h0 ht f1 f2 f3 f4 f5 f6 f7 f8
    have hr : isRun w 0 0 3 := by
      refine ⟨by omega, by rw [f1]; omega, fun r _ h2 => ?_, fun h => absurd h (by omega),
        fun _ => f8⟩
      interval_cases r
      · exact f4
      · exact f5
      · exact f6
      · exact f7
    exact (capped_run_never_grows zeroBlock 10 10 (fun _ => 0) w0 w 0 h0 ht
      ⟨rfl, by rw [f2]; omega⟩).1 defaultConfig 0 3 hr (by rw [f1]; omega) ⟨Or.inr rfl, rfl⟩
      (Or.inr ⟨rfl, by rw [f3]; norm_num⟩)
  have hf : ((advance defaultConfig)^[4] ((var_init zeroBlock (boot 10 10 (fun _ => 0))).get (by decide!))).LINES = 10 ∧
      ((advance defaultConfig)^[4] ((var_init zeroBlock (boot 10 10 (fun _ => 0))).get (by decide!))).COLS = 10 ∧
      ((advance defaultConfig)^[4] ((var_init zeroBlock (boot 10 10 (fun _ => 0))).get (by decide!))).length 0 = 3 ∧
      isGlyph (((advance defaultConfig)^[4] ((var_init zeroBlock (boot 10 10 (fun _ => 0))).get (by decide!))).matrix 0 0) ∧
      isGlyph (((advance defaultConfig)^[4] ((var_init zeroBlock (boot 10 10 (fun _ => 0))).get (by decide!))).matrix 1 0) ∧
      isGlyph (((advance defaultConfig)^[4] ((var_init zeroBlock (boot 10 10 (fun _ => 0))).get (by decide!))).matrix 2 0) ∧
      isGlyph (((advance defaultConfig)^[4] ((var_init zeroBlock (boot 10 10 (fun _ => 0))).get (by decide!))).matrix 3 0) ∧
      isSpace (((advance defaultConfig)^[4] ((var_init zeroBlock (boot 10 10 (fun _ => 0))).get (by decide!))).matrix 4 0) := by decide!
  exact ⟨_, (Option.some_get _).symm, key _ _ (Option.some_get _).symm
    (ticks_iterate defaultConfig _ 4) hf.1 hf.2.1 hf.2.2.1 hf.2.2.2.1 hf.2.2.2.2.1
    hf.2.2.2.2.2.1 hf.2.2.2.2.2.2.1 hf.2.2.2.2.2.2.2⟩

/-! ## The option `-n` (C11) -/

set_option maxRecDepth 1000000 in
/-- C11, the failing input. `cmatrix -n` leaves the option loop with `bold = -1`, which the
test `if (bold)` of the render pass for `-2` cells and head cells takes as true: on a
terminal of 10 rows and 10 columns with `rand()` returning `0` throughout, the second tick
draws the head cell of the new stream of column `0` (glyph `1`, screen row `0`) with
`A_BOLD` on. And `cmatrix -n -b` leaves the loop with `bold = 1`: the later `-b` is not
overridden. -/
theorem no_bold_option_draws_bold :
    parseOpts [Opt.n] initialOptions =
      some { initialOptions with cfg := { defaultConfig with bold := -1 } } ∧
    parseOpts [Opt.n, Opt.b] initialOptions =
      some { initialOptions with cfg := { defaultConfig with bold := 1 } } ∧
    ∃ w, var_init zeroBlock (boot 10 10 (fun _ => 0)) = some w ∧
      ({ y := 0, x := 0, pair := COLOR_WHITE, bold := true, text := Text.glyph 1 } : Draw) ∈
        (advance { defaultConfig with bold := -1 }
          (advance { defaultConfig with bold := -1 } w)).out ∧
      ¬ NoBoldDrawn (advance { defaultConfig with bold := -1 }
          (advance { defaultConfig with bold := -1 } w)) := by
  have key : ∀ s : World,
      ({ y := 0, x := 0, pair := COLOR_WHITE, bold := true, text := Text.glyph 1 } : Draw) ∈
        s.out → ¬ NoBoldDrawn s := by
    intro s hm h
    have := h _ hm
    exact absurd this (by decide)
  have hm : ({ y := 0, x := 0, pair := COLOR_WHITE, bold := true, text := Text.glyph 1 } : Draw) ∈
      (advance { defaultConfig with bold := -1 } (advance { defaultConfig with bold := -1 }
        ((var_init zeroBlock (boot 10 10 (fun _ => 0))).get (by decide!)))).out := by decide!
  exact ⟨rfl, rfl, _, (Option.some_get _).symm, hm, key _ hm⟩

/-! ## The cap rule for the first run (C12) -/

/-- The column walk below row `0` leaves a `-1` in the staging cell. -/
theorem trav_row0_empty {j i : Nat} {fcd : Int} {s s2 : World} (h : Trav j i fcd s s2)
    (h1 : 1 ≤ i) (h0 : (s.matrix 0 j).val = -1) : (s2.matrix 0 j).val = -1 := by
  induction h with
  | stop _ => exact h0
  | done _ hl _ =>
    rw [logOnly_matrix hl]
    exact h0
  | @bottom i fcd s s1 a hia _ _ _ hw =>
    rw [setVal_cell_row s1 a j (-2) 0 j (by omega), hw.other 0 j (fun hh => by omega)]
    exact h0
  | @grow i fcd s s1 s2 a e hia hae _ _ _ _ hw _ ih =>
    apply ih (by omega)
    rw [growRun_cell j a (e + 1) (e + 1 - a) fcd s1 (by omega) 0 j]
    have c1 : ¬ (j = j ∧ 0 = e + 1) := by omega
    rw [if_neg c1]
    split
    · rfl
    · split
      · rename_i hc
        omega
      · rw [hw.other 0 j (fun hh => by omega)]
        exact h0

/-- With `firstcoldone` set, the walk from a row below row `0` empties the staging cell when
it meets a run with a row below it, and leaves the staging cell alone when it meets none. -/
theorem trav_row0_clears {j i : Nat} {fcd : Int} {s s2 : World} (h : Trav j i fcd s s2)
    (h1 : 1 ≤ i) (hf : fcd ≠ 0) :
    ((∃ r, i ≤ r ∧ r < s.LINES ∧ isGlyph (s.matrix r j) ∧ isSpace (s.matrix (r + 1) j)) →
      (s2.matrix 0 j).val = -1) ∧
    ((¬ ∃ r, i ≤ r ∧ r < s.LINES ∧ isGlyph (s.matrix r j) ∧ isSpace (s.matrix (r + 1) j)) →
      s2.matrix 0 j = s.matrix 0 j) := by
  cases h with
  | stop hlt =>
    refine ⟨fun ⟨r, q1, q2, _, _⟩ => ?_, fun _ => rfl⟩
    omega
  | done _ hl hsp =>
    refine ⟨fun ⟨r, q1, q2, q3, _⟩ => ?_, fun _ => by rw [logOnly_matrix hl]⟩
    exact absurd (hsp r q1 (by omega)) (fun hs => not_space_of_glyph q3 hs)
  | @bottom _ _ _ s1 a hia haL hsp hgl hw =>
    refine ⟨fun ⟨r, q1, q2, q3, q4⟩ => ?_, fun _ => ?_⟩
    · exfalso
      have hra : a ≤ r := by
        by_contra hc
        exact not_space_of_glyph q3 (hsp r q1 (by omega))
      exact not_space_of_glyph (hgl (r + 1) (by omega) (by omega)) q4
    · rw [setVal_cell_row s1 a j (-2) 0 j (by omega), hw.other 0 j (fun hh => by omega)]
  | @grow _ _ _ s1 _ a e hia hae heL hsp hgl hend hw ht =>
    refine ⟨fun _ => ?_, fun hne => ?_⟩
    · apply trav_row0_empty ht (by omega)
      rw [growRun_cell j a (e + 1) (e + 1 - a) fcd s1 (by omega) 0 j]
      have c1 : ¬ (j = j ∧ 0 = e + 1) := by omega
      have c2 : j = j ∧ capCond s1 j (e + 1 - a) fcd ∧ 0 = 0 := ⟨rfl, Or.inr hf, rfl⟩
      rw [if_neg c1, if_pos c2]
    · exact absurd ⟨e, by omega, heL, hgl e hae (le_refl _), hend⟩ hne

/-- C12, as amended. In the update of column `j`, let `matrix[z .. e][j]` be the first run
of the gated column, with a row below it (`e < LINES`). After the update the cap is seen
(the staging cell `matrix[0][j]` holds `-1` and, when `z > 0`, the first cell `z` of the run
holds `-2`) if and only if the run had more than `length[j]` cells before the growth step,
`e + 1 - z > length[j]`, the new head cell not counted; or the run starts in the staging
row and a run below it is grown in the same update, whose cap empties the staging cell as
well. -/
theorem first_run_cap_rule (cfg : Config) (j : Nat) (s : World) (hb : GoodBuf s) (z e : Nat)
    (hf : firstRun (gate j s) j z e) (he : e < s.LINES) :
    capSeen (updateColumn cfg j s) j z ↔
      (((e + 1 - z : Nat) : Int) > (gate j s).length j ∨
        (z = 0 ∧ ∃ r, e + 2 ≤ r ∧ r < s.LINES ∧ isGlyph ((gate j s).matrix r j) ∧
          isSpace ((gate j s).matrix (r + 1) j))) := by
  obtain ⟨hze, _, hsp, hgl, hend⟩ := hf
  have gL : (gate j s).LINES = s.LINES := (gate_frame j s).lines
  have ht := updateColumn_trav cfg j s hb
  have hcase := @trav_cases_run j 0 0 (gate j s) (updateColumn cfg j s) ht z e
    (Nat.zero_le _) hze (by rw [gL]; omega) (fun r _ h2 => hsp r h2) hgl hend
  rcases hcase with ⟨h0, _⟩ | ⟨_, s1, hw, ht2⟩
  · omega
  · have hL : (growRun j z (e + 1) (e + 1 - z) 0 s1).LINES = s.LINES := by
      rw [growRun_lines, hw.lines, gL]
    have cell := @growRun_cell_below j z e 0 (gate j s) s1 (e + 1 - z) hze hw
    have hcc : capCond s1 j (e + 1 - z) 0 ↔ ((e + 1 - z : Nat) : Int) > (gate j s).length j := by
      unfold capCond
      rw [hw.length]
      constructor
      · intro h
        rcases h with h | h
        · exact h
        · exact absurd rfl h
      · intro h
        exact Or.inl h
    have hrow := growRun_cell j z (e + 1) (e + 1 - z) 0 s1 (by omega)
    by_cases hcap : ((e + 1 - z : Nat) : Int) > (gate j s).length j
    · have hc := hcc.mpr hcap
      refine ⟨fun _ => Or.inl hcap, fun _ => ⟨?_, fun hz => ?_⟩⟩
      · apply trav_row0_empty ht2 (by omega)
        rw [hrow 0 j]
        have c1 : ¬ (j = j ∧ 0 = e + 1) := by omega
        rw [if_neg c1, if_pos ⟨rfl, hc, rfl⟩]
      · rw [trav_above ht2 z hz (by omega), hrow z j]
        have c1 : ¬ (j = j ∧ z = e + 1) := by omega
        have c2 : ¬ (j = j ∧ capCond s1 j (e + 1 - z) 0 ∧ z = 0) := by omega
        rw [if_neg c1, if_neg c2, if_pos ⟨rfl, hc, rfl⟩]
    · have hnc : ¬ capCond s1 j (e + 1 - z) 0 := fun h => hcap (hcc.mp h)
      have hkeep : ∀ r, r ≤ e → (growRun j z (e + 1) (e + 1 - z) 0 s1).matrix r j =
          s1.matrix r j := by
        intro r hr
        rw [hrow r j]
        have c1 : ¬ (j = j ∧ r = e + 1) := by omega
        have c2 : ¬ (j = j ∧ capCond s1 j (e + 1 - z) 0 ∧ r = 0) := fun h => hnc h.2.1
        have c3 : ¬ (j = j ∧ capCond s1 j (e + 1 - z) 0 ∧ r = z) := fun h => hnc h.2.1
        rw [if_neg c1, if_neg c2, if_neg c3]
      by_cases hz : 1 ≤ z
      · constructor
        · intro hseen
          exfalso
          have h2 := hseen.2 hz
          rw [trav_above ht2 z hz (by omega), hkeep z hze] at h2
          exact (hw.glyph z (le_refl _) (by omega)).1 h2
        · intro h
          rcases h with h | ⟨h, _⟩
          · exact absurd h hcap
          · omega
      · have hz0 : z = 0 := by omega
        subst hz0
        obtain ⟨k1, k2⟩ := trav_row0_clears ht2 (by omega) (by norm_num)
        have hg0 : isGlyph ((growRun j 0 (e + 1) (e + 1 - 0) 0 s1).matrix 0 j) := by
          rw [hkeep 0 (Nat.zero_le _)]
          exact hw.glyph 0 (le_refl _) (by omega)
        constructor
        · intro hseen
          right
          refine ⟨rfl, ?_⟩
          by_contra hne
          have hno : ¬ ∃ r, e + 2 ≤ r ∧ r < (growRun j 0 (e + 1) (e + 1 - 0) 0 s1).LINES ∧
              isGlyph ((growRun j 0 (e + 1) (e + 1 - 0) 0 s1).matrix r j) ∧
              isSpace ((growRun j 0 (e + 1) (e + 1 - 0) 0 s1).matrix (r + 1) j) := by
            intro ⟨r, q1, q2, q3, q4⟩
            rw [hL] at q2
            rw [cell r q1] at q3
            rw [cell (r + 1) (by omega)] at q4
            exact hne ⟨r, q1, q2, q3, q4⟩
          have h0 := hseen.1
          rw [k2 hno] at h0
          exact hg0.2 h0
        · intro h
          rcases h with h | ⟨_, r, q1, q2, q3, q4⟩
          · exact absurd h hcap
          · refine ⟨k1 ⟨r, q1, by rw [hL]; exact q2, by rw [cell r q1]; exact q3,
              by rw [cell (r + 1) (by omega)]; exact q4⟩, fun h => ?_⟩
            omega

/-! ## C12 at concrete inputs -/

set_option maxRecDepth 1000000 in
/-- C12 as stated fails. On a terminal of 10 rows and 10 columns with `rand()` returning `0`
throughout (`length[0] = 3`), column `0` holds after three ticks the run `matrix[0 .. 2][0]`
of three cells. The update of the fourth tick grows it to four cells, more than
`length[0]`, and does not cap it: the staging cell `matrix[0][0]` keeps its glyph, because
the code compares the three cells counted before the growth step. -/
theorem grown_length_does_not_cap :
    ∃ w, var_init zeroBlock (boot 10 10 (fun _ => 0)) = some w ∧
      ¬ CapRuleAsStated defaultConfig 0 (bumpCount ((advance defaultConfig)^[3] w)) := by
  have key : ∀ s : World, s.LINES = 10 → (gate 0 s).LINES = 10 → (gate 0 s).length 0 = 3 →
      isGlyph ((gate 0 s).matrix 0 0) → isGlyph ((gate 0 s).matrix 1 0) →
      isGlyph ((gate 0 s).matrix 2 0) → isSpace ((gate 0 s).matrix 3 0) →
      ((updateColumn defaultConfig 0 s).matrix 0 0).val = 1 →
      ¬ CapRuleAsStated defaultConfig 0 s := by
    intro s f1 f2 f3 f4 f5 f6 f7 f8 h
    have hfr : firstRun (gate 0 s) 0 0 2 := by
      refine ⟨by omega, by rw [f2]; omega, fun r hr => absurd hr (by omega),
        fun r _ h2 => ?_, fun _ => f7⟩
      interval_cases r
      · exact f4
      · exact f5
      · exact f6
    have hseen := (h 0 2 hfr (by rw [f1]; omega)).mpr (by rw [f3]; norm_num)
    have h0 := hseen.1
    rw [f8] at h0
    omega
  have hf : (bumpCount ((advance defaultConfig)^[3] ((var_init zeroBlock (boot 10 10 (fun _ => 0))).get (by decide!)))).LINES = 10 ∧
      (gate 0 (bumpCount ((advance defaultConfig)^[3] ((var_init zeroBlock (boot 10 10 (fun _ => 0))).get (by decide!))))).LINES = 10 ∧
      (gate 0 (bumpCount ((advance defaultConfig)^[3] ((var_init zeroBlock (boot 10 10 (fun _ => 0))).get (by decide!))))).length 0 = 3 ∧
      isGlyph ((gate 0 (bumpCount ((advance defaultConfig)^[3] ((var_init zeroBlock (boot 10 10 (fun _ => 0))).get (by decide!))))).matrix 0 0) ∧
      isGlyph ((gate 0 (bumpCount ((advance defaultConfig)^[3] ((var_init zeroBlock (boot 10 10 (fun _ => 0))).get (by decide!))))).matrix 1 0) ∧
      isGlyph ((gate 0 (bumpCount ((advance defaultConfig)^[3] ((var_init zeroBlock (boot 10 10 (fun _ => 0))).get (by decide!))))).matrix 2 0) ∧
      isSpace ((gate 0 (bumpCount ((advance defaultConfig)^[3] ((var_init zeroBlock (boot 10 10 (fun _ => 0))).get (by decide!))))).matrix 3 0) ∧
      ((updateColumn defaultConfig 0 (bumpCount ((advance defaultConfig)^[3] ((var_init zeroBlock (boot 10 10 (fun _ => 0))).get (by decide!))))).matrix 0 0).val = 1 := by
    decide!
  exact ⟨_, (Option.some_get _).symm, key _ hf.1 hf.2.1 hf.2.2.1 hf.2.2.2.1 hf.2.2.2.2.1
    hf.2.2.2.2.2.1 hf.2.2.2.2.2.2.1 hf.2.2.2.2.2.2.2⟩

set_option maxRecDepth 1000000 in
/-- C12 as amended, at a concrete input. On the same terminal column `0` holds after four
ticks the run `matrix[0 .. 3][0]` of four cells, more than `length[0] = 3`; the update of
the fifth tick caps it, and the staging cell holds `-1` afterwards. -/
theorem first_run_cap_rule_witness :
    ∃ w, var_init zeroBlock (boot 10 10 (fun _ => 0)) = some w ∧
      capSeen (updateColumn defaultConfig 0 (bumpCount ((advance defaultConfig)^[4] w))) 0 0 := by
  have key : ∀ w0 w : World, var_init zeroBlock (boot 10 10 (fun _ => 0)) = some w0 →
      Ticks w0 w → (bumpCount w).LINES = 10 → (gate 0 (bumpCount w)).LINES = 10 →
      (gate 0 (bumpCount w)).length 0 = 3 →
      isGlyph ((gate 0 (bumpCount w)).matrix 0 0) →
      isGlyph ((gate 0 (bumpCount w)).matrix 1 0) →
      isGlyph ((gate 0 (bumpCount w)).matrix 2 0) →
      isGlyph ((gate 0 (bumpCount w)).matrix 3 0) →
      isSpace ((gate 0 (bumpCount w)).matrix 4 0) →
      capSeen (updateColumn defaultConfig 0 (bumpCount w)) 0 0 := by
    intro w0 w h0 ht f1 f2 f3 f4 f5 f6 f7 f8
    have hbt := var_init_built zeroBlock _ w0 h0
    obtain ⟨g, hv⟩ := built_start hbt (Nat.zero_le _)
    obtain ⟨_, _, hb, _⟩ := ticks_vals ht g hv
    have hfr : firstRun (gate 0 (bumpCount w)) 0 0 3 := by
      refine ⟨by omega, by rw [f2]; omega, fun r hr => absurd hr (by omega),
        fun r _ h2 => ?_, fun _ => f8⟩
      interval_cases r
      · exact f4
      · exact f5
      · exact f6
      · exact f7
    exact (first_run_cap_rule defaultConfig 0 (bumpCount w) (bumpCount_goodBuf w hb) 0 3 hfr
      (by rw [f1]; omega)).mpr (Or.inl (by rw [f3]; norm_num))
  have hf : (bumpCount ((advance defaultConfig)^[4] ((var_init zeroBlock (boot 10 10 (fun _ => 0))).get (by decide!)))).LINES = 10 ∧
      (gate 0 (bumpCount ((advance defaultConfig)^[4] ((var_init zeroBlock (boot 10 10 (fun _ => 0))).get (by decide!))))).LINES = 10 ∧
      (gate 0 (bumpCount ((advance defaultConfig)^[4] ((var_init zeroBlock (boot 10 10 (fun _ => 0))).get (by decide!))))).length 0 = 3 ∧
      isGlyph ((gate 0 (bumpCount ((advance defaultConfig)^[4] ((var_init zeroBlock (boot 10 10 (fun _ => 0))).get (by decide!))))).matrix 0 0) ∧
      isGlyph ((gate 0 (bumpCount ((advance defaultConfig)^[4] ((var_init zeroBlock (boot 10 10 (fun _ => 0))).get (by decide!))))).matrix 1 0) ∧
      isGlyph ((gate 0 (bumpCount ((advance defaultConfig)^[4] ((var_init zeroBlock (boot 10 10 (fun _ => 0))).get (by decide!))))).matrix 2 0) ∧
      isGlyph ((gate 0 (bumpCount ((advance defaultConfig)^[4] ((var_init zeroBlock (boot 10 10 (fun _ => 0))).get (by decide!))))).matrix 3 0) ∧
      isSpace ((gate 0 (bumpCount ((advance defaultConfig)^[4] ((var_init zeroBlock (boot 10 10 (fun _ => 0))).get (by decide!))))).matrix 4 0) := by
    decide!
  exact ⟨_, (Option.some_get _).symm, key _ _ (Option.some_get _).symm
    (ticks_iterate defaultConfig _ 4) hf.1 hf.2.1 hf.2.2.1 hf.2.2.2.1 hf.2.2.2.2.1
    hf.2.2.2.2.2.1 hf.2.2.2.2.2.2.1 hf.2.2.2.2.2.2.2⟩

/-! ## With `bold == 0` nothing is drawn bold -/

theorem fillRand_screen : ∀ (fuel i : Nat) (s : World),
    (fillRand fuel i s).attr_bold = s.attr_bold ∧ (fillRand fuel i s).out = s.out := by
  intro fuel
  induction fuel with
  | zero => intro i s; exact ⟨rfl, rfl⟩
  | succ n ih =>
    intro i s
    simp only [fillRand, World.rand]
    split
    · exact ih _ _
    · exact ⟨rfl, rfl⟩

theorem clearRow_screen (i : Nat) : ∀ (fuel j0 : Nat) (s : World),
    (clearRow i fuel j0 s).attr_bold = s.attr_bold ∧ (clearRow i fuel j0 s).out = s.out := by
  intro fuel
  induction fuel with
  | zero => intro j0 s; exact ⟨rfl, rfl⟩
  | succ n ih =>
    intro j0 s
    simp only [clearRow]
    split
    · exact ih _ _
    · exact ⟨rfl, rfl⟩

theorem clearRows_screen : ∀ (fuel i0 : Nat) (s : World),
    (clearRows fuel i0 s).attr_bold = s.attr_bold ∧ (clearRows fuel i0 s).out = s.out := by
  intro fuel
  induction fuel with
  | zero => intro i0 s; exact ⟨rfl, rfl⟩
  | succ n ih =>
    intro i0 s
    simp only [clearRows]
    split
    · obtain ⟨a1, a2⟩ := ih (i0 + 1) (clearRow i0 s.COLS 0 s)
      obtain ⟨b1, b2⟩ := clearRow_screen i0 s.COLS 0 s
      exact ⟨a1.trans b1, a2.trans b2⟩
    · exact ⟨rfl, rfl⟩

theorem initColumn_screen (j : Nat) (s w : World) (h : initColumn j s = some w) :
    w.attr_bold = s.attr_bold ∧ w.out = s.out := by
  by_cases hL : 2 ≤ s.LINES
  · rw [initColumn_some j s hL] at h
    injection h with h
    rw [← h]
    exact ⟨rfl, rfl⟩
  · rw [initColumn_none j s (by omega)] at h
    exact absurd h (by simp)

theorem initColumns_screen : ∀ (fuel j0 : Nat) (s w : World),
    initColumns fuel j0 s = some w → w.attr_bold = s.attr_bold ∧ w.out = s.out := by
  intro fuel
  induction fuel with
  | zero =>
    intro j0 s w h
    simp only [initColumns] at h
    injection h with h
    rw [← h]
    exact ⟨rfl, rfl⟩
  | succ n ih =>
    intro j0 s w h
    simp only [initColumns] at h
    split at h
    · split at h
      · exact absurd h (by simp)
      · rename_i s1 h1
        obtain ⟨a1, a2⟩ := ih _ _ _ h
        obtain ⟨b1, b2⟩ := initColumn_screen j0 s s1 h1
        exact ⟨a1.trans b1, a2.trans b2⟩
    · injection h with h
      rw [← h]
      exact ⟨rfl, rfl⟩

/-- `var_init` draws nothing and leaves the attributes alone. -/
theorem var_init_screen (fresh : Nat → Nat → cmatrix) (s w : World)
    (h : var_init fresh s = some w) : w.attr_bold = s.attr_bold ∧ w.out = s.out := by
  unfold var_init at h
  obtain ⟨a1, a2⟩ := initColumns_screen _ _ _ _ h
  obtain ⟨b1, b2⟩ := clearRows_screen
    ((fillRand (RAND_LEN + 1) 0 { s with matrix := fresh }).LINES + 1) 0
    (fillRand (RAND_LEN + 1) 0 { s with matrix := fresh })
  obtain ⟨c1, c2⟩ := fillRand_screen (RAND_LEN + 1) 0 { s with matrix := fresh }
  exact ⟨a1.trans (b1.trans c1), a2.trans (b2.trans c2)⟩

theorem plain_ite {c : Prop} [Decidable c] {a b : World} (ha : c → Plain a)
    (hb : ¬ c → Plain b) : Plain (if c then a else b) := by
  split
  · rename_i hc
    exact ha hc
  · rename_i hc
    exact hb hc

theorem plain_addstr {s : World} (h : Plain s) (y x : Nat) (t : Text) :
    Plain (s.addstr y x t) := by
  refine ⟨h.1, fun d hd => ?_⟩
  rcases List.mem_cons.mp hd with q | q
  · rw [q]
    exact h.1
  · exact h.2 d q

theorem plain_addGlyph {s : World} (h : Plain s) (i j : Nat) : Plain (s.addGlyph i j) := by
  refine ⟨h.1, fun d hd => ?_⟩
  rcases List.mem_cons.mp hd with q | q
  · rw [q]
    exact h.1
  · exact h.2 d q

theorem plain_attroffBold {s : World} (h : Plain s) : Plain s.attroffBold :=
  ⟨rfl, h.2⟩

/-- With `bold == 0` the render pass of a cell turns `A_BOLD` on for no `addstr`. -/
theorem renderCell_plain (cfg : Config) (i j : Nat) (s : World) (hb0 : cfg.bold = 0)
    (h : Plain s) : Plain (renderCell cfg i j s) := by
  unfold renderCell
  lift_lets
  intro s1 s2 s3 s4 s5 s6 s7 s8 s9 s10 s11 s12 s13 s14
  have h1 : Plain s1 := h
  have h2 : Plain s2 := h1
  have h3 : Plain s3 := plain_ite (fun hc => absurd hb0 hc) (fun _ => h2)
  have h4 : Plain s4 := h3
  have h5 : Plain s5 := plain_ite (fun _ => plain_addstr h4 _ _ _) (fun _ => plain_addGlyph h4 i j)
  have h6 : Plain s6 := h5
  have h7 : Plain s7 := plain_ite (fun _ => h1) (fun _ => h1)
  have h8 : Plain s8 := h7
  have h9 : Plain s9 := h8
  have h10 : Plain s10 := plain_ite (fun hc => by omega) (fun _ => h9)
  have h11 : Plain s11 := h10
  have h12 : Plain s12 := plain_ite (fun _ => plain_addstr h11 _ _ _)
    (fun _ => plain_ite (fun _ => plain_addstr h11 _ _ _) (fun _ => plain_addGlyph h11 i j))
  have h13 : Plain s13 := h12
  have h14 : Plain s14 := plain_ite (fun _ => plain_attroffBold h13) (fun _ => h13)
  exact plain_ite (fun _ => plain_ite (fun _ => plain_attroffBold h6) (fun _ => h6))
    (fun _ => h14)

theorem renderRows_plain (cfg : Config) (j : Nat) (hb0 : cfg.bold = 0) :
    ∀ (fuel i : Nat) (s : World), Plain s → Plain (renderRows cfg j fuel i s) := by
  intro fuel
  induction fuel with
  | zero => intro i s h; exact h
  | succ n ih =>
    intro i s h
    simp only [renderRows]
    split
    · exact ih _ _ (renderCell_plain cfg i j s hb0 h)
    · exact h

theorem tickColumn_plain (cfg : Config) (j : Nat) (s : World) (hb0 : cfg.bold = 0)
    (h : Plain s) : Plain (tickColumn cfg j s) := by
  rw [tickColumn_unfold]
  apply renderRows_plain cfg j hb0
  split
  · obtain ⟨f, _⟩ := updateColumn_frame cfg j s
    unfold Plain NoBoldDrawn
    rw [f.attr_bold, f.out]
    exact h
  · exact h

theorem tickColumns_plain (cfg : Config) (hb0 : cfg.bold = 0) :
    ∀ (fuel j0 : Nat) (s : World), Plain s → Plain (tickColumns cfg fuel j0 s) := by
  intro fuel
  induction fuel with
  | zero => intro j0 s h; exact h
  | succ n ih =>
    intro j0 s h
    simp only [tickColumns]
    split
    · exact ih _ _ (tickColumn_plain cfg j0 s hb0 h)
    · exact h

theorem advance_plain (cfg : Config) (s : World) (hb0 : cfg.bold = 0) (h : Plain s) :
    Plain (advance cfg s) := by
  unfold advance
  apply tickColumns_plain cfg hb0
  unfold bumpCount
  simp only []
  split
  · exact h
  · exact h

/-- What the key `n` of the main loop (`bold = 0`, the default) gives, and what `-n` is
documented to give: from the boot state, after `var_init` and any ticks under
configurations with `bold == 0`, no `addstr` call was made with `A_BOLD` on. -/
theorem bold_zero_draws_plain (fresh : Nat → Nat → cmatrix) (rows cols : Nat)
    (rng : Nat → Nat) (w : World) (h0 : var_init fresh (boot rows cols rng) = some w) :
    ∀ cfgs : List Config, (∀ cfg, cfg ∈ cfgs → cfg.bold = 0) →
      NoBoldDrawn (runTicks cfgs w) := by
  obtain ⟨a1, a2⟩ := var_init_screen fresh _ w h0
  have hp : Plain w := by
    refine ⟨a1, fun d hd => ?_⟩
    rw [a2] at hd
    exact absurd hd (List.not_mem_nil d)
  intro cfgs
  suffices hh : ∀ w1 : World, Plain w1 → (∀ cfg, cfg ∈ cfgs → cfg.bold = 0) →
      Plain (runTicks cfgs w1) from fun hc => (hh w hp hc).2
  induction cfgs with
  | nil => intro w1 h1 _; exact h1
  | cons cfg cs ih =>
    intro w1 h1 hc
    simp only [runTicks]
    exact ih _ (advance_plain cfg w1 (hc cfg (List.mem_cons_self _ _)) h1)
      (fun c hcm => hc c (List.mem_cons_of_mem _ hcm))

/-- The theorem at a concrete input: 10 rows, 10 columns, two ticks with the defaults. -/
theorem bold_zero_draws_plain_witness :
    ∃ w, var_init zeroBlock (boot 10 10 (fun _ => 0)) = some w ∧
      NoBoldDrawn (runTicks [defaultConfig, defaultConfig] w) := by
  obtain ⟨w, hw⟩ := var_init_total zeroBlock (boot 10 10 (fun _ => 0)) (by decide)
  refine ⟨w, hw, bold_zero_draws_plain zeroBlock 10 10 (fun _ => 0) w hw _ ?_⟩
  intro cfg hc
  simp only [List.mem_cons, List.mem_singleton, List.not_mem_nil, or_false, or_self] at hc
  rw [hc]
  rfl

end CMatrix
